import Mathlib

/-!
# Segregated free-list allocator (`hw-memory/mm_alloc/mm_alloc.c`)

A shallow embedding of the allocator: the heap is a byte-addressed memory,
the two static variables `heap_listp` and `ptr` are fields of the state, and
the heap-growth primitive `sbrk` moves a break by a signed increment, up to a
limit.
Machine words are 64 bits wide; every pointer and `size_t` computation is
reduced modulo `2^64`, and the `int` parameter of `find_id` is a 32-bit
two's-complement value.
-/

namespace MM

/-! ## Machine arithmetic -/

/-- Number of values of a 64-bit word (`size_t`, `u_int64_t`, pointers). -/
def W64 : Nat := 18446744073709551616

/-- Wrap a natural number to a 64-bit word. -/
def w64 (x : Nat) : Nat := x % W64

/-- Pointer or `size_t` subtraction `a - b` on 64-bit words. -/
def sub64 (a b : Nat) : Nat := (a + (W64 - b % W64)) % W64

/-- Conversion of a 64-bit word to a C `int` (32-bit two's complement). -/
def toInt32 (x : Nat) : Int :=
  if x % 4294967296 < 2147483648 then ((x % 4294967296 : Nat) : Int)
  else ((x % 4294967296 : Nat) : Int) - 4294967296

/-- Conversion of a 64-bit word to `intptr_t` (64-bit two's complement): the
words from `2^63` on are the negative values. -/
def toInt64 (x : Nat) : Int :=
  if x % W64 < 9223372036854775808 then ((x % W64 : Nat) : Int)
  else ((x % W64 : Nat) : Int) - 18446744073709551616

/-- The value `(void *)-1` that `sbrk` returns on failure. -/
def NEG1 : Nat := 18446744073709551615

/-! ## Constants of the source -/

/-- `WSIZE`: word size in bytes. -/
def WSIZE : Nat := 8
/-- `DSIZE`: double word size in bytes. -/
def DSIZE : Nat := 16
/-- `MAX_N`: number of buckets. -/
def MAX_N : Nat := 21
/-- `CHUNKSIZE`: default heap growth, `1 << 12`. -/
def CHUNKSIZE : Nat := 4096

/-! ## Memory -/

/-- Byte-addressed memory: the byte stored at every address. Every address
can be read and written; the model has no unmapped addresses, so a load or a
store that makes the program fault (through `NULL`, or outside the heap) is
not told apart from one inside the heap. The runs on concrete heaps below say
which addresses they read and write where that matters. -/
abbrev Mem := Nat → Nat

/-- Little-endian value of the `k` bytes starting at `p`. -/
def rdBytes (m : Mem) (p : Nat) : Nat → Nat
  | 0 => 0
  | k + 1 => m p % 256 + 256 * rdBytes m (p + 1) k

/-- `GET(p)`: the 64-bit word stored at address `p`. -/
def GET (m : Mem) (p : Nat) : Nat := rdBytes m p 8

/-- `PUT(p, val)`: store the 64-bit word `val` at address `p`. -/
def PUT (m : Mem) (p val : Nat) : Mem :=
  fun a => if p ≤ a ∧ a < p + 8 then val / 256 ^ (a - p) % 256 else m a

/-- `memcpy(dst, src, k)` for the byte ranges the allocator hands to it: byte
`i` of the destination receives byte `i` of the source, for `i < k`. -/
def memcpy (m : Mem) (dst src k : Nat) : Mem :=
  fun a => if dst ≤ a ∧ a < dst + k then m (src + (a - dst)) else m a

/-- `PACK(size, alloc)`: `(size) | (alloc)`. -/
def PACK (size alloc : Nat) : Nat := size ||| alloc

/-- `GET_SIZE(p)`: `GET(p) & ~0x7`. -/
def GET_SIZE (m : Mem) (p : Nat) : Nat := GET m p &&& 18446744073709551608

/-- `GET_ALLOC(p)`: `GET(p) & 0x1`. -/
def GET_ALLOC (m : Mem) (p : Nat) : Nat := GET m p &&& 1

/-- `HDRP(bp)`: `(char *)(bp) - WSIZE`. -/
def HDRP (bp : Nat) : Nat := sub64 bp WSIZE

/-- `FTRP(bp)`: `(char *)(bp) + GET_SIZE(HDRP(bp)) - DSIZE`. -/
def FTRP (m : Mem) (bp : Nat) : Nat := sub64 (w64 (bp + GET_SIZE m (HDRP bp))) DSIZE

/-- `NEXT_BLKP(bp)`: `(char *)(bp) + GET_SIZE((char *)(bp) - WSIZE)`. -/
def NEXT_BLKP (m : Mem) (bp : Nat) : Nat := w64 (bp + GET_SIZE m (sub64 bp WSIZE))

/-- `PREV_BLKP(bp)`: `(char *)(bp) - GET_SIZE((char *)(bp) - DSIZE)`. -/
def PREV_BLKP (m : Mem) (bp : Nat) : Nat := sub64 bp (GET_SIZE m (sub64 bp DSIZE))

/-- `PRED(bp)`: the word at `bp`. -/
def PRED (m : Mem) (bp : Nat) : Nat := GET m bp

/-- `SUCC(bp)`: the word at `(u_int64_t *)bp + 1`. -/
def SUCC (m : Mem) (bp : Nat) : Nat := GET m (w64 (bp + 8))

/-- `PUT_PRED(bp, val)`. -/
def PUT_PRED (m : Mem) (bp val : Nat) : Mem := PUT m bp val

/-- `PUT_SUCC(bp, val)`. -/
def PUT_SUCC (m : Mem) (bp val : Nat) : Mem := PUT m (w64 (bp + 8)) val

/-! ## Allocator state -/

/-- The heap: memory, the program break with the limit the growth primitive
cannot pass, and the two static pointers of the source. -/
structure Heap where
  /-- Contents of memory. -/
  mem : Mem
  /-- Current program break: the heap extent ends here. -/
  brk : Nat
  /-- The break cannot be moved past this address. -/
  limit : Nat
  /-- `static void *heap_listp` (0 is `NULL`). -/
  heap_listp : Nat
  /-- `static void *ptr`: start of the bucket table (0 is `NULL`). -/
  ptr : Nat

/-- The heap-growth primitive `sbrk(incr)` as the source calls it, with a
`size_t` argument `incr`: the parameter of `sbrk` is an `intptr_t`, so the
argument is converted and a value of `2^63` or more is a negative increment.
The break moves by the signed increment and the previous break is returned;
`(void *)-1` is returned and the break stays where it is when the new break
would pass the limit or fall below address 0. -/
def sbrk (s : Heap) (incr : Nat) : Heap × Nat :=
  if 0 ≤ (s.brk : Int) + toInt64 incr ∧ (s.brk : Int) + toInt64 incr ≤ (s.limit : Int) then
    ({ s with brk := ((s.brk : Int) + toInt64 incr).toNat }, s.brk)
  else (s, NEG1)

/-! ## Size classes -/

/-- The loop of `find_id`: `k` iterations left, loop counter `i`, `now`. -/
def find_id_loop (sz : Int) : Nat → Nat → Int → Nat
  | 0, _, _ => MAX_N - 1
  | k + 1, i, now => if sz ≤ now then i else find_id_loop sz k (i + 1) (now * 2)

/-- `find_id(sz)`: index of the first power of two that is at least `sz`. -/
def find_id (sz : Int) : Nat := find_id_loop sz MAX_N 0 1

/-- The bucket of a block of size `size`, as `LIST_ID` computes it from the
header: `MIN((int)(find_id(size - 31)), MAX_N - 1)`. -/
def listIdOfSize (size : Nat) : Nat := min (find_id (toInt32 (sub64 size 31))) (MAX_N - 1)

/-- `LIST_ID(bp)`. -/
def LIST_ID (m : Mem) (bp : Nat) : Nat := listIdOfSize (GET_SIZE m (HDRP bp))

/-- `HEAD_PTR_ADDR(id)`: `(u_int64_t *)ptr + id`. -/
def HEAD_PTR_ADDR (s : Heap) (id : Nat) : Nat := w64 (s.ptr + 8 * id)

/-- `HEAD_PTR(id)`. -/
def HEAD_PTR (s : Heap) (id : Nat) : Nat := GET s.mem (HEAD_PTR_ADDR s id)

/-- `IS_HEAD_PTR(p)`: `ptr <= p` and `p < (u_int64_t *)ptr + MAX_N`. -/
def IS_HEAD_PTR (s : Heap) (p : Nat) : Bool :=
  decide (s.ptr ≤ p) && decide (p < w64 (s.ptr + 8 * MAX_N))

/-- Replace the memory of a heap. -/
def Heap.setMem (s : Heap) (m : Mem) : Heap := { s with mem := m }

/-- `PUT` on the memory of a heap. -/
def Heap.put (s : Heap) (p val : Nat) : Heap := s.setMem (PUT s.mem p val)

/-! ## Free-list store -/

/-- `insert_to_list(bp)`. -/
def insert_to_list (s : Heap) (bp : Nat) : Heap :=
  let id := LIST_ID s.mem bp
  let head_ptr_addr := HEAD_PTR_ADDR s id
  let head_ptr := HEAD_PTR s id
  if head_ptr = 0 then
    let s1 := s.put (HEAD_PTR_ADDR s id) bp
    let s2 := s1.setMem (PUT_PRED s1.mem bp head_ptr_addr)
    s2.setMem (PUT_SUCC s2.mem bp 0)
  else
    let next_block_bp := head_ptr
    let s1 := s.put (HEAD_PTR_ADDR s id) bp
    let s2 := s1.setMem (PUT_PRED s1.mem next_block_bp bp)
    let s3 := s2.setMem (PUT_PRED s2.mem bp head_ptr_addr)
    s3.setMem (PUT_SUCC s3.mem bp next_block_bp)

/-- `delete_from_list(bp)`; every macro reads the memory as it is when the
statement runs. -/
def delete_from_list (s : Heap) (bp : Nat) : Heap :=
  if IS_HEAD_PTR s (PRED s.mem bp) then
    let id := LIST_ID s.mem bp
    let s1 := s.put (HEAD_PTR_ADDR s id) (SUCC s.mem bp)
    if SUCC s1.mem bp ≠ 0 then
      s1.setMem (PUT_PRED s1.mem (SUCC s1.mem bp) (HEAD_PTR_ADDR s1 id))
    else s1
  else
    let s1 := s.setMem (PUT_SUCC s.mem (PRED s.mem bp) (SUCC s.mem bp))
    if SUCC s1.mem bp ≠ 0 then
      s1.setMem (PUT_PRED s1.mem (SUCC s1.mem bp) (PRED s1.mem bp))
    else s1

/-! ## Coalescer, heap grower, fit search, placement -/

/-- `coalesce(bp)`: the heap afterwards and the returned block pointer. -/
def coalesce (s : Heap) (bp : Nat) : Heap × Nat :=
  let prev_alloc := GET_ALLOC s.mem (FTRP s.mem (PREV_BLKP s.mem bp))
  let next_alloc := GET_ALLOC s.mem (HDRP (NEXT_BLKP s.mem bp))
  let size := GET_SIZE s.mem (HDRP bp)
  if prev_alloc ≠ 0 ∧ next_alloc ≠ 0 then (s, bp)
  else if prev_alloc ≠ 0 ∧ ¬ next_alloc ≠ 0 then
    let s1 := delete_from_list s bp
    let s2 := delete_from_list s1 (NEXT_BLKP s1.mem bp)
    let size := w64 (size + GET_SIZE s2.mem (HDRP (NEXT_BLKP s2.mem bp)))
    let s3 := s2.put (HDRP bp) (PACK size 0)
    let s4 := s3.put (FTRP s3.mem bp) (PACK size 0)
    (insert_to_list s4 bp, bp)
  else if ¬ prev_alloc ≠ 0 ∧ next_alloc ≠ 0 then
    let s1 := delete_from_list s bp
    let s2 := delete_from_list s1 (PREV_BLKP s1.mem bp)
    let size := w64 (size + GET_SIZE s2.mem (HDRP (PREV_BLKP s2.mem bp)))
    let s3 := s2.put (FTRP s2.mem bp) (PACK size 0)
    let s4 := s3.put (HDRP (PREV_BLKP s3.mem bp)) (PACK size 0)
    let bp := PREV_BLKP s4.mem bp
    (insert_to_list s4 bp, bp)
  else
    let s1 := delete_from_list s bp
    let s2 := delete_from_list s1 (NEXT_BLKP s1.mem bp)
    let s3 := delete_from_list s2 (PREV_BLKP s2.mem bp)
    let size := w64 (size + w64 (GET_SIZE s3.mem (HDRP (PREV_BLKP s3.mem bp))
      + GET_SIZE s3.mem (FTRP s3.mem (NEXT_BLKP s3.mem bp))))
    let s4 := s3.put (HDRP (PREV_BLKP s3.mem bp)) (PACK size 0)
    let s5 := s4.put (FTRP s4.mem (NEXT_BLKP s4.mem bp)) (PACK size 0)
    let bp := PREV_BLKP s5.mem bp
    (insert_to_list s5 bp, bp)

/-- The byte count `extend_heap(words)` asks of the growth primitive:
`(words % 2) ? (words+1) * WSIZE : words * WSIZE`. -/
def growSize (words : Nat) : Nat :=
  if words % 2 ≠ 0 then w64 ((words + 1) * WSIZE) else w64 (words * WSIZE)

/-- `extend_heap(words)`: the heap afterwards and the returned pointer
(0 is `NULL`). The byte count `size` is a `size_t`; `sbrk` converts it to
`intptr_t`, so from `2^63` on it is a negative increment. -/
def extend_heap (s : Heap) (words : Nat) : Heap × Nat :=
  let size := growSize words
  -- `sbrk(size)`: the `size_t` byte count becomes the `intptr_t` increment
  let r := sbrk s size
  let bp := r.2
  if bp = NEG1 then (r.1, 0)
  else
    let s1 := r.1.put (HDRP bp) (PACK size 0)
    let s2 := s1.put (FTRP s1.mem bp) (PACK size 0)
    let s3 := s2.put (HDRP (NEXT_BLKP s2.mem bp)) (PACK 0 1)
    coalesce (insert_to_list s3 bp) bp

/-- The `while` loop of `find_fit` over one bucket list, with at most `fuel`
iterations: `none` when the fuel runs out, `some 0` when the list ends
without a fit. -/
def find_fit_list (m : Mem) (asize : Nat) : Nat → Nat → Option Nat
  | 0, _ => none
  | fuel + 1, bp =>
    if bp = 0 then some 0
    else if asize ≤ GET_SIZE m (HDRP bp) then some bp
    else find_fit_list m asize fuel (SUCC m bp)

/-- The `for` loop of `find_fit`: `k` buckets left, starting at bucket `id`. -/
def find_fit_from (s : Heap) (asize fuel : Nat) : Nat → Nat → Option Nat
  | 0, _ => some 0
  | k + 1, id =>
    match find_fit_list s.mem asize fuel (HEAD_PTR s id) with
    | none => none
    | some 0 => find_fit_from s asize fuel k (id + 1)
    | some bp => some bp

/-- `find_fit(asize)`; each bucket list is followed for at most `fuel`
steps. -/
def find_fit (fuel : Nat) (s : Heap) (asize : Nat) : Option Nat :=
  let id := find_id (toInt32 asize)
  find_fit_from s asize fuel (MAX_N - id) id

/-- `place(bp, asize)`. -/
def place (s : Heap) (bp asize : Nat) : Heap :=
  let s1 := delete_from_list s bp
  let size := GET_SIZE s1.mem (HDRP bp)
  if 4 * WSIZE ≤ sub64 size asize then
    let s2 := s1.put (HDRP bp) (PACK asize 1)
    let s3 := s2.put (FTRP s2.mem bp) (PACK asize 1)
    let bp := NEXT_BLKP s3.mem bp
    let s4 := s3.put (HDRP bp) (PACK (sub64 size asize) 0)
    let s5 := s4.put (FTRP s4.mem bp) (PACK (sub64 size asize) 0)
    insert_to_list s5 bp
  else
    let s2 := s1.put (HDRP bp) (PACK size 1)
    s2.put (FTRP s2.mem bp) (PACK size 1)

/-! ## Public operations -/

/-- The loop of `mm_init` that clears the bucket table: `k` slots left,
starting at slot `i`. -/
def init_buckets (m : Mem) (base : Nat) : Nat → Nat → Mem
  | 0, _ => m
  | k + 1, i => init_buckets (PUT m (w64 (base + i * WSIZE)) 0) base k (i + 1)

/-- `mm_init()`: the heap afterwards and the returned `int`. -/
def mm_init (s : Heap) : Heap × Int :=
  let r := sbrk s ((MAX_N + 3) * WSIZE)
  let s1 : Heap := { r.1 with heap_listp := r.2 }
  if s1.heap_listp = NEG1 then (s1, -1)
  else
    let s2 := s1.setMem (init_buckets s1.mem s1.heap_listp MAX_N 0)
    let s3 := s2.put (w64 (s2.heap_listp + MAX_N * WSIZE)) (PACK DSIZE 1)
    let s4 := s3.put (w64 (s3.heap_listp + (1 + MAX_N) * WSIZE)) (PACK DSIZE 1)
    let s5 := s4.put (w64 (s4.heap_listp + (2 + MAX_N) * WSIZE)) (PACK 0 1)
    let s6 : Heap := { s5 with ptr := s5.heap_listp }
    let s7 : Heap := { s6 with heap_listp := w64 (s6.heap_listp + (1 + MAX_N) * WSIZE) }
    let e := extend_heap s7 (CHUNKSIZE / WSIZE)
    if e.2 = 0 then (e.1, -1) else (e.1, 0)

/-- The adjusted block size that `mm_malloc` computes from the request. -/
def adjust (size : Nat) : Nat :=
  if size ≤ DSIZE then 2 * DSIZE
  else w64 (DSIZE * (w64 (size + DSIZE + (DSIZE - 1)) / DSIZE))

/-- The part of `mm_malloc` after the lazy initialisation. -/
def mm_malloc_body (fuel : Nat) (s : Heap) (size : Nat) : Option (Heap × Nat) :=
  if size = 0 then some (s, 0)
  else
    let asize := adjust size
    match find_fit fuel s asize with
    | none => none
    | some bp =>
      if bp ≠ 0 then some (place s bp asize, bp)
      else
        let extendsize := max asize CHUNKSIZE
        let e := extend_heap s (extendsize / WSIZE)
        if e.2 = 0 then some (e.1, 0)
        else some (place e.1 e.2 asize, e.2)

/-- `mm_malloc(size)`: the heap afterwards and the returned pointer (0 is
`NULL`); `none` when a bucket list is longer than `fuel`. -/
def mm_malloc (fuel : Nat) (s : Heap) (size : Nat) : Option (Heap × Nat) :=
  if s.heap_listp = 0 then
    let r := mm_init s
    if r.2 = -1 then some (r.1, 0) else mm_malloc_body fuel r.1 size
  else mm_malloc_body fuel s size

/-- `mm_free(bp)`. -/
def mm_free (s : Heap) (bp : Nat) : Heap :=
  let size := GET_SIZE s.mem (HDRP bp)
  let s1 := s.put (HDRP bp) (PACK size 0)
  let s2 := s1.put (FTRP s1.mem bp) (PACK size 0)
  (coalesce (insert_to_list s2 bp) bp).1

/-- `mm_realloc(ptr, size)`: the heap afterwards and the returned pointer. -/
def mm_realloc (fuel : Nat) (s : Heap) (oldptr size : Nat) : Option (Heap × Nat) :=
  match mm_malloc fuel s size with
  | none => none
  | some (s1, newptr) =>
    if newptr = 0 then some (s1, 0)
    else
      let copySize := GET s1.mem (sub64 oldptr WSIZE)
      let copySize := if size < copySize then size else copySize
      let s2 := s1.setMem (memcpy s1.mem newptr oldptr copySize)
      some (mm_free s2 oldptr, newptr)

/-! ## Concrete heaps used to run the code -/

/-- A heap on which `mm_init` has not run: zeroed memory, break at 4096 (a
multiple of 16), room to grow up to address 1048576. -/
def heap0 : Heap :=
  { mem := fun _ => 0, brk := 4096, limit := 1048576, heap_listp := 0, ptr := 0 }

/-- The heap right after a successful `mm_init` on `heap0`: bucket table at
4096, prologue at 4272, one free block of 4096 bytes at 4288, break at 8384. -/
def heap1 : Heap := (mm_init heap0).1

/-- The heap after `mm_init` when the limit leaves no room for further
growth. -/
def heapFull : Heap := (mm_init { heap0 with limit := 8384 }).1

/-- A caller filling the `n` bytes at `p` with the byte `b`. -/
def fill (m : Mem) (p n b : Nat) : Mem :=
  fun a => if p ≤ a ∧ a < p + n then b else m a

/-! ## Abstract view of a well-formed heap -/

/-- A block of the heap as the boundary tags describe it: payload address,
size in bytes (header and footer included) and allocated flag. -/
structure Blk where
  /-- Address of the payload; the header word is at `bp - 8`. -/
  bp : Nat
  /-- Size of the block. -/
  sz : Nat
  /-- Allocated flag. -/
  al : Bool
deriving DecidableEq

/-- The word stored in the header and in the footer of a block. -/
def Blk.tag (b : Blk) : Nat := b.sz + (if b.al then 1 else 0)

/-- The blocks `bs` tile the addresses from payload address `a` to `e`: each
block starts where the one before ends, with a size that is a multiple of 16
and at least 32. -/
def Tiled : Nat → List Blk → Nat → Prop
  | a, [], e => a = e
  | a, b :: bs, e => b.bp = a ∧ 32 ≤ b.sz ∧ b.sz % 16 = 0 ∧ Tiled (a + b.sz) bs e

/-- Header and footer of the block hold its tag. -/
def BlkOK (m : Mem) (b : Blk) : Prop :=
  GET m (b.bp - 8) = b.tag ∧ GET m (b.bp + b.sz - 16) = b.tag

/-- The heap of `s` consists of the bucket table, the prologue, the blocks
`bs` in address order and the epilogue at the break. -/
structure Blocks (s : Heap) (bs : List Blk) : Prop where
  hlp : s.heap_listp = s.ptr + 176
  tiled : Tiled (s.ptr + 192) bs s.brk
  lim : s.brk ≤ s.limit
  lim64 : s.limit < W64
  pro1 : GET s.mem (s.ptr + 168) = 17
  pro2 : GET s.mem (s.ptr + 176) = 17
  epi : GET s.mem (s.brk - 8) = 1
  ok : ∀ b ∈ bs, BlkOK s.mem b

/-- A doubly linked list segment: the blocks `xs` are linked in this order,
the first one has predecessor link `p`, the last one successor link `n`. -/
def Seg (m : Mem) : Nat → List Nat → Nat → Prop
  | _, [], _ => True
  | p, x :: xs, n => GET m x = p ∧ GET m (x + 8) = xs.headD n ∧ Seg m x xs n

/-- The bucket lists of `s` are the lists `F i`, for `i < 21`. -/
structure Lists (s : Heap) (F : Nat → List Nat) : Prop where
  head : ∀ i, i < 21 → GET s.mem (s.ptr + 8 * i) = (F i).headD 0
  seg : ∀ i, i < 21 → Seg s.mem (s.ptr + 8 * i) (F i) 0
  nodup : ∀ i, i < 21 → (F i).Nodup

/-- Every block linked in bucket `i` is a free block whose size maps to `i`. -/
def Sound (bs : List Blk) (F : Nat → List Nat) : Prop :=
  ∀ i, i < 21 → ∀ x ∈ F i, ∃ b ∈ bs, b.bp = x ∧ b.al = false ∧ listIdOfSize b.sz = i

/-- Every free block is linked in the bucket its size maps to. -/
def Complete (bs : List Blk) (F : Nat → List Nat) : Prop :=
  ∀ b ∈ bs, b.al = false → b.bp ∈ F (listIdOfSize b.sz)

/-- No two blocks adjacent in address order are both free: when `y` starts
where `x` ends, one of them is allocated. -/
def Coalesced (bs : List Blk) : Prop :=
  ∀ x ∈ bs, ∀ y ∈ bs, x.bp + x.sz = y.bp → x.al = true ∨ y.al = true

/-- Representation of the heap by blocks and bucket lists. -/
structure Rep (s : Heap) (bs : List Blk) (F : Nat → List Nat) : Prop where
  blocks : Blocks s bs
  lists : Lists s F
  sound : Sound bs F

/-- Two heaps that differ at most in their memory. -/
def SameRegs (s s' : Heap) : Prop :=
  s'.brk = s.brk ∧ s'.limit = s.limit ∧ s'.heap_listp = s.heap_listp ∧ s'.ptr = s.ptr

/-- The word at `w` lies in the payload of a block of `bs`, between its header
and its footer. -/
def InPayload (bs : List Blk) (w : Nat) : Prop :=
  ∃ b ∈ bs, b.bp ≤ w ∧ w + 8 ≤ b.bp + b.sz - 16

/-- The heap that `mm_init` builds before it extends it: the bucket table at
the old break, then the prologue and the epilogue, and no block. -/
def emptyHeap (s : Heap) : Heap :=
  ⟨PUT (PUT (PUT (init_buckets s.mem s.brk 21 0) (s.brk + 168) 17) (s.brk + 176) 17)
    (s.brk + 184) 1, s.brk + 192, s.limit, s.brk + 176, s.brk⟩

/-- Size of the block `o` when it is there and free, else 0. -/
def freeSz (o : Option Blk) : Nat :=
  match o with
  | some x => if x.al then 0 else x.sz
  | none => 0

/-- The block `o` is there and free. -/
def isFreeBlk (o : Option Blk) : Bool :=
  match o with
  | some x => !x.al
  | none => false

/-- The sequence of blocks obtained from `p` by following succ links until
null, in at most `fuel` steps. -/
def follow (m : Mem) : Nat → Nat → Option (List Nat)
  | 0, _ => none
  | fuel + 1, p => if p = 0 then some [] else (follow m fuel (SUCC m p)).map (fun l => p :: l)

/-- Bucket `i` of the heap read as a sequence: follow succ from its slot. -/
def bucketSeq (fuel : Nat) (s : Heap) (i : Nat) : Option (List Nat) :=
  follow s.mem fuel (HEAD_PTR s i)

/-- Abstract push: bucket `i` goes from `L` to `b :: L`, the others stay. -/
def absPush (F : Nat → List Nat) (i b : Nat) : Nat → List Nat :=
  fun j => if j = i then b :: F i else F j

/-- Abstract removal: bucket `i` goes from `L` to `L` with `b` erased, the
others stay. -/
def absRemove (F : Nat → List Nat) (i b : Nat) : Nat → List Nat :=
  fun j => if j = i then (F i).erase b else F j

/-- The link invariant of bucket `i` holding the sequence `L`: the pred of the
head is the address of the bucket slot, `pred (succ x) = x` for every linked
`x` with a successor, and the succ of the tail is null. -/
def LinkInv (s : Heap) (i : Nat) (L : List Nat) : Prop :=
  (∀ x, L.head? = some x → PRED s.mem x = HEAD_PTR_ADDR s i) ∧
  (∀ x ∈ L, SUCC s.mem x ≠ 0 → PRED s.mem (SUCC s.mem x) = x) ∧
  (∀ x, L.getLast? = some x → SUCC s.mem x = 0)

/-- A fresh heap whose limit leaves room for blocks of more than `2^31`
bytes, after `mm_init`. -/
def heapBig : Heap := (mm_init { heap0 with limit := 8589934592 }).1

/-- The heap `heap1` after `place` has split its block at 4288 into a block of
2032 bytes and a remainder of 2064 bytes at 6320, with the 2032-byte block
then marked free in its header (at 4280) and footer (at 6304) but not linked
into a bucket: the state `mm_free` is in before its call to
`insert_to_list`. -/
def heapW : Heap := ((place heap1 4288 2032).put 4280 2032).put 6304 2032

/-- The heap `heapW` after `insert_to_list` of its block at 4288: two adjacent
free blocks of 2032 and 2064 bytes, linked in this order in bucket 11. -/
def heapX : Heap := insert_to_list heapW 4288

/-- The heap of the C3 run before its last call, with the pointer `p` the
caller holds. On the fresh heap: `a = mm_malloc(4064)`, `b = mm_malloc(100)`,
`mm_free(a)`, `p = mm_malloc(2^64 - 1)`; then the caller stores four words
inside the bytes it asked for: `p + 40` at `p + 24`, 4096 at `p + 32`,
`p + 16` at `p + 40` and 0 at `p + 48`. -/
def heapC3 : Option (Heap × Nat) :=
  (mm_malloc 3 heap1 4064).bind (fun r1 =>
    (mm_malloc 3 r1.1 100).bind (fun r2 =>
      (mm_malloc 3 (mm_free r2.1 r1.2) 18446744073709551615).map (fun r3 =>
        ((((r3.1.put (r3.2 + 24) (r3.2 + 40)).put (r3.2 + 32) 4096).put
          (r3.2 + 40) (r3.2 + 16)).put (r3.2 + 48) 0, r3.2))))

/-- The block that `coalesce` leaves in place of the free block `b` and of
its free neighbours (`pre` are the blocks before `b`, `post` those after). -/
def mergedBlk (pre : List Blk) (b : Blk) (post : List Blk) : Blk :=
  ⟨b.bp - freeSz pre.getLast?, freeSz pre.getLast? + b.sz + freeSz post.head?, false⟩

/-- The address-ordered list of blocks after `coalesce` of `b`. -/
def mergedList (pre : List Blk) (b : Blk) (post : List Blk) : List Blk :=
  (if isFreeBlk pre.getLast? then pre.dropLast else pre) ++
    mergedBlk pre b post :: (if isFreeBlk post.head? then post.tail else post)

/-- The blocks that `place` leaves in place of the free block `b` for the
adjusted size `a`. -/
def placedList (b : Blk) (a : Nat) : List Blk :=
  if 32 ≤ b.sz - a then [⟨b.bp, a, true⟩, ⟨b.bp + a, b.sz - a, false⟩] else [⟨b.bp, b.sz, true⟩]

end MM

namespace MM

/-! ## Zero-size requests and growth failure -/

/-- C6 (as stated, on the uninitialised heap): `mm_malloc(0)` on a heap where
`mm_init` has not run returns null only after running `mm_init`: the break
has moved from 4096 to 8384, `heap_listp` is set and the prologue header has
been written. -/
theorem C6_malloc_zero_uninitialised_mutates :
    (heap0.heap_listp, heap0.brk, GET heap0.mem 4264) = (0, 4096, 0) ∧
    (mm_malloc 0 heap0 0).map (fun r => (r.2, r.1.heap_listp, r.1.brk, GET r.1.mem 4264))
      = some (0, 4272, 8384, 17) := by
  decide!

/-- C6 (amended): on every heap where `heap_listp` is non-null, `mm_malloc(0)`
returns null and the heap state (memory, break, static pointers) is the one
before the call, whatever the fuel. -/
theorem C6_malloc_zero_initialised (fuel : Nat) (s : Heap) (hinit : s.heap_listp ≠ 0) :
    mm_malloc fuel s 0 = some (s, 0) := by
  simp [mm_malloc, mm_malloc_body, hinit]

/-- Witness of `C6_malloc_zero_initialised` on the freshly initialised heap. -/
theorem C6_malloc_zero_initialised_witness :
    heap1.heap_listp ≠ 0 ∧ mm_malloc 3 heap1 0 = some (heap1, 0) :=
  ⟨by decide!, C6_malloc_zero_initialised 3 heap1 (by decide!)⟩

/-- C7: on an initialised heap, when `find_fit` finds no block for the adjusted
size of the request and the growth primitive reports failure, `mm_malloc`
returns null and `mm_realloc` returns null, and the heap state after either
call is the state before it: no word of memory and not the break has changed,
so the block passed to `mm_realloc` keeps its header, footer and contents. -/
theorem C7_growth_failure_leaves_heap (fuel : Nat) (s : Heap) (n p : Nat)
    (hinit : s.heap_listp ≠ 0)
    (hfit : find_fit fuel s (adjust n) = some 0)
    (hfail : sbrk s (growSize (max (adjust n) CHUNKSIZE / WSIZE)) = (s, NEG1)) :
    mm_malloc fuel s n = some (s, 0) ∧ mm_realloc fuel s p n = some (s, 0) := by
  have hm : mm_malloc fuel s n = some (s, 0) := by
    by_cases hn : n = 0
    · simp [mm_malloc, mm_malloc_body, hinit, hn]
    · simp [mm_malloc, mm_malloc_body, hinit, hn, hfit, extend_heap, hfail]
  exact ⟨hm, by simp [mm_realloc, hm]⟩

/-- Witness of `C7_growth_failure_leaves_heap`: a request of 5000 bytes on the
heap whose limit is its break. -/
theorem C7_growth_failure_leaves_heap_witness :
    heapFull.heap_listp ≠ 0 ∧ find_fit 3 heapFull (adjust 5000) = some 0 ∧
    sbrk heapFull (growSize (max (adjust 5000) CHUNKSIZE / WSIZE)) = (heapFull, NEG1) ∧
    mm_malloc 3 heapFull 5000 = some (heapFull, 0) ∧
    mm_realloc 3 heapFull 4288 5000 = some (heapFull, 0) :=
  have h1 : heapFull.heap_listp ≠ 0 := by decide!
  have h2 : find_fit 3 heapFull (adjust 5000) = some 0 := by decide!
  have h3 : sbrk heapFull (growSize (max (adjust 5000) CHUNKSIZE / WSIZE)) = (heapFull, NEG1) := by
    have hb : ¬ (0 ≤ (heapFull.brk : Int) +
          toInt64 (growSize (max (adjust 5000) CHUNKSIZE / WSIZE)) ∧
        (heapFull.brk : Int) + toInt64 (growSize (max (adjust 5000) CHUNKSIZE / WSIZE)) ≤
          (heapFull.limit : Int)) := by
      decide!
    unfold sbrk
    rw [if_neg hb]
  ⟨h1, h2, h3, C7_growth_failure_leaves_heap 3 heapFull 5000 4288 h1 h2 h3⟩

end MM

namespace MM

/-! ## Requests whose adjusted size wraps around

For `size > 2^64 - 32` the sum `size + DSIZE + (DSIZE-1)` in `mm_malloc`
exceeds `2^64` and wraps: the adjusted size is 0 or 16, far below the
request.  The runs below start from `heap1`, whose only free block is the
4096-byte block at 4288. -/

/-- C1 (failing input): on the freshly initialised heap, `mm_malloc(2^64-1)`
has adjusted size 16 and returns the non-null pointer 4288 to an allocated
block whose header size is 16, with its footer word at 4288 itself and the
header of the next block at 4296; `mm_malloc(2^64-31)` has adjusted size 0 and
returns 4288 with the allocated bit of its header clear. -/
theorem C1_overflowing_request_undersized_block :
    (adjust 18446744073709551615, adjust 18446744073709551585) = (16, 0) ∧
    (mm_malloc 3 heap1 18446744073709551615).map
      (fun r => (r.2, GET_ALLOC r.1.mem (HDRP r.2), GET_SIZE r.1.mem (HDRP r.2),
        FTRP r.1.mem r.2, HDRP (NEXT_BLKP r.1.mem r.2))) = some (4288, 1, 16, 4288, 4296) ∧
    (mm_malloc 3 heap1 18446744073709551585).map
      (fun r => (r.2, GET_ALLOC r.1.mem (HDRP r.2), GET_SIZE r.1.mem (HDRP r.2)))
      = some (4288, 0, 4096) := by
  decide!

/-- C2 (failing input): `mm_malloc(2^64-31)` returns 4288 and leaves that block
in its bucket list, so the next `mm_malloc(16)` returns the same address 4288
while the first allocation is still live; the first call has also overwritten
the prologue footer at 4272 (17 before, 1 after). -/
theorem C2_overflowing_request_block_handed_out_twice :
    GET heap1.mem 4272 = 17 ∧
    (mm_malloc 3 heap1 18446744073709551585).bind
      (fun r1 => (mm_malloc 3 r1.1 16).map
        (fun r2 => (r1.2, GET r1.1.mem 4272, HEAD_PTR r1.1 12, r2.2)))
      = some (4288, 1, 4288, 4288) := by
  decide!

/-- C3 (failing run): in `heapC3` the caller holds `p = 4288`, returned by
`mm_malloc(2^64 - 1)` for a block of 16 bytes; the table is at 4096 and the
break at 12480. The free block at 4304 (size 4080) is the head of bucket 12.
The caller has stored, inside the bytes it asked for, the address 4328 as the
succ of that block (at 4312) and, at 4320, 4328 and 4336, a header word 4096,
a pred 4304 and a succ 0. The next `mm_malloc(4070)` has the adjusted size
4096: `find_fit` passes over 4304 and follows its succ to 4328;
`delete_from_list(4328)` finds the pred 4304, which is not a bucket slot, and
stores the succ 0 at 4312; `place` then writes the header at 4320 and the
footer at 8408. Every address read or written lies between the table at 4096
and the break at 12480. The call returns 4328, which is 8 modulo 16, although
the heap base 4096 is a multiple of 16. -/
theorem C3_misaligned_pointer_after_overflowing_request :
    heap0.brk % 16 = 0 ∧
    heapC3.map (fun r => (r.2, r.1.ptr, r.1.brk, HEAD_PTR r.1 12, GET r.1.mem (HDRP 4304)))
      = some (4288, 4096, 12480, 4304, 4080) ∧
    heapC3.map (fun r => (SUCC r.1.mem 4304, GET r.1.mem (HDRP 4328), PRED r.1.mem 4328,
        SUCC r.1.mem 4328))
      = some (4328, 4096, 4304, 0) ∧
    heapC3.map (fun r => IS_HEAD_PTR r.1 (PRED r.1.mem 4328)) = some false ∧
    heapC3.bind (fun r => (mm_malloc 3 r.1 4070).map (fun q =>
        (adjust 4070, FTRP r.1.mem 4328, q.2, q.2 % 16, q.1.brk)))
      = some (4096, 8408, 4328, 8, 12480) := by
  decide!

/-- C4 (failing input): after `mm_malloc(16)` has returned 4288 (header and
footer 33, footer at 4304), `mm_malloc(2^64-31)` returns 4320 and overwrites
the footer of the live block 4288 with 1. -/
theorem C4_overflowing_request_alters_live_block :
    (mm_malloc 3 heap1 16).bind
      (fun r1 => (mm_malloc 3 r1.1 18446744073709551585).map
        (fun r2 => (r1.2, GET r1.1.mem (HDRP r1.2), FTRP r1.1.mem r1.2,
          GET r1.1.mem 4304, r2.2, GET r2.1.mem 4304)))
      = some (4288, 33, 4304, 33, 4320, 1) := by
  decide!

/-- C5 (failing input): `p = mm_malloc(2000)` returns 4288, the caller fills its
2000 bytes with the byte 170, and `mm_realloc(p, 2^64-1)` returns 6304; the
bytes at 6304+16 and 6304+17 are then 192 and 16 (the address 4288 written as
a list link by `mm_free`), not 170. -/
theorem C5_realloc_to_overflowing_size_loses_data :
    (mm_malloc 3 heap1 2000).bind
      (fun r1 => (mm_realloc 3 (r1.1.setMem (fill r1.1.mem r1.2 2000 170)) r1.2
          18446744073709551615).map
        (fun r2 => (r1.2, r2.2, r2.1.mem (r2.2 + 15), r2.1.mem (r2.2 + 16),
          r2.1.mem (r2.2 + 17))))
      = some (4288, 6304, 170, 192, 16) := by
  decide!

/-- C8 (failing input): after `p = mm_malloc(2^64-1)` (which returns 4288) and
`mm_free(p)`, the block at 4288 is free with size 16 and the block that follows
it in address order, at 4304, has the header word 0: it is free as well. -/
theorem C8_adjacent_free_blocks_after_overflowing_request :
    (mm_malloc 3 heap1 18446744073709551615).map
      (fun r => let s := mm_free r.1 r.2
        (r.2, GET_ALLOC s.mem (HDRP r.2), GET_SIZE s.mem (HDRP r.2), NEXT_BLKP s.mem r.2,
          GET_ALLOC s.mem (HDRP (NEXT_BLKP s.mem r.2))))
      = some (4288, 0, 16, 4304, 0) := by
  decide!

/-- C9 (failing input): after `p = mm_malloc(2^64-1)` and `mm_free(p)`, the block
at 4288, the first block after the prologue, has the header word 16 and, at
`p + 16 - 16`, the footer word 4096 (the address of bucket slot 0, stored there
as the block's predecessor link). -/
theorem C9_header_footer_differ_after_overflowing_request :
    (mm_malloc 3 heap1 18446744073709551615).map
      (fun r => let s := mm_free r.1 r.2
        (r.2, GET s.mem (HDRP r.2), FTRP s.mem r.2, GET s.mem (FTRP s.mem r.2)))
      = some (4288, 16, 4288, 4096) := by
  decide!

/-- C10 (failing input): after `p = mm_malloc(2^64-1)` and `mm_free(p)`, bucket
slot 12 still heads the block 4304, whose header now holds size 0, and the
bucket computed for that block is 0, not 12. -/
theorem C10_linked_block_in_wrong_bucket_after_overflowing_request :
    (mm_malloc 3 heap1 18446744073709551615).map
      (fun r => let s := mm_free r.1 r.2
        (HEAD_PTR s 12, GET_SIZE s.mem (HDRP (HEAD_PTR s 12)), LIST_ID s.mem (HEAD_PTR s 12)))
      = some (4304, 0, 0) := by
  decide!

end MM

namespace MM

attribute [irreducible] listIdOfSize

end MM

/-! # Invariants of the allocator

Lemmas on the abstract view: the blocks in address order and the bucket lists. -/

namespace MM

theorem toInt64_nonneg (x : Nat) (h : x < 2 ^ 63) : toInt64 x = (x : Int) := by
  unfold toInt64 W64
  have e : x % 18446744073709551616 = x := Nat.mod_eq_of_lt (by omega)
  rw [e, if_pos (by omega)]

/-- For an increment below `2^63` the growth primitive moves the break up, or
fails when the limit is in the way. -/
theorem sbrk_nonneg (s : Heap) (incr : Nat) (h : incr < 2 ^ 63) :
    sbrk s incr =
      if s.brk + incr ≤ s.limit then ({ s with brk := s.brk + incr }, s.brk) else (s, NEG1) := by
  unfold sbrk
  rw [toInt64_nonneg incr h]
  have e : ((s.brk : Int) + (incr : Int)).toNat = s.brk + incr := by
    rw [← Int.ofNat_add]
    exact Int.toNat_ofNat _
  by_cases c : s.brk + incr ≤ s.limit
  · rw [if_pos c, if_pos ⟨by omega, by omega⟩, e]
  · rw [if_neg c, if_neg (fun hc => c (by omega))]

/-! ## Words and bytes -/

theorem land_mask_eq (x : Nat) (hx : x < W64) : x &&& 18446744073709551608 = x - x % 8 := by
  apply Nat.eq_of_testBit_eq
  intro i
  have h8 : x - x % 8 = 2 ^ 3 * (x >>> 3) := by
    rw [Nat.shiftRight_eq_div_pow]; omega
  have hm : (18446744073709551608 : Nat) = 2 ^ 3 * (2 ^ 61 - 1) := by norm_num
  rw [Nat.testBit_and, h8, hm, Nat.testBit_mul_pow_two, Nat.testBit_mul_pow_two,
    Nat.testBit_two_pow_sub_one, Nat.testBit_shiftRight]
  by_cases h3 : 3 ≤ i
  · have e : 3 + (i - 3) = i := by omega
    rw [e]
    by_cases h64 : i - 3 < 61
    · simp [h3, h64]
    · have hlt : x < 2 ^ i := by
        have : (2:Nat) ^ 64 ≤ 2 ^ i := Nat.pow_le_pow_right (by norm_num) (by omega)
        have h2 : W64 = 2 ^ 64 := by norm_num [W64]
        omega
      simp [Nat.testBit_lt_two_pow hlt, h64]
  · simp [h3]

theorem lor_one_eq (x : Nat) (h : x % 2 = 0) : x ||| 1 = x + 1 := by
  have := Nat.mul_add_lt_is_or (i := 1) (b := 1) (by norm_num) (x / 2)
  have e : 2 ^ 1 * (x / 2) = x := by omega
  rw [e] at this
  exact this.symm

theorem rdBytes_congr (m m' : Mem) (k : Nat) : ∀ p : Nat,
    (∀ a, p ≤ a → a < p + k → m' a = m a) → rdBytes m' p k = rdBytes m p k := by
  induction k with
  | zero => intro p _; rfl
  | succ k ih =>
    intro p h
    simp only [rdBytes]
    rw [h p (Nat.le_refl p) (by omega), ih (p + 1) (fun a h1 h2 => h a (by omega) (by omega))]

theorem GET_congr (m m' : Mem) (p : Nat) (h : ∀ a, p ≤ a → a < p + 8 → m' a = m a) :
    GET m' p = GET m p := rdBytes_congr m m' 8 p h

theorem PUT_outside (m : Mem) (p v a : Nat) (h : a < p ∨ p + 8 ≤ a) : PUT m p v a = m a := by
  unfold PUT
  rw [if_neg]
  omega

theorem GET_PUT_ne (m : Mem) (p v q : Nat) (h : q + 8 ≤ p ∨ p + 8 ≤ q) :
    GET (PUT m p v) q = GET m q :=
  GET_congr m _ q (fun a h1 h2 => PUT_outside m p v a (by omega))

theorem rdBytes_lt (m : Mem) (k : Nat) : ∀ p, rdBytes m p k < 256 ^ k := by
  induction k with
  | zero => intro p; simp [rdBytes]
  | succ k ih =>
    intro p
    simp only [rdBytes]
    have := ih (p + 1)
    have h2 : 256 ^ (k + 1) = 256 * 256 ^ k := by ring
    have h3 : m p % 256 < 256 := Nat.mod_lt _ (by norm_num)
    omega

theorem GET_lt (m : Mem) (p : Nat) : GET m p < W64 := by
  have := rdBytes_lt m 8 p
  have h : (256:Nat) ^ 8 = W64 := by norm_num [W64]
  unfold GET; omega

theorem GET_PUT_eq (m : Mem) (p v : Nat) : GET (PUT m p v) p = v % W64 := by
  have h0 : PUT m p v p = v % 256 := by simp [PUT]
  have hi : ∀ i, 0 < i → i < 8 → PUT m p v (p + i) = v / 256 ^ i % 256 := by
    intro i _ h2
    simp [PUT, h2]
  simp only [GET, rdBytes, Nat.add_assoc]
  rw [h0, hi 1 (by norm_num) (by norm_num), hi 2 (by norm_num) (by norm_num),
    hi 3 (by norm_num) (by norm_num), hi 4 (by norm_num) (by norm_num),
    hi 5 (by norm_num) (by norm_num), hi 6 (by norm_num) (by norm_num),
    hi 7 (by norm_num) (by norm_num)]
  norm_num [W64]
  omega

theorem GET_PUT_eq_of_lt (m : Mem) (p v : Nat) (hv : v < W64) : GET (PUT m p v) p = v := by
  rw [GET_PUT_eq, Nat.mod_eq_of_lt hv]

/-! ### Arithmetic on words -/

theorem w64_eq (x : Nat) (h : x < W64) : w64 x = x := Nat.mod_eq_of_lt h

theorem sub64_eq (a b : Nat) (hb : b ≤ a) (ha : a < W64) : sub64 a b = a - b := by
  unfold sub64 W64 at *
  omega

theorem listIdOfSize_lt (sz : Nat) : listIdOfSize sz < 21 := by
  unfold listIdOfSize MAX_N
  omega

theorem GET_SIZE_of_tag (m : Mem) (p sz a : Nat) (h : GET m p = sz + a) (hsz : sz % 8 = 0)
    (ha : a < 8) : GET_SIZE m p = sz := by
  unfold GET_SIZE
  rw [land_mask_eq _ (GET_lt m p), h]
  omega

theorem GET_ALLOC_of_tag (m : Mem) (p sz a : Nat) (h : GET m p = sz + a) (hsz : sz % 2 = 0)
    (ha : a < 2) : GET_ALLOC m p = a := by
  unfold GET_ALLOC
  rw [Nat.and_one_is_mod, h]
  omega

theorem PACK_zero (sz : Nat) : PACK sz 0 = sz := by simp [PACK]

theorem PACK_one (sz : Nat) (h : sz % 2 = 0) : PACK sz 1 = sz + 1 := lor_one_eq sz h

/-! ### Geometry of tiled blocks -/

theorem Tiled_append (l1 l2 : List Blk) : ∀ a e,
    Tiled a (l1 ++ l2) e ↔ ∃ c, Tiled a l1 c ∧ Tiled c l2 e := by
  induction l1 with
  | nil => intro a e; simp [Tiled]
  | cons b l1 ih =>
    intro a e
    show (b.bp = a ∧ 32 ≤ b.sz ∧ b.sz % 16 = 0 ∧ Tiled (a + b.sz) (l1 ++ l2) e) ↔
      ∃ c, (b.bp = a ∧ 32 ≤ b.sz ∧ b.sz % 16 = 0 ∧ Tiled (a + b.sz) l1 c) ∧ Tiled c l2 e
    rw [ih]
    constructor
    · rintro ⟨h1, h2, h3, c, h4, h5⟩; exact ⟨c, ⟨h1, h2, h3, h4⟩, h5⟩
    · rintro ⟨c, ⟨h1, h2, h3, h4⟩, h5⟩; exact ⟨h1, h2, h3, c, h4, h5⟩

theorem Tiled_le (l : List Blk) : ∀ a e, Tiled a l e → a ≤ e := by
  induction l with
  | nil => intro a e h; simp [Tiled] at h; omega
  | cons b l ih =>
    intro a e h
    obtain ⟨_, _, _, h4⟩ := h
    have := ih _ _ h4
    omega

theorem Tiled_mem (l : List Blk) : ∀ a e, Tiled a l e → ∀ b ∈ l,
    a ≤ b.bp ∧ b.bp + b.sz ≤ e ∧ 32 ≤ b.sz ∧ b.sz % 16 = 0 := by
  induction l with
  | nil => intro a e _ b hb; simp at hb
  | cons c l ih =>
    intro a e h b hb
    obtain ⟨h1, h2, h3, h4⟩ := h
    rcases List.mem_cons.1 hb with rfl | hb
    · have := Tiled_le _ _ _ h4
      omega
    · have := ih _ _ h4 b hb
      omega

theorem Tiled_sep (l : List Blk) : ∀ a e, Tiled a l e → ∀ b ∈ l, ∀ c ∈ l,
    b = c ∨ b.bp + b.sz ≤ c.bp ∨ c.bp + c.sz ≤ b.bp := by
  induction l with
  | nil => intro a e _ b hb; simp at hb
  | cons d l ih =>
    intro a e h b hb c hc
    obtain ⟨h1, h2, h3, h4⟩ := h
    rcases List.mem_cons.1 hb with hbd | hbl
    · rcases List.mem_cons.1 hc with hcd | hcl
      · exact Or.inl (hbd.trans hcd.symm)
      · have := Tiled_mem _ _ _ h4 c hcl
        subst hbd
        right; left; omega
    · rcases List.mem_cons.1 hc with hcd | hcl
      · have := Tiled_mem _ _ _ h4 b hbl
        subst hcd
        right; right; omega
      · exact ih _ _ h4 b hbl c hcl

theorem Tiled_bp_inj (l : List Blk) (a e : Nat) (h : Tiled a l e) (b c : Blk) (hb : b ∈ l)
    (hc : c ∈ l) (hbc : b.bp = c.bp) : b = c := by
  rcases Tiled_sep l a e h b hb c hc with h1 | h1 | h1
  · exact h1
  · have := Tiled_mem l a e h b hb; omega
  · have := Tiled_mem l a e h c hc; omega

/-! ### Fields of updated heaps -/

@[simp]
theorem setMem_mem (s : Heap) (m : Mem) : (s.setMem m).mem = m := rfl
@[simp]
theorem setMem_brk (s : Heap) (m : Mem) : (s.setMem m).brk = s.brk := rfl
@[simp]
theorem setMem_limit (s : Heap) (m : Mem) : (s.setMem m).limit = s.limit := rfl
@[simp]
theorem setMem_heap_listp (s : Heap) (m : Mem) :
    (s.setMem m).heap_listp = s.heap_listp := rfl
@[simp]
theorem setMem_ptr (s : Heap) (m : Mem) : (s.setMem m).ptr = s.ptr := rfl
@[simp]
theorem put_mem (s : Heap) (p v : Nat) : (s.put p v).mem = PUT s.mem p v := rfl
@[simp]
theorem put_brk (s : Heap) (p v : Nat) : (s.put p v).brk = s.brk := rfl
@[simp]
theorem put_limit (s : Heap) (p v : Nat) : (s.put p v).limit = s.limit := rfl
@[simp]
theorem put_heap_listp (s : Heap) (p v : Nat) :
    (s.put p v).heap_listp = s.heap_listp := rfl
@[simp]
theorem put_ptr (s : Heap) (p v : Nat) : (s.put p v).ptr = s.ptr := rfl

theorem SameRegs.refl (s : Heap) : SameRegs s s := ⟨rfl, rfl, rfl, rfl⟩

theorem SameRegs.trans {s s' s'' : Heap} (h1 : SameRegs s s') (h2 : SameRegs s' s'') :
    SameRegs s s'' := by
  obtain ⟨a1, a2, a3, a4⟩ := h1
  obtain ⟨b1, b2, b3, b4⟩ := h2
  exact ⟨b1.trans a1, b2.trans a2, b3.trans a3, b4.trans a4⟩

theorem SameRegs_setMem (s : Heap) (m : Mem) : SameRegs s (s.setMem m) := ⟨rfl, rfl, rfl, rfl⟩

theorem SameRegs_put (s : Heap) (p v : Nat) : SameRegs s (s.put p v) := ⟨rfl, rfl, rfl, rfl⟩

/-! ### Reading the tags of a block -/

theorem Blk.tag_lt (b : Blk) : b.tag ≤ b.sz + 1 := by
  unfold Blk.tag; split <;> omega

theorem Blocks.mem_facts {s : Heap} {bs : List Blk} (h : Blocks s bs) {b : Blk} (hb : b ∈ bs) :
    s.ptr + 192 ≤ b.bp ∧ b.bp + b.sz ≤ s.brk ∧ 32 ≤ b.sz ∧ b.sz % 16 = 0 ∧ s.brk < W64 := by
  have := Tiled_mem bs _ _ h.tiled b hb
  have := h.lim
  have := h.lim64
  omega

theorem Blocks.brk_facts {s : Heap} {bs : List Blk} (h : Blocks s bs) :
    s.ptr + 192 ≤ s.brk ∧ s.brk < W64 := by
  have := Tiled_le bs _ _ h.tiled
  have := h.lim
  have := h.lim64
  omega

theorem Blocks.sep {s : Heap} {bs : List Blk} (h : Blocks s bs) {b c : Blk} (hb : b ∈ bs)
    (hc : c ∈ bs) : b = c ∨ b.bp + b.sz ≤ c.bp ∨ c.bp + c.sz ≤ b.bp :=
  Tiled_sep bs _ _ h.tiled b hb c hc

theorem HDRP_eq (bp : Nat) (h1 : 8 ≤ bp) (h2 : bp < W64) : HDRP bp = bp - 8 := by
  unfold HDRP WSIZE; exact sub64_eq bp 8 h1 h2

theorem Blocks.hdr {s : Heap} {bs : List Blk} (h : Blocks s bs) {b : Blk} (hb : b ∈ bs) :
    HDRP b.bp = b.bp - 8 ∧ GET s.mem (b.bp - 8) = b.tag ∧ GET_SIZE s.mem (b.bp - 8) = b.sz ∧
    GET_ALLOC s.mem (b.bp - 8) = (if b.al then 1 else 0) := by
  have hf := h.mem_facts hb
  have hok := (h.ok b hb).1
  refine ⟨HDRP_eq _ (by omega) (by omega), hok, ?_, ?_⟩
  · exact GET_SIZE_of_tag _ _ _ (if b.al then 1 else 0) hok (by omega) (by split <;> omega)
  · exact GET_ALLOC_of_tag _ _ _ (if b.al then 1 else 0) hok (by omega) (by split <;> omega)

theorem Blocks.ftr {s : Heap} {bs : List Blk} (h : Blocks s bs) {b : Blk} (hb : b ∈ bs) :
    FTRP s.mem b.bp = b.bp + b.sz - 16 ∧ GET s.mem (b.bp + b.sz - 16) = b.tag ∧
    GET_SIZE s.mem (b.bp + b.sz - 16) = b.sz ∧
    GET_ALLOC s.mem (b.bp + b.sz - 16) = (if b.al then 1 else 0) := by
  have hf := h.mem_facts hb
  have hh := h.hdr hb
  have hok := (h.ok b hb).2
  refine ⟨?_, hok, ?_, ?_⟩
  · unfold FTRP DSIZE
    rw [hh.1, hh.2.2.1, w64_eq _ (by omega), sub64_eq _ _ (by omega) (by omega)]
  · exact GET_SIZE_of_tag _ _ _ (if b.al then 1 else 0) hok (by omega) (by split <;> omega)
  · exact GET_ALLOC_of_tag _ _ _ (if b.al then 1 else 0) hok (by omega) (by split <;> omega)

theorem Blocks.next {s : Heap} {bs : List Blk} (h : Blocks s bs) {b : Blk} (hb : b ∈ bs) :
    NEXT_BLKP s.mem b.bp = b.bp + b.sz := by
  have hf := h.mem_facts hb
  have hh := h.hdr hb
  unfold NEXT_BLKP WSIZE
  rw [sub64_eq _ _ (by omega) (by omega), hh.2.2.1, w64_eq _ (by omega)]

/-! ### Frame lemmas -/

theorem Blocks_frame {s s' : Heap} {bs : List Blk} (h : Blocks s bs) (hr : SameRegs s s')
    (hpro1 : GET s'.mem (s.ptr + 168) = GET s.mem (s.ptr + 168))
    (hpro2 : GET s'.mem (s.ptr + 176) = GET s.mem (s.ptr + 176))
    (hepi : GET s'.mem (s.brk - 8) = GET s.mem (s.brk - 8))
    (hok : ∀ b ∈ bs, GET s'.mem (b.bp - 8) = GET s.mem (b.bp - 8) ∧
      GET s'.mem (b.bp + b.sz - 16) = GET s.mem (b.bp + b.sz - 16)) :
    Blocks s' bs := by
  obtain ⟨r1, r2, r3, r4⟩ := hr
  refine ⟨by rw [r3, r4]; exact h.hlp, by rw [r4, r1]; exact h.tiled, by rw [r1, r2]; exact h.lim,
    by rw [r2]; exact h.lim64, by rw [r4, hpro1]; exact h.pro1, by rw [r4, hpro2]; exact h.pro2,
    by rw [r1, hepi]; exact h.epi, ?_⟩
  intro b hb
  have := h.ok b hb
  exact ⟨(hok b hb).1.trans this.1, (hok b hb).2.trans this.2⟩

theorem Blocks_put_payload {s : Heap} {bs : List Blk} (h : Blocks s bs) (w v : Nat)
    (hw : InPayload bs w) : Blocks (s.put w v) bs := by
  obtain ⟨c, hc, hc1, hc2⟩ := hw
  have hcf := h.mem_facts hc
  have hbrk := h.brk_facts
  apply Blocks_frame h (SameRegs_put s w v)
  · exact GET_PUT_ne _ _ _ _ (by omega)
  · exact GET_PUT_ne _ _ _ _ (by omega)
  · exact GET_PUT_ne _ _ _ _ (by omega)
  · intro b hb
    have hbf := h.mem_facts hb
    rcases h.sep hb hc with rfl | h1 | h1
    · exact ⟨GET_PUT_ne _ _ _ _ (by omega), GET_PUT_ne _ _ _ _ (by omega)⟩
    · exact ⟨GET_PUT_ne _ _ _ _ (by omega), GET_PUT_ne _ _ _ _ (by omega)⟩
    · exact ⟨GET_PUT_ne _ _ _ _ (by omega), GET_PUT_ne _ _ _ _ (by omega)⟩

theorem Blocks_put_slot {s : Heap} {bs : List Blk} (h : Blocks s bs) (i v : Nat) (hi : i < 21) :
    Blocks (s.put (s.ptr + 8 * i) v) bs := by
  have hbrk := h.brk_facts
  apply Blocks_frame h (SameRegs_put s _ v)
  · exact GET_PUT_ne _ _ _ _ (by omega)
  · exact GET_PUT_ne _ _ _ _ (by omega)
  · exact GET_PUT_ne _ _ _ _ (by omega)
  · intro b hb
    have hbf := h.mem_facts hb
    exact ⟨GET_PUT_ne _ _ _ _ (by omega), GET_PUT_ne _ _ _ _ (by omega)⟩

/-! ### List segments -/

theorem Seg_frame (m m' : Mem) (l : List Nat) : ∀ p n,
    (∀ x ∈ l, GET m' x = GET m x ∧ GET m' (x + 8) = GET m (x + 8)) →
    Seg m p l n → Seg m' p l n := by
  induction l with
  | nil => intro p n _ _; trivial
  | cons x xs ih =>
    intro p n hf h
    obtain ⟨h1, h2, h3⟩ := h
    have hx := hf x (List.mem_cons_self _ _)
    exact ⟨hx.1.trans h1, hx.2.trans h2,
      ih x n (fun y hy => hf y (List.mem_cons_of_mem _ hy)) h3⟩

theorem Seg_cons (m : Mem) (p x n : Nat) (xs : List Nat) :
    Seg m p (x :: xs) n ↔ GET m x = p ∧ GET m (x + 8) = xs.headD n ∧ Seg m x xs n := by
  rw [Seg]

theorem Seg_nil (m : Mem) (p n : Nat) : Seg m p [] n ↔ True := by
  rw [Seg]

theorem Seg_append (m : Mem) (l1 l2 : List Nat) : ∀ p n,
    Seg m p (l1 ++ l2) n ↔ Seg m p l1 (l2.headD n) ∧ Seg m (l1.getLastD p) l2 n := by
  induction l1 with
  | nil => intro p n; simp [Seg_nil]
  | cons x xs ih =>
    intro p n
    have e1 : (xs ++ l2).headD n = xs.headD (l2.headD n) := by cases xs <;> simp
    have e2 : (x :: xs).getLastD p = xs.getLastD x := by cases xs <;> simp [List.getLastD]
    rw [List.cons_append, Seg_cons, Seg_cons, ih x n, e1, e2]
    constructor
    · rintro ⟨h1, h2, h3, h4⟩; exact ⟨⟨h1, h2, h3⟩, h4⟩
    · rintro ⟨⟨h1, h2, h3⟩, h4⟩; exact ⟨h1, h2, h3, h4⟩

theorem Lists_frame {s s' : Heap} {F : Nat → List Nat} (h : Lists s F) (hp : s'.ptr = s.ptr)
    (hslot : ∀ i, i < 21 → GET s'.mem (s.ptr + 8 * i) = GET s.mem (s.ptr + 8 * i))
    (hlink : ∀ i, i < 21 → ∀ x ∈ F i,
      GET s'.mem x = GET s.mem x ∧ GET s'.mem (x + 8) = GET s.mem (x + 8)) :
    Lists s' F := by
  refine ⟨fun i hi => ?_, fun i hi => ?_, h.nodup⟩
  · rw [hp, hslot i hi]; exact h.head i hi
  · rw [hp]; exact Seg_frame _ _ _ _ _ (hlink i hi) (h.seg i hi)

theorem W64_val : W64 = 18446744073709551616 := rfl

theorem HEAD_PTR_ADDR_eq {s : Heap} {bs : List Blk} (h : Blocks s bs) (i : Nat) (hi : i < 21) :
    HEAD_PTR_ADDR s i = s.ptr + 8 * i := by
  have := h.brk_facts
  unfold HEAD_PTR_ADDR
  exact w64_eq _ (by omega)

theorem LIST_ID_eq {s : Heap} {bs : List Blk} (h : Blocks s bs) {b : Blk} (hb : b ∈ bs) :
    LIST_ID s.mem b.bp = listIdOfSize b.sz := by
  unfold LIST_ID
  rw [(h.hdr hb).1, (h.hdr hb).2.2.1]

theorem insert_to_list_eq {s : Heap} {bs : List Blk} {F : Nat → List Nat} (h : Rep s bs F)
    {b : Blk} (hb : b ∈ bs) (i : Nat) (hi : listIdOfSize b.sz = i) :
    insert_to_list s b.bp =
      if (F i).headD 0 = 0 then
        ((s.put (s.ptr + 8 * i) b.bp).put b.bp (s.ptr + 8 * i)).put (b.bp + 8) 0
      else
        (((s.put (s.ptr + 8 * i) b.bp).put ((F i).headD 0) b.bp).put b.bp
            (s.ptr + 8 * i)).put (b.bp + 8) ((F i).headD 0) := by
  have hid : i < 21 := hi ▸ listIdOfSize_lt b.sz
  have hf := h.blocks.mem_facts hb
  have h8 : w64 (b.bp + 8) = b.bp + 8 := w64_eq _ (by have := W64_val; omega)
  have e1 : LIST_ID s.mem b.bp = i := (LIST_ID_eq h.blocks hb).trans hi
  have e2 := HEAD_PTR_ADDR_eq h.blocks _ hid
  have e3 : HEAD_PTR s i = (F i).headD 0 := by
    unfold HEAD_PTR; rw [e2]; exact h.lists.head _ hid
  unfold insert_to_list
  rw [e1]
  simp only [e2]
  simp only [e3]
  simp only [PUT_PRED, PUT_SUCC]
  simp only [h8]
  rfl

/-- Link words of a block are not touched by a store into another block. -/
theorem link_PUT_other {s : Heap} {bs : List Blk} (h : Blocks s bs) {bx bz : Blk}
    (hx : bx ∈ bs) (hz : bz ∈ bs) (hne : bx.bp ≠ bz.bp) (m : Mem) (w v : Nat)
    (hw : bz.bp ≤ w + 8 ∧ w + 8 ≤ bz.bp + bz.sz) :
    GET (PUT m w v) bx.bp = GET m bx.bp ∧ GET (PUT m w v) (bx.bp + 8) = GET m (bx.bp + 8) := by
  have fx := h.mem_facts hx
  have fz := h.mem_facts hz
  rcases h.sep hx hz with h1 | h1 | h1
  · exact absurd (congrArg Blk.bp h1) hne
  · exact ⟨GET_PUT_ne _ _ _ _ (by omega), GET_PUT_ne _ _ _ _ (by omega)⟩
  · exact ⟨GET_PUT_ne _ _ _ _ (by omega), GET_PUT_ne _ _ _ _ (by omega)⟩

/-- Link words of a block are not touched by a store into the bucket table. -/
theorem link_PUT_slot {s : Heap} {bs : List Blk} (h : Blocks s bs) {bx : Blk}
    (hx : bx ∈ bs) (m : Mem) (i v : Nat) (hi : i < 21) :
    GET (PUT m (s.ptr + 8 * i) v) bx.bp = GET m bx.bp ∧
    GET (PUT m (s.ptr + 8 * i) v) (bx.bp + 8) = GET m (bx.bp + 8) := by
  have fx := h.mem_facts hx
  exact ⟨GET_PUT_ne _ _ _ _ (by omega), GET_PUT_ne _ _ _ _ (by omega)⟩

theorem Sound.ne_zero {s : Heap} {bs : List Blk} {F : Nat → List Nat} (h : Rep s bs F) {i x : Nat}
    (hi : i < 21) (hx : x ∈ F i) : x ≠ 0 ∧ s.ptr + 192 ≤ x ∧ x + 32 ≤ s.brk := by
  obtain ⟨b, hb, rfl, _, _⟩ := h.sound i hi x hx
  have := h.blocks.mem_facts hb
  omega

/-- A listed block belongs to one bucket only. -/
theorem Rep.bucket_unique {s : Heap} {bs : List Blk} {F : Nat → List Nat} (h : Rep s bs F)
    {i j x : Nat} (hi : i < 21) (hj : j < 21) (hxi : x ∈ F i) (hxj : x ∈ F j) : i = j := by
  obtain ⟨b, hb, hbx, _, hbi⟩ := h.sound i hi x hxi
  obtain ⟨c, hc, hcx, _, hcj⟩ := h.sound j hj x hxj
  have := Tiled_bp_inj bs _ _ h.blocks.tiled b c hb hc (hbx.trans hcx.symm)
  subst this
  exact hbi.symm.trans hcj

theorem Lists_push {s s' : Heap} {bs : List Blk} {F : Nat → List Nat} (h : Rep s bs F)
    (x i : Nat) (hi : i < 21) (hnot : x ∉ F i) (hp : s'.ptr = s.ptr)
    (hslot : GET s'.mem (s.ptr + 8 * i) = x)
    (hslot' : ∀ j, j < 21 → j ≠ i → GET s'.mem (s.ptr + 8 * j) = GET s.mem (s.ptr + 8 * j))
    (hpred : GET s'.mem x = s.ptr + 8 * i)
    (hsucc : GET s'.mem (x + 8) = (F i).headD 0)
    (hhead : ∀ y ys, F i = y :: ys →
      GET s'.mem y = x ∧ GET s'.mem (y + 8) = GET s.mem (y + 8))
    (hother : ∀ j, j < 21 → ∀ z ∈ F j, z ≠ (F i).headD 0 →
      GET s'.mem z = GET s.mem z ∧ GET s'.mem (z + 8) = GET s.mem (z + 8)) :
    Lists s' (Function.update F i (x :: F i)) := by
  refine ⟨fun j hj => ?_, fun j hj => ?_, fun j hj => ?_⟩
  · by_cases hji : j = i
    · subst hji; rw [Function.update_same, hp]; exact hslot
    · rw [Function.update_noteq hji, hp, hslot' j hj hji]; exact h.lists.head j hj
  · by_cases hji : j = i
    · subst hji
      rw [Function.update_same, hp, Seg_cons]
      refine ⟨hpred, hsucc, ?_⟩
      have hseg := h.lists.seg j hj
      have hnd := h.lists.nodup j hj
      cases hF : F j with
      | nil => rw [Seg_nil]; trivial
      | cons y ys =>
        rw [hF] at hseg hnd
        rw [Seg_cons] at hseg ⊢
        obtain ⟨hy1, hy2⟩ := hhead y ys hF
        refine ⟨hy1, hy2.trans hseg.2.1, ?_⟩
        apply Seg_frame _ _ _ _ _ _ hseg.2.2
        intro z hz
        apply hother j hj z (by rw [hF]; exact List.mem_cons_of_mem _ hz)
        rw [hF]
        intro hzy
        have : z = y := hzy
        subst this
        exact (List.nodup_cons.1 hnd).1 hz
    · rw [Function.update_noteq hji, hp]
      apply Seg_frame _ _ _ _ _ _ (h.lists.seg j hj)
      intro z hz
      apply hother j hj z hz
      intro hzy
      cases hF : F i with
      | nil =>
        rw [hF] at hzy
        exact (Sound.ne_zero h hj hz).1 hzy
      | cons y ys =>
        rw [hF] at hzy
        have hzy' : z = y := hzy
        have : y ∈ F i := by rw [hF]; exact List.mem_cons_self _ _
        exact hji (h.bucket_unique hj hi hz (hzy' ▸ this))
  · by_cases hji : j = i
    · subst hji; rw [Function.update_same]; exact List.nodup_cons.2 ⟨hnot, h.lists.nodup j hj⟩
    · rw [Function.update_noteq hji]; exact h.lists.nodup j hj

theorem Sound_push {bs : List Blk} {F : Nat → List Nat} (h : Sound bs F) {b : Blk} (hb : b ∈ bs)
    (hfree : b.al = false) (i : Nat) (hi : listIdOfSize b.sz = i) :
    Sound bs (Function.update F i (b.bp :: F i)) := by
  intro j hj x hx
  by_cases hji : j = i
  · rw [hji] at hx ⊢
    rw [Function.update_same] at hx
    rcases List.mem_cons.1 hx with rfl | hx
    · exact ⟨b, hb, rfl, hfree, hi⟩
    · exact h _ (hji ▸ hj) x hx
  · rw [Function.update_noteq hji] at hx
    exact h j hj x hx

/-- `insert_to_list` pushes a free block that is not linked yet at the head of
the list of its bucket; blocks and the other lists stay as they are. -/
theorem insert_spec {s : Heap} {bs : List Blk} {F : Nat → List Nat} (h : Rep s bs F) {b : Blk}
    (hb : b ∈ bs) (hfree : b.al = false) (i : Nat) (hi : listIdOfSize b.sz = i)
    (hnot : b.bp ∉ F i) :
    Rep (insert_to_list s b.bp) bs (Function.update F i (b.bp :: F i)) ∧
    SameRegs s (insert_to_list s b.bp) := by
  have hid : i < 21 := by rw [← hi]; exact listIdOfSize_lt b.sz
  have hf := h.blocks.mem_facts hb
  have hW := W64_val
  have hbrk := h.blocks.brk_facts
  have hpb : InPayload bs b.bp := ⟨b, hb, Nat.le_refl _, by omega⟩
  have hpb8 : InPayload bs (b.bp + 8) := ⟨b, hb, by omega, by omega⟩
  rw [insert_to_list_eq h hb i hi]
  cases hF : F (i) with
  | nil =>
    rw [if_pos (by simp)]
    have hB1 := Blocks_put_slot h.blocks (i) b.bp hid
    have hB2 := Blocks_put_payload hB1 b.bp (s.ptr + 8 * i) hpb
    have hB3 := Blocks_put_payload hB2 (b.bp + 8) 0 hpb8
    refine ⟨⟨hB3, ?_, ?_⟩, ⟨rfl, rfl, rfl, rfl⟩⟩
    · rw [← hF]
      apply Lists_push h b.bp _ hid hnot
      · rfl
      · simp only [put_mem]
        rw [GET_PUT_ne _ _ _ _ (by omega), GET_PUT_ne _ _ _ _ (by omega),
          GET_PUT_eq_of_lt _ _ _ (by omega)]
      · intro j hj hji
        simp only [put_mem]
        rw [GET_PUT_ne _ _ _ _ (by omega), GET_PUT_ne _ _ _ _ (by omega),
          GET_PUT_ne _ _ _ _ (by omega)]
      · simp only [put_mem]
        rw [GET_PUT_ne _ _ _ _ (by omega), GET_PUT_eq_of_lt _ _ _ (by omega)]
      · simp only [put_mem]
        rw [GET_PUT_eq_of_lt _ _ _ (by omega), hF]; rfl
      · intro y ys hy; rw [hF] at hy; cases hy
      · intro j hj z hz _
        obtain ⟨bz, hbz, rfl, _, hbzid⟩ := h.sound j hj z hz
        have hne : bz.bp ≠ b.bp := by
          intro e
          have := Tiled_bp_inj bs _ _ h.blocks.tiled bz b hbz hb e
          subst this
          have hj' : j = i := hbzid.symm.trans hi
          exact hnot (hj' ▸ hz)
        simp only [put_mem]
        have a1 := link_PUT_other h.blocks hbz hb hne
          (PUT (PUT s.mem (s.ptr + 8 * i) b.bp) b.bp
            (s.ptr + 8 * i)) (b.bp + 8) 0 (by omega)
        have a2 := link_PUT_other h.blocks hbz hb hne
          (PUT s.mem (s.ptr + 8 * i) b.bp) b.bp
            (s.ptr + 8 * i) (by omega)
        have a3 := link_PUT_slot h.blocks hbz s.mem (i) b.bp hid
        exact ⟨a1.1.trans (a2.1.trans a3.1), a1.2.trans (a2.2.trans a3.2)⟩
    · rw [← hF]; exact Sound_push h.sound hb hfree i hi
  | cons y ys =>
    have hy : y ∈ F (i) := by rw [hF]; exact List.mem_cons_self _ _
    obtain ⟨c, hc, hcy, hcfree, hcid⟩ := h.sound _ hid y hy
    have hcf := h.blocks.mem_facts hc
    have hyne : y ≠ b.bp := fun e => hnot (e ▸ hy)
    have hcb : c.bp ≠ b.bp := by rw [hcy]; exact hyne
    have hsep : c.bp + c.sz ≤ b.bp ∨ b.bp + b.sz ≤ c.bp := by
      rcases h.blocks.sep hc hb with e | e | e
      · exact absurd (congrArg Blk.bp e) hcb
      · exact Or.inl e
      · exact Or.inr e
    have hpy : InPayload bs y := ⟨c, hc, by omega, by omega⟩
    rw [if_neg (by simp; omega)]
    simp only [List.headD_cons]
    have hB1 := Blocks_put_slot h.blocks (i) b.bp hid
    have hB2 := Blocks_put_payload hB1 y b.bp hpy
    have hB3 := Blocks_put_payload hB2 b.bp (s.ptr + 8 * i) hpb
    have hB4 := Blocks_put_payload hB3 (b.bp + 8) y hpb8
    refine ⟨⟨hB4, ?_, ?_⟩, ⟨rfl, rfl, rfl, rfl⟩⟩
    · rw [← hF]
      apply Lists_push h b.bp _ hid hnot
      · rfl
      · simp only [put_mem]
        rw [GET_PUT_ne _ _ _ _ (by omega), GET_PUT_ne _ _ _ _ (by omega),
          GET_PUT_ne _ _ _ _ (by omega), GET_PUT_eq_of_lt _ _ _ (by omega)]
      · intro j hj hji
        simp only [put_mem]
        rw [GET_PUT_ne _ _ _ _ (by omega), GET_PUT_ne _ _ _ _ (by omega),
          GET_PUT_ne _ _ _ _ (by omega), GET_PUT_ne _ _ _ _ (by omega)]
      · simp only [put_mem]
        rw [GET_PUT_ne _ _ _ _ (by omega), GET_PUT_eq_of_lt _ _ _ (by omega)]
      · simp only [put_mem]
        rw [GET_PUT_eq_of_lt _ _ _ (by omega), hF]; rfl
      · intro y' ys' hy'
        rw [hF] at hy'
        obtain ⟨rfl, rfl⟩ := List.cons_eq_cons.1 hy'
        simp only [put_mem]
        constructor
        · rw [GET_PUT_ne _ _ _ _ (by omega), GET_PUT_ne _ _ _ _ (by omega),
            GET_PUT_eq_of_lt _ _ _ (by omega)]
        · rw [GET_PUT_ne _ _ _ _ (by omega), GET_PUT_ne _ _ _ _ (by omega),
            GET_PUT_ne _ _ _ _ (by omega), GET_PUT_ne _ _ _ _ (by omega)]
      · intro j hj z hz hzy
        rw [hF] at hzy
        have hzy' : z ≠ y := hzy
        obtain ⟨bz, hbz, rfl, _, hbzid⟩ := h.sound j hj z hz
        have hne : bz.bp ≠ b.bp := by
          intro e
          have := Tiled_bp_inj bs _ _ h.blocks.tiled bz b hbz hb e
          subst this
          have hj' : j = i := hbzid.symm.trans hi
          exact hnot (hj' ▸ hz)
        have hne2 : bz.bp ≠ c.bp := by rw [hcy]; exact hzy'
        simp only [put_mem]
        have a1 := link_PUT_other h.blocks hbz hb hne
          (PUT (PUT (PUT s.mem (s.ptr + 8 * i) b.bp) y b.bp) b.bp
            (s.ptr + 8 * i)) (b.bp + 8) y (by omega)
        have a2 := link_PUT_other h.blocks hbz hb hne
          (PUT (PUT s.mem (s.ptr + 8 * i) b.bp) y b.bp) b.bp
            (s.ptr + 8 * i) (by omega)
        have a3 := link_PUT_other h.blocks hbz hc hne2
          (PUT s.mem (s.ptr + 8 * i) b.bp) y b.bp (by omega)
        have a4 := link_PUT_slot h.blocks hbz s.mem (i) b.bp hid
        exact ⟨a1.1.trans (a2.1.trans (a3.1.trans a4.1)),
          a1.2.trans (a2.2.trans (a3.2.trans a4.2))⟩
    · rw [← hF]; exact Sound_push h.sound hb hfree i hi

theorem getLastD_cons_cons (z w : Nat) (ws : List Nat) (d : Nat) :
    (z :: w :: ws).getLastD d = (w :: ws).getLastD d := by
  simp [List.getLastD]

theorem getLastD_mem (l : List Nat) (d : Nat) (h : l ≠ []) : l.getLastD d ∈ l := by
  cases l with
  | nil => exact absurd rfl h
  | cons z zs =>
    rw [List.getLastD_cons]
    induction zs generalizing z with
    | nil => simp
    | cons w ws ih =>
      rw [List.getLastD_cons]
      exact List.mem_cons_of_mem _ (ih w (by simp))

/-- Changing the successor link of the last block of a segment. -/
theorem Seg_relink (m m' : Mem) (n n' : Nat) (l : List Nat) : ∀ p,
    Seg m p l n → l.Nodup →
    (∀ z ∈ l, GET m' z = GET m z) →
    (∀ z ∈ l, z ≠ l.getLastD 0 → GET m' (z + 8) = GET m (z + 8)) →
    (l ≠ [] → GET m' (l.getLastD 0 + 8) = n') →
    Seg m' p l n' := by
  induction l with
  | nil => intro p _ _ _ _ _; rw [Seg_nil]; trivial
  | cons z zs ih =>
    intro p hseg hnd hpred hsucc hlast
    rw [Seg_cons] at hseg ⊢
    obtain ⟨h1, h2, h3⟩ := hseg
    cases zs with
    | nil =>
      refine ⟨(hpred z (by simp)).trans h1, ?_, by rw [Seg_nil]; trivial⟩
      have := hlast (by simp)
      simpa [List.getLastD] using this
    | cons w ws =>
      have hzl : z ≠ (z :: w :: ws).getLastD 0 := by
        rw [getLastD_cons_cons]
        intro e
        have hm := getLastD_mem (w :: ws) 0 (by simp)
        rw [← e] at hm
        exact (List.nodup_cons.1 hnd).1 hm
      refine ⟨(hpred z (by simp)).trans h1, ?_, ?_⟩
      · rw [hsucc z (by simp) hzl, h2]; rfl
      · apply ih z h3 (List.nodup_cons.1 hnd).2
        · intro y hy; exact hpred y (List.mem_cons_of_mem _ hy)
        · intro y hy hyl
          apply hsucc y (List.mem_cons_of_mem _ hy)
          rw [getLastD_cons_cons]; exact hyl
        · intro _
          have := hlast (by simp)
          rw [getLastD_cons_cons] at this
          exact this

theorem Lists_remove {s s' : Heap} {bs : List Blk} {F : Nat → List Nat} (h : Rep s bs F)
    (x i : Nat) (hi : i < 21) (l1 l2 : List Nat) (hF : F i = l1 ++ x :: l2)
    (hp : s'.ptr = s.ptr)
    (hslot : ∀ j, j < 21 → GET s'.mem (s.ptr + 8 * j) =
      if j = i ∧ l1 = [] then l2.headD 0 else GET s.mem (s.ptr + 8 * j))
    (hlink : ∀ j, j < 21 → ∀ z ∈ F j, z ≠ x →
      GET s'.mem z = (if z = l2.headD 0 then l1.getLastD (s.ptr + 8 * i) else GET s.mem z) ∧
      GET s'.mem (z + 8) = (if z = l1.getLastD 0 then l2.headD 0 else GET s.mem (z + 8))) :
    Lists s' (Function.update F i (l1 ++ l2)) := by
  have hnd := h.lists.nodup i hi
  rw [hF] at hnd
  have hnd1 : l1.Nodup := (List.nodup_append.1 hnd).1
  have hnd2 : (x :: l2).Nodup := (List.nodup_append.1 hnd).2.1
  have hdis : ∀ a, a ∈ l1 → a ∈ x :: l2 → False := fun a h1 h2 =>
    (List.nodup_append.1 hnd).2.2 h1 h2
  have hxl2 : x ∉ l2 := (List.nodup_cons.1 hnd2).1
  have hxl1 : x ∉ l1 := fun hx => hdis x hx (List.mem_cons_self _ _)
  have hmem1 : ∀ z ∈ l1, z ∈ F i := fun z hz => by rw [hF]; exact List.mem_append_left _ hz
  have hmem2 : ∀ z ∈ l2, z ∈ F i := fun z hz => by
    rw [hF]; exact List.mem_append_right _ (List.mem_cons_of_mem _ hz)
  have hnz : ∀ j, j < 21 → ∀ z ∈ F j, z ≠ 0 := fun j hj z hz => (Sound.ne_zero h hj hz).1
  have hseg := h.lists.seg i hi
  rw [hF, Seg_append, Seg_cons] at hseg
  obtain ⟨hs1, hs2, hs3, hs4⟩ := hseg
  -- the head of l2 is not the last of l1, and conversely
  have hhead_ne_last : ∀ z ∈ l2, z ≠ l1.getLastD 0 := by
    intro z hz e
    by_cases hl1 : l1 = []
    · subst hl1; exact hnz i hi z (hmem2 z hz) e
    · have := getLastD_mem l1 0 hl1
      rw [← e] at this
      exact hdis z this (List.mem_cons_of_mem _ hz)
  have hlast_ne_head : ∀ z ∈ l1, z ≠ l2.headD 0 := by
    intro z hz e
    cases l2 with
    | nil => exact hnz i hi z (hmem1 z hz) e
    | cons y ys =>
      have : z = y := e
      subst this
      exact hdis z hz (List.mem_cons_of_mem _ (List.mem_cons_self _ _))
  refine ⟨fun j hj => ?_, fun j hj => ?_, fun j hj => ?_⟩
  · rw [hp, hslot j hj]
    by_cases hji : j = i
    · subst hji
      rw [Function.update_same]
      by_cases hl1 : l1 = []
      · subst hl1; simp
      · rw [if_neg (fun hc => hl1 hc.2), h.lists.head j hj, hF]
        cases l1 with
        | nil => exact absurd rfl hl1
        | cons a as => rfl
    · rw [Function.update_noteq hji, if_neg (fun hc => hji hc.1)]
      exact h.lists.head j hj
  · rw [hp]
    by_cases hji : j = i
    · subst hji
      rw [Function.update_same, Seg_append]
      constructor
      · apply Seg_relink _ _ _ _ _ _ hs1 hnd1
        · intro z hz
          rw [(hlink j hj z (hmem1 z hz) (fun e => hxl1 (e ▸ hz))).1,
            if_neg (hlast_ne_head z hz)]
        · intro z hz hzl
          rw [(hlink j hj z (hmem1 z hz) (fun e => hxl1 (e ▸ hz))).2, if_neg hzl]
        · intro hl1
          have hm := getLastD_mem l1 0 hl1
          rw [(hlink j hj _ (hmem1 _ hm) (fun e => hxl1 (e ▸ hm))).2, if_pos rfl]
      · cases l2 with
        | nil => rw [Seg_nil]; trivial
        | cons y ys =>
          rw [Seg_cons] at hs4 ⊢
          have hy2 : y ∈ y :: ys := List.mem_cons_self _ _
          have hyx : y ≠ x := fun e => hxl2 (e ▸ hy2)
          have hl := hlink j hj y (hmem2 y hy2) hyx
          refine ⟨?_, ?_, ?_⟩
          · rw [hl.1, if_pos (show y = (y :: ys).headD 0 from rfl)]
          · rw [hl.2, if_neg (hhead_ne_last y hy2)]; exact hs4.2.1
          · apply Seg_frame _ _ _ _ _ _ hs4.2.2
            intro z hz
            have hz2 : z ∈ y :: ys := List.mem_cons_of_mem _ hz
            have hzx : z ≠ x := fun e => hxl2 (e ▸ hz2)
            have hzl := hlink j hj z (hmem2 z hz2) hzx
            have hzy : z ≠ (y :: ys).headD 0 :=
              fun e => (List.nodup_cons.1 (List.nodup_cons.1 hnd2).2).1
                ((show z = y from e) ▸ hz)
            rw [hzl.1, hzl.2, if_neg hzy, if_neg (hhead_ne_last z hz2)]
            exact ⟨rfl, rfl⟩
    · rw [Function.update_noteq hji]
      apply Seg_frame _ _ _ _ _ _ (h.lists.seg j hj)
      intro z hz
      have hzx : z ≠ x := by
        intro e
        have : x ∈ F i := by rw [hF]; exact List.mem_append_right _ (List.mem_cons_self _ _)
        exact hji (h.bucket_unique hj hi hz (e ▸ this))
      have hl := hlink j hj z hz hzx
      have h1 : z ≠ l2.headD 0 := by
        intro e
        cases l2 with
        | nil => exact hnz j hj z hz e
        | cons y ys =>
          have : z = y := e
          exact hji (h.bucket_unique hj hi hz (this ▸ hmem2 y (List.mem_cons_self _ _)))
      have h2 : z ≠ l1.getLastD 0 := by
        intro e
        by_cases hl1 : l1 = []
        · subst hl1; exact hnz j hj z hz e
        · have hm := getLastD_mem l1 0 hl1
          exact hji (h.bucket_unique hj hi hz (e ▸ hmem1 _ hm))
      rw [hl.1, hl.2, if_neg h1, if_neg h2]
      exact ⟨rfl, rfl⟩
  · by_cases hji : j = i
    · subst hji
      rw [Function.update_same]
      exact List.nodup_append.2 ⟨hnd1, (List.nodup_cons.1 hnd2).2,
        fun a h1 h2 => hdis a h1 (List.mem_cons_of_mem _ h2)⟩
    · rw [Function.update_noteq hji]; exact h.lists.nodup j hj

/-- Facts about a listed block and its two neighbours in the list. -/
theorem Rep.link_facts {s : Heap} {bs : List Blk} {F : Nat → List Nat} (h : Rep s bs F)
    {x i : Nat} (hi : i < 21) {l1 l2 : List Nat} (hF : F i = l1 ++ x :: l2) :
    GET s.mem x = l1.getLastD (s.ptr + 8 * i) ∧ GET s.mem (x + 8) = l2.headD 0 ∧
    (l1 ≠ [] → s.ptr + 192 ≤ l1.getLastD (s.ptr + 8 * i) ∧
      l1.getLastD (s.ptr + 8 * i) + 32 ≤ s.brk ∧
      (l1.getLastD (s.ptr + 8 * i) + 32 ≤ x ∨ x + 32 ≤ l1.getLastD (s.ptr + 8 * i)) ∧
      l1.getLastD (s.ptr + 8 * i) = l1.getLastD 0) ∧
    (l2 ≠ [] → s.ptr + 192 ≤ l2.headD 0 ∧ l2.headD 0 + 32 ≤ s.brk ∧
      (l2.headD 0 + 32 ≤ x ∨ x + 32 ≤ l2.headD 0) ∧
      (l1 ≠ [] → l2.headD 0 + 32 ≤ l1.getLastD (s.ptr + 8 * i) ∨
        l1.getLastD (s.ptr + 8 * i) + 32 ≤ l2.headD 0)) ∧
    s.ptr + 192 ≤ x ∧ x + 32 ≤ s.brk := by
  have hnd := h.lists.nodup i hi
  rw [hF] at hnd
  have hseg := h.lists.seg i hi
  rw [hF, Seg_append, Seg_cons] at hseg
  obtain ⟨hs1, hs2, hs3, hs4⟩ := hseg
  have hxm : x ∈ F i := by rw [hF]; exact List.mem_append_right _ (List.mem_cons_self _ _)
  obtain ⟨b, hb, hbx, _, _⟩ := h.sound i hi x hxm
  have hfb := h.blocks.mem_facts hb
  -- separation of two listed blocks with different addresses
  have hsep : ∀ y ∈ F i, y ≠ x → s.ptr + 192 ≤ y ∧ y + 32 ≤ s.brk ∧ (y + 32 ≤ x ∨ x + 32 ≤ y) := by
    intro y hy hyx
    obtain ⟨c, hc, hcy, _, _⟩ := h.sound i hi y hy
    have hfc := h.blocks.mem_facts hc
    rcases h.blocks.sep hc hb with e | e | e
    · exact absurd (by rw [← hcy, ← hbx, e]) hyx
    · omega
    · omega
  have hsep2 : ∀ y ∈ F i, ∀ z ∈ F i, y ≠ z → (y + 32 ≤ z ∨ z + 32 ≤ y) := by
    intro y hy z hz hyz
    obtain ⟨c, hc, hcy, _, _⟩ := h.sound i hi y hy
    obtain ⟨d, hd, hdz, _, _⟩ := h.sound i hi z hz
    have hfc := h.blocks.mem_facts hc
    have hfd := h.blocks.mem_facts hd
    rcases h.blocks.sep hc hd with e | e | e
    · exact absurd (by rw [← hcy, ← hdz, e]) hyz
    · omega
    · omega
  have hxl1 : x ∉ l1 := fun hx =>
    (List.nodup_append.1 hnd).2.2 hx (List.mem_cons_self _ _)
  have hxl2 : x ∉ l2 := (List.nodup_cons.1 (List.nodup_append.1 hnd).2.1).1
  have hlast : l1 ≠ [] → l1.getLastD (s.ptr + 8 * i) = l1.getLastD 0 ∧ l1.getLastD 0 ∈ l1 := by
    intro hl1
    refine ⟨?_, getLastD_mem l1 0 hl1⟩
    cases l1 with
    | nil => exact absurd rfl hl1
    | cons a as => rw [List.getLastD_cons, List.getLastD_cons]
  refine ⟨hs2, hs3, ?_, ?_, by omega, by omega⟩
  · intro hl1
    obtain ⟨e, hm⟩ := hlast hl1
    have hm' : l1.getLastD 0 ∈ F i := by rw [hF]; exact List.mem_append_left _ hm
    have := hsep _ hm' (fun e' => hxl1 (e' ▸ hm))
    rw [e]; omega
  · intro hl2
    cases l2 with
    | nil => exact absurd rfl hl2
    | cons y ys =>
      have hy : y ∈ F i := by
        rw [hF]; exact List.mem_append_right _ (List.mem_cons_of_mem _ (List.mem_cons_self _ _))
      have hyx : y ≠ x := fun e => hxl2 (e ▸ List.mem_cons_self _ _)
      have := hsep y hy hyx
      refine ⟨this.1, this.2.1, this.2.2, ?_⟩
      intro hl1
      obtain ⟨e, hm⟩ := hlast hl1
      have hm' : l1.getLastD 0 ∈ F i := by rw [hF]; exact List.mem_append_left _ hm
      have hne : y ≠ l1.getLastD 0 := by
        intro e'
        exact (List.nodup_append.1 hnd).2.2 (e' ▸ hm)
          (List.mem_cons_of_mem _ (List.mem_cons_self _ _))
      have := hsep2 y hy _ hm' hne
      rw [e]
      exact this

theorem SUCC_eq (x : Nat) (hx : x + 8 < W64) (m : Mem) : SUCC m x = GET m (x + 8) := by
  unfold SUCC; rw [w64_eq _ hx]

theorem delete_from_list_head {s : Heap} {bs : List Blk} {F : Nat → List Nat} (h : Rep s bs F)
    {x i : Nat} (hi : i < 21) {l2 : List Nat} (hF : F i = x :: l2) :
    delete_from_list s x =
      if l2.headD 0 ≠ 0 then ((s.put (s.ptr + 8 * i) (l2.headD 0)).put (l2.headD 0) (s.ptr + 8 * i))
      else s.put (s.ptr + 8 * i) (l2.headD 0) := by
  have hF' : F i = [] ++ x :: l2 := hF
  obtain ⟨hpred, hsucc, _, hl2, hx1, hx2⟩ := h.link_facts hi hF'
  have hxm : x ∈ F i := by rw [hF]; exact List.mem_cons_self _ _
  obtain ⟨b, hb, hbx, _, hbid⟩ := h.sound i hi x hxm
  have hbrk := h.blocks.brk_facts
  have hW := W64_val
  have e_pred : PRED s.mem x = s.ptr + 8 * i := hpred
  have e_ishead : IS_HEAD_PTR s (s.ptr + 8 * i) = true := by
    unfold IS_HEAD_PTR MAX_N
    rw [w64_eq _ (by omega)]
    simp only [Bool.and_eq_true, decide_eq_true_eq]
    omega
  have e_id : LIST_ID s.mem x = i := by rw [← hbx, LIST_ID_eq h.blocks hb, hbid]
  have e_addr : HEAD_PTR_ADDR s i = s.ptr + 8 * i := HEAD_PTR_ADDR_eq h.blocks i hi
  have e_succ : SUCC s.mem x = l2.headD 0 := by
    rw [SUCC_eq x (by omega)]; exact hsucc
  have e_succ1 : SUCC (s.put (s.ptr + 8 * i) (l2.headD 0)).mem x = l2.headD 0 := by
    rw [SUCC_eq x (by omega), put_mem, GET_PUT_ne _ _ _ _ (by omega)]; exact hsucc
  have e_addr1 : HEAD_PTR_ADDR (s.put (s.ptr + 8 * i) (l2.headD 0)) i = s.ptr + 8 * i := e_addr
  unfold delete_from_list
  rw [e_pred, e_ishead, if_pos rfl]
  simp only [e_id]
  simp only [e_addr]
  simp only [e_succ]
  simp only [e_succ1]
  simp only [e_addr1]
  rfl

theorem delete_from_list_inner {s : Heap} {bs : List Blk} {F : Nat → List Nat} (h : Rep s bs F)
    {x i : Nat} (hi : i < 21) {l1 l2 : List Nat} (hF : F i = l1 ++ x :: l2) (hl1 : l1 ≠ []) :
    delete_from_list s x =
      if l2.headD 0 ≠ 0 then
        ((s.put (l1.getLastD 0 + 8) (l2.headD 0)).put (l2.headD 0) (l1.getLastD 0))
      else s.put (l1.getLastD 0 + 8) (l2.headD 0) := by
  obtain ⟨hpred, hsucc, hl1f, hl2, hx1, hx2⟩ := h.link_facts hi hF
  obtain ⟨hp1, hp2, hp3, hp4⟩ := hl1f hl1
  rw [hp4] at hpred hp1 hp2 hp3
  have hbrk := h.blocks.brk_facts
  have hW := W64_val
  have e_pred : PRED s.mem x = l1.getLastD 0 := hpred
  have e_ishead : IS_HEAD_PTR s (l1.getLastD 0) = false := by
    unfold IS_HEAD_PTR MAX_N
    rw [w64_eq _ (by omega)]
    simp only [Bool.and_eq_false_imp, decide_eq_true_eq, decide_eq_false_iff_not]
    omega
  have e_succ : SUCC s.mem x = l2.headD 0 := by
    rw [SUCC_eq x (by omega)]; exact hsucc
  have e_ps : PUT_SUCC s.mem (l1.getLastD 0) (l2.headD 0) =
      PUT s.mem (l1.getLastD 0 + 8) (l2.headD 0) := by
    unfold PUT_SUCC; rw [w64_eq _ (by omega)]
  have e_succ1 : SUCC (PUT s.mem (l1.getLastD 0 + 8) (l2.headD 0)) x = l2.headD 0 := by
    rw [SUCC_eq x (by omega), GET_PUT_ne _ _ _ _ (by omega)]; exact hsucc
  have e_pred1 : PRED (PUT s.mem (l1.getLastD 0 + 8) (l2.headD 0)) x = l1.getLastD 0 := by
    unfold PRED; rw [GET_PUT_ne _ _ _ _ (by omega)]; exact hpred
  unfold delete_from_list
  rw [e_pred, e_ishead, if_neg (by simp)]
  simp only [e_succ]
  simp only [e_ps]
  simp only [setMem_mem]
  simp only [e_succ1]
  simp only [e_pred1]
  rfl

/-- Two listed blocks are the same or at least 32 bytes apart. -/
theorem Rep.listed_sep {s : Heap} {bs : List Blk} {F : Nat → List Nat} (h : Rep s bs F)
    {j k y z : Nat} (hj : j < 21) (hk : k < 21) (hy : y ∈ F j) (hz : z ∈ F k) :
    y = z ∨ y + 32 ≤ z ∨ z + 32 ≤ y := by
  obtain ⟨c, hc, hcy, _, _⟩ := h.sound j hj y hy
  obtain ⟨d, hd, hdz, _, _⟩ := h.sound k hk z hz
  have hfc := h.blocks.mem_facts hc
  have hfd := h.blocks.mem_facts hd
  rcases h.blocks.sep hc hd with e | e | e
  · left; rw [← hcy, ← hdz, e]
  · omega
  · omega

theorem Rep.listed_payload {s : Heap} {bs : List Blk} {F : Nat → List Nat} (h : Rep s bs F)
    {j y : Nat} (hj : j < 21) (hy : y ∈ F j) : InPayload bs y ∧ InPayload bs (y + 8) := by
  obtain ⟨c, hc, hcy, _, _⟩ := h.sound j hj y hy
  have hfc := h.blocks.mem_facts hc
  exact ⟨⟨c, hc, by omega, by omega⟩, ⟨c, hc, by omega, by omega⟩⟩

theorem Sound_erase {bs : List Blk} {F : Nat → List Nat} (h : Sound bs F) (i x : Nat) :
    Sound bs (Function.update F i ((F i).erase x)) := by
  intro j hj z hz
  by_cases hji : j = i
  · rw [hji] at hz
    rw [Function.update_same] at hz
    exact h j hj z (hji ▸ List.mem_of_mem_erase hz)
  · rw [Function.update_noteq hji] at hz
    exact h j hj z hz

/-- `delete_from_list` unlinks a listed block: its bucket list loses it and
keeps the order of the others; blocks and the other lists stay as they are. -/
theorem delete_spec {s : Heap} {bs : List Blk} {F : Nat → List Nat} (h : Rep s bs F)
    {x i : Nat} (hi : i < 21) (hx : x ∈ F i) :
    Rep (delete_from_list s x) bs (Function.update F i ((F i).erase x)) ∧
    SameRegs s (delete_from_list s x) := by
  obtain ⟨l1, l2, hF⟩ := List.append_of_mem hx
  have hnd := h.lists.nodup i hi
  rw [hF] at hnd
  have hxl1 : x ∉ l1 := fun hx' =>
    (List.nodup_append.1 hnd).2.2 hx' (List.mem_cons_self _ _)
  have herase : (F i).erase x = l1 ++ l2 := by
    rw [hF, List.erase_append_right _ hxl1, List.erase_cons_head]
  rw [herase]
  obtain ⟨hpred, hsucc, hl1f, hl2f, hx1, hx2⟩ := h.link_facts hi hF
  have hbrk := h.blocks.brk_facts
  have hW := W64_val
  have hmem1 : ∀ z ∈ l1, z ∈ F i := fun z hz => by rw [hF]; exact List.mem_append_left _ hz
  have hmem2 : ∀ z ∈ l2, z ∈ F i := fun z hz => by
    rw [hF]; exact List.mem_append_right _ (List.mem_cons_of_mem _ hz)
  have hsound := Sound_erase h.sound i x
  rw [herase] at hsound
  have hnz : ∀ j, j < 21 → ∀ z ∈ F j, z ≠ 0 ∧ s.ptr + 192 ≤ z ∧ z + 32 ≤ s.brk :=
    fun j hj z hz => Sound.ne_zero h hj hz
  -- the successor, when there is one
  have hsu : l2 ≠ [] → l2.headD 0 ∈ F i ∧ l2.headD 0 ≠ 0 := by
    intro hl2
    cases l2 with
    | nil => exact absurd rfl hl2
    | cons y ys =>
      have : y ∈ F i := hmem2 y (List.mem_cons_self _ _)
      exact ⟨this, (hnz i hi y this).1⟩
  have hsu0 : l2 = [] → l2.headD 0 = 0 := by intro e; rw [e]; rfl
  by_cases hl1 : l1 = []
  · -- the block is the head of its list
    subst hl1
    rw [delete_from_list_head h hi hF]
    by_cases hl2 : l2 = []
    · have e0 := hsu0 hl2
      rw [if_neg (by rw [e0]; simp), e0]
      refine ⟨⟨Blocks_put_slot h.blocks i 0 hi, ?_, hsound⟩, SameRegs_put _ _ _⟩
      apply Lists_remove h x i hi [] l2 hF
      · rfl
      · intro j hj
        rw [put_mem]
        by_cases hji : j = i
        · rw [if_pos ⟨hji, rfl⟩, hji, GET_PUT_eq_of_lt _ _ _ (by omega), e0]
        · rw [if_neg (fun hc => hji hc.1), GET_PUT_ne _ _ _ _ (by omega)]
      · intro j hj z hz hzx
        have fz := hnz j hj z hz
        rw [put_mem, e0, if_neg fz.1, show ([] : List Nat).getLastD 0 = 0 from rfl, if_neg fz.1,
          GET_PUT_ne _ _ _ _ (by omega), GET_PUT_ne _ _ _ _ (by omega)]
        exact ⟨rfl, rfl⟩
    · obtain ⟨hsum, hsune⟩ := hsu hl2
      obtain ⟨f1, f2, f3, _⟩ := hl2f hl2
      rw [if_pos hsune]
      have hB1 := Blocks_put_slot h.blocks i (l2.headD 0) hi
      have hB2 := Blocks_put_payload hB1 (l2.headD 0) (s.ptr + 8 * i)
        (h.listed_payload hi hsum).1
      refine ⟨⟨hB2, ?_, hsound⟩, ⟨rfl, rfl, rfl, rfl⟩⟩
      apply Lists_remove h x i hi [] l2 hF
      · rfl
      · intro j hj
        rw [put_mem, put_mem]
        by_cases hji : j = i
        · rw [if_pos ⟨hji, rfl⟩, hji, GET_PUT_ne _ _ _ _ (by omega),
            GET_PUT_eq_of_lt _ _ _ (by omega)]
        · rw [if_neg (fun hc => hji hc.1), GET_PUT_ne _ _ _ _ (by omega),
            GET_PUT_ne _ _ _ _ (by omega)]
      · intro j hj z hz hzx
        have fz := hnz j hj z hz
        rw [put_mem, put_mem]
        rw [show ([] : List Nat).getLastD 0 = 0 from rfl, if_neg fz.1,
          show ([] : List Nat).getLastD (s.ptr + 8 * i) = s.ptr + 8 * i from rfl]
        have hsep := h.listed_sep hj hi hz hsum
        by_cases hzs : z = l2.headD 0
        · rw [if_pos hzs, ← hzs, GET_PUT_eq_of_lt _ _ _ (by omega),
            GET_PUT_ne _ _ _ _ (by omega), GET_PUT_ne _ _ _ _ (by omega)]
          exact ⟨rfl, rfl⟩
        · rw [if_neg hzs, GET_PUT_ne _ _ _ _ (by omega), GET_PUT_ne _ _ _ _ (by omega),
            GET_PUT_ne _ _ _ _ (by omega), GET_PUT_ne _ _ _ _ (by omega)]
          exact ⟨rfl, rfl⟩
  · -- the block has a predecessor in its list
    obtain ⟨p1, p2, p3, p4⟩ := hl1f hl1
    rw [p4] at p1 p2 p3
    have hprm : l1.getLastD 0 ∈ F i := hmem1 _ (getLastD_mem l1 0 hl1)
    rw [delete_from_list_inner h hi hF hl1]
    by_cases hl2 : l2 = []
    · have e0 := hsu0 hl2
      rw [if_neg (by rw [e0]; simp), e0]
      have hB1 := Blocks_put_payload h.blocks (l1.getLastD 0 + 8) 0 (h.listed_payload hi hprm).2
      refine ⟨⟨hB1, ?_, hsound⟩, SameRegs_put _ _ _⟩
      apply Lists_remove h x i hi l1 l2 hF
      · rfl
      · intro j hj
        rw [put_mem, if_neg (fun hc => hl1 hc.2), GET_PUT_ne _ _ _ _ (by omega)]
      · intro j hj z hz hzx
        have fz := hnz j hj z hz
        rw [put_mem, e0, if_neg fz.1]
        have hsep := h.listed_sep hj hi hz hprm
        by_cases hzp : z = l1.getLastD 0
        · rw [if_pos hzp, ← hzp, GET_PUT_ne _ _ _ _ (by omega),
            GET_PUT_eq_of_lt _ _ _ (by omega)]
          exact ⟨rfl, rfl⟩
        · rw [if_neg hzp, GET_PUT_ne _ _ _ _ (by omega), GET_PUT_ne _ _ _ _ (by omega)]
          exact ⟨rfl, rfl⟩
    · obtain ⟨hsum, hsune⟩ := hsu hl2
      obtain ⟨f1, f2, f3, f4⟩ := hl2f hl2
      have f4' := f4 hl1
      rw [p4] at f4'
      rw [if_pos hsune]
      have hB1 := Blocks_put_payload h.blocks (l1.getLastD 0 + 8) (l2.headD 0)
        (h.listed_payload hi hprm).2
      have hB2 := Blocks_put_payload hB1 (l2.headD 0) (l1.getLastD 0)
        (h.listed_payload hi hsum).1
      refine ⟨⟨hB2, ?_, hsound⟩, ⟨rfl, rfl, rfl, rfl⟩⟩
      apply Lists_remove h x i hi l1 l2 hF
      · rfl
      · intro j hj
        rw [put_mem, put_mem]
        rw [if_neg (fun hc => hl1 hc.2), GET_PUT_ne _ _ _ _ (by omega),
          GET_PUT_ne _ _ _ _ (by omega)]
      · intro j hj z hz hzx
        have fz := hnz j hj z hz
        rw [put_mem, put_mem]
        have hsep1 := h.listed_sep hj hi hz hprm
        have hsep2 := h.listed_sep hj hi hz hsum
        rw [p4]
        by_cases hzs : z = l2.headD 0
        · have hzp : z ≠ l1.getLastD 0 := by omega
          rw [if_pos hzs, if_neg hzp, ← hzs, GET_PUT_eq_of_lt _ _ _ (by omega),
            GET_PUT_ne _ _ _ _ (by omega), GET_PUT_ne _ _ _ _ (by omega)]
          exact ⟨rfl, rfl⟩
        · by_cases hzp : z = l1.getLastD 0
          · rw [if_neg hzs, if_pos hzp, ← hzp, GET_PUT_ne _ _ _ _ (by omega),
              GET_PUT_ne _ _ _ _ (by omega), GET_PUT_ne _ _ _ _ (by omega),
              GET_PUT_eq_of_lt _ _ _ (by omega)]
            exact ⟨rfl, rfl⟩
          · rw [if_neg hzs, if_neg hzp, GET_PUT_ne _ _ _ _ (by omega),
              GET_PUT_ne _ _ _ _ (by omega), GET_PUT_ne _ _ _ _ (by omega),
              GET_PUT_ne _ _ _ _ (by omega)]
            exact ⟨rfl, rfl⟩

theorem Tiled_end_unique (l : List Blk) : ∀ a e e', Tiled a l e → Tiled a l e' → e = e' := by
  induction l with
  | nil => intro a e e' h h'; exact h.symm.trans h'
  | cons b l ih =>
    intro a e e' h h'
    exact ih _ _ _ h.2.2.2 h'.2.2.2

/-- Decomposition of the tiling of `pre ++ mid ++ post`. -/
theorem Tiled_split3 {pre mid post : List Blk} {a0 e0 : Nat}
    (h : Tiled a0 (pre ++ mid ++ post) e0) :
    ∃ a e, Tiled a0 pre a ∧ Tiled a mid e ∧ Tiled e post e0 := by
  obtain ⟨e, h1, h2⟩ := (Tiled_append _ _ _ _).1 h
  obtain ⟨a, h3, h4⟩ := (Tiled_append _ _ _ _).1 h1
  exact ⟨a, e, h3, h4, h2⟩

theorem Tiled_join3 {pre mid post : List Blk} {a0 a e e0 : Nat}
    (h1 : Tiled a0 pre a) (h2 : Tiled a mid e) (h3 : Tiled e post e0) :
    Tiled a0 (pre ++ mid ++ post) e0 :=
  (Tiled_append _ _ _ _).2 ⟨e, (Tiled_append _ _ _ _).2 ⟨a, h1, h2⟩, h3⟩

/-- Replacing a run of blocks by another run with the same extent, when the
memory outside the run keeps its words. -/
theorem Rep_replace {s s' : Heap} {pre mid mid' post : List Blk} {F : Nat → List Nat}
    (h : Rep s (pre ++ mid ++ post) F) (hr : SameRegs s s') (a e : Nat)
    (ha : Tiled (s.ptr + 192) pre a) (hm : Tiled a mid e) (hm' : Tiled a mid' e)
    (hok : ∀ b ∈ mid', BlkOK s'.mem b)
    (hout : ∀ q, q + 8 ≤ a - 8 ∨ e - 8 ≤ q → GET s'.mem q = GET s.mem q)
    (hnot : ∀ j, j < 21 → ∀ x ∈ F j, ∀ b ∈ mid, b.bp ≠ x) :
    Rep s' (pre ++ mid' ++ post) F := by
  have hB := h.blocks
  obtain ⟨a1, e1, t1, t2, t3⟩ := Tiled_split3 hB.tiled
  have ea : a1 = a := Tiled_end_unique _ _ _ _ t1 ha
  subst ea
  have ee : e1 = e := Tiled_end_unique _ _ _ _ t2 hm
  subst ee
  have hle1 := Tiled_le _ _ _ ha
  have hle2 := Tiled_le _ _ _ hm
  have hle3 := Tiled_le _ _ _ t3
  obtain ⟨r1, r2, r3, r4⟩ := hr
  have hlim := hB.lim
  have hlim64 := hB.lim64
  -- blocks outside the run keep their tags
  have hpre : ∀ b ∈ pre, BlkOK s'.mem b := by
    intro b hb
    have f := Tiled_mem _ _ _ ha b hb
    have ok := hB.ok b (List.mem_append_left _ (List.mem_append_left _ hb))
    exact ⟨(hout _ (by omega)).trans ok.1, (hout _ (by omega)).trans ok.2⟩
  have hpost : ∀ b ∈ post, BlkOK s'.mem b := by
    intro b hb
    have f := Tiled_mem _ _ _ t3 b hb
    have ok := hB.ok b (List.mem_append_right _ hb)
    exact ⟨(hout _ (by omega)).trans ok.1, (hout _ (by omega)).trans ok.2⟩
  have hB' : Blocks s' (pre ++ mid' ++ post) := by
    refine ⟨by rw [r3, r4]; exact hB.hlp, ?_, by rw [r1, r2]; exact hB.lim,
      by rw [r2]; exact hB.lim64, ?_, ?_, ?_, ?_⟩
    · rw [r4, r1]; exact Tiled_join3 ha hm' t3
    · rw [r4, hout _ (by omega)]; exact hB.pro1
    · rw [r4, hout _ (by omega)]; exact hB.pro2
    · rw [r1, hout _ (by omega)]; exact hB.epi
    · intro b hb
      rcases List.mem_append.1 hb with hb | hb
      · rcases List.mem_append.1 hb with hb | hb
        · exact hpre b hb
        · exact hok b hb
      · exact hpost b hb
  -- listed blocks are outside the run
  have hlisted : ∀ j, j < 21 → ∀ x ∈ F j, ∃ b, (b ∈ pre ∨ b ∈ post) ∧ b.bp = x ∧ b.al = false ∧
      listIdOfSize b.sz = j := by
    intro j hj x hx
    obtain ⟨b, hb, hbx, hbf, hbi⟩ := h.sound j hj x hx
    rcases List.mem_append.1 hb with hb | hb
    · rcases List.mem_append.1 hb with hb | hb
      · exact ⟨b, Or.inl hb, hbx, hbf, hbi⟩
      · exact absurd hbx (hnot j hj x hx b hb)
    · exact ⟨b, Or.inr hb, hbx, hbf, hbi⟩
  refine ⟨hB', ?_, ?_⟩
  · apply Lists_frame h.lists r4
    · intro i hi
      exact hout _ (by omega)
    · intro i hi x hx
      obtain ⟨b, hb, hbx, _, _⟩ := hlisted i hi x hx
      rcases hb with hb | hb
      · have f := Tiled_mem _ _ _ ha b hb
        exact ⟨hout _ (by omega), hout _ (by omega)⟩
      · have f := Tiled_mem _ _ _ t3 b hb
        exact ⟨hout _ (by omega), hout _ (by omega)⟩
  · intro j hj x hx
    obtain ⟨b, hb, hbx, hbf, hbi⟩ := hlisted j hj x hx
    refine ⟨b, ?_, hbx, hbf, hbi⟩
    rcases hb with hb | hb
    · exact List.mem_append_left _ (List.mem_append_left _ hb)
    · exact List.mem_append_right _ hb

/-! ### Membership in updated bucket lists -/

theorem mem_update_erase {F : Nat → List Nat} {i : Nat} (hnd : (F i).Nodup) (x z j : Nat) :
    z ∈ Function.update F i ((F i).erase x) j ↔ z ∈ F j ∧ ¬ (j = i ∧ z = x) := by
  by_cases hji : j = i
  · rw [hji, Function.update_same, hnd.mem_erase_iff]
    constructor
    · rintro ⟨h1, h2⟩; exact ⟨h2, fun hc => h1 hc.2⟩
    · rintro ⟨h1, h2⟩; exact ⟨fun hc => h2 ⟨rfl, hc⟩, h1⟩
  · rw [Function.update_noteq hji]
    constructor
    · intro h; exact ⟨h, fun hc => hji hc.1⟩
    · intro h; exact h.1

theorem mem_update_cons {F : Nat → List Nat} {i : Nat} (x z j : Nat) :
    z ∈ Function.update F i (x :: F i) j ↔ z ∈ F j ∨ (j = i ∧ z = x) := by
  by_cases hji : j = i
  · rw [hji, Function.update_same, List.mem_cons]
    constructor
    · rintro (h | h)
      · exact Or.inr ⟨rfl, h⟩
      · exact Or.inl h
    · rintro (h | h)
      · exact Or.inr h
      · exact Or.inl h.2
  · rw [Function.update_noteq hji]
    constructor
    · intro h; exact Or.inl h
    · rintro (h | h)
      · exact h
      · exact absurd h.1 hji

/-! ### Neighbours of a block -/

theorem Tiled_next {pre post : List Blk} {b : Blk} {a0 e0 : Nat}
    (h : Tiled a0 (pre ++ b :: post) e0) :
    (post = [] → b.bp + b.sz = e0) ∧ (∀ c post', post = c :: post' → c.bp = b.bp + b.sz) := by
  obtain ⟨a, h1, h2⟩ := (Tiled_append _ _ _ _).1 h
  obtain ⟨hb, _, _, h3⟩ := h2
  constructor
  · intro e; subst e; rw [hb]; exact h3
  · intro c post' e; subst e; rw [hb]; exact h3.1

theorem Tiled_last (l : List Blk) (a : Blk) : ∀ a0 e0, Tiled a0 (l ++ [a]) e0 →
    a.bp + a.sz = e0 := by
  intro a0 e0 h
  obtain ⟨c, _, h2⟩ := (Tiled_append _ _ _ _).1 h
  obtain ⟨hb, _, _, h3⟩ := h2
  rw [hb]; exact h3

theorem Tiled_prev {pre post : List Blk} {b : Blk} {a0 e0 : Nat}
    (h : Tiled a0 (pre ++ b :: post) e0) :
    (pre = [] → b.bp = a0) ∧ (∀ pre' a, pre = pre' ++ [a] → a.bp + a.sz = b.bp) := by
  obtain ⟨c, h1, h2⟩ := (Tiled_append _ _ _ _).1 h
  obtain ⟨hb, _, _, h3⟩ := h2
  constructor
  · intro e; subst e; rw [hb]; exact h1.symm
  · intro pre' a e; subst e; rw [hb]; exact Tiled_last _ _ _ _ h1

theorem Blocks.prev_read {s : Heap} {bs : List Blk} (h : Blocks s bs) {a b : Blk} (ha : a ∈ bs)
    (hb : b ∈ bs) (hab : a.bp + a.sz = b.bp) : PREV_BLKP s.mem b.bp = a.bp := by
  have fa := h.mem_facts ha
  have fb := h.mem_facts hb
  have hW := W64_val
  unfold PREV_BLKP DSIZE
  rw [sub64_eq b.bp 16 (by omega) (by omega)]
  have e : b.bp - 16 = a.bp + a.sz - 16 := by omega
  rw [e, (h.ftr ha).2.2.1, sub64_eq _ _ (by omega) (by omega)]
  omega

theorem GET_SIZE_17 (m : Mem) (p : Nat) (h : GET m p = 17) : GET_SIZE m p = 16 :=
  GET_SIZE_of_tag m p 16 1 h (by norm_num) (by norm_num)

theorem GET_ALLOC_odd (m : Mem) (p sz : Nat) (h : GET m p = sz + 1) (hsz : sz % 2 = 0) :
    GET_ALLOC m p = 1 :=
  GET_ALLOC_of_tag m p sz 1 h hsz (by norm_num)

theorem Blocks.prev_read_first {s : Heap} {bs : List Blk} (h : Blocks s bs) {b : Blk}
    (hb : b.bp = s.ptr + 192) :
    PREV_BLKP s.mem b.bp = s.ptr + 176 ∧ FTRP s.mem (s.ptr + 176) = s.ptr + 176 ∧
    GET_ALLOC s.mem (s.ptr + 176) = 1 := by
  have hbrk := h.brk_facts
  have hW := W64_val
  refine ⟨?_, ?_, GET_ALLOC_odd _ _ 16 h.pro2 (by norm_num)⟩
  · unfold PREV_BLKP DSIZE
    rw [hb, sub64_eq (s.ptr + 192) 16 (by omega) (by omega)]
    have e : s.ptr + 192 - 16 = s.ptr + 176 := by omega
    rw [e, GET_SIZE_17 _ _ h.pro2, sub64_eq _ _ (by omega) (by omega)]
    omega
  · unfold FTRP DSIZE
    rw [HDRP_eq _ (by omega) (by omega)]
    have e : s.ptr + 176 - 8 = s.ptr + 168 := by omega
    rw [e, GET_SIZE_17 _ _ h.pro1, w64_eq _ (by omega), sub64_eq _ _ (by omega) (by omega)]
    omega

theorem Blocks.epi_alloc {s : Heap} {bs : List Blk} (h : Blocks s bs) :
    GET_ALLOC s.mem (s.brk - 8) = 1 :=
  GET_ALLOC_odd _ _ 0 h.epi (by norm_num)

/-- The allocated bit that `coalesce` reads for the block before `b`. -/
theorem Blocks.prev_alloc {s : Heap} {bs pre post : List Blk} (h : Blocks s bs) {b : Blk}
    (hbs : bs = pre ++ b :: post) :
    (pre = [] → GET_ALLOC s.mem (FTRP s.mem (PREV_BLKP s.mem b.bp)) = 1) ∧
    (∀ pre' a, pre = pre' ++ [a] → a ∈ bs ∧ a.bp + a.sz = b.bp ∧
      PREV_BLKP s.mem b.bp = a.bp ∧
      GET_ALLOC s.mem (FTRP s.mem (PREV_BLKP s.mem b.bp)) = (if a.al then 1 else 0)) := by
  have ht := h.tiled
  rw [hbs] at ht
  have hb : b ∈ bs := by rw [hbs]; exact List.mem_append_right _ (List.mem_cons_self _ _)
  constructor
  · intro e
    have hb0 := (Tiled_prev ht).1 e
    obtain ⟨p1, p2, p3⟩ := h.prev_read_first hb0
    rw [p1, p2, p3]
  · intro pre' a e
    have hab := (Tiled_prev ht).2 pre' a e
    have ha : a ∈ bs := by
      rw [hbs, e]
      exact List.mem_append_left _ (List.mem_append_right _ (List.mem_singleton_self _))
    have hp := h.prev_read ha hb hab
    refine ⟨ha, hab, hp, ?_⟩
    rw [hp, (h.ftr ha).1, (h.ftr ha).2.2.2]

/-- The allocated bit that `coalesce` reads for the block after `b`. -/
theorem Blocks.next_alloc {s : Heap} {bs pre post : List Blk} (h : Blocks s bs) {b : Blk}
    (hbs : bs = pre ++ b :: post) :
    (post = [] → GET_ALLOC s.mem (HDRP (NEXT_BLKP s.mem b.bp)) = 1) ∧
    (∀ c post', post = c :: post' → c ∈ bs ∧ c.bp = b.bp + b.sz ∧
      NEXT_BLKP s.mem b.bp = c.bp ∧
      GET_ALLOC s.mem (HDRP (NEXT_BLKP s.mem b.bp)) = (if c.al then 1 else 0)) := by
  have ht := h.tiled
  rw [hbs] at ht
  have hb : b ∈ bs := by rw [hbs]; exact List.mem_append_right _ (List.mem_cons_self _ _)
  have fb := h.mem_facts hb
  have hW := W64_val
  constructor
  · intro e
    have hb0 := (Tiled_next ht).1 e
    rw [h.next hb, HDRP_eq _ (by omega) (by omega), hb0]
    exact h.epi_alloc
  · intro c post' e
    have hbc := (Tiled_next ht).2 c post' e
    have hc : c ∈ bs := by
      rw [hbs, e]
      exact List.mem_append_right _ (List.mem_cons_of_mem _ (List.mem_cons_self _ _))
    refine ⟨hc, hbc, by rw [h.next hb, hbc], ?_⟩
    rw [h.next hb, ← hbc, (h.hdr hc).1, (h.hdr hc).2.2.2]

theorem FTRP_after_put (m : Mem) (bp sz v : Nat) (hbp : 8 ≤ bp) (h64 : bp + sz < W64)
    (hsz : sz % 8 = 0) (h16 : 16 ≤ sz) (hv : v = sz) :
    FTRP (PUT m (bp - 8) v) bp = bp + sz - 16 := by
  have hW := W64_val
  unfold FTRP DSIZE
  rw [HDRP_eq _ hbp (by omega)]
  have hg : GET (PUT m (bp - 8) v) (bp - 8) = sz + 0 := by
    rw [GET_PUT_eq_of_lt _ _ _ (by omega)]; omega
  rw [GET_SIZE_of_tag _ _ sz 0 hg hsz (by norm_num), w64_eq _ (by omega),
    sub64_eq _ _ (by omega) (by omega)]

theorem Complete.listed {bs : List Blk} {F : Nat → List Nat} (h : Complete bs F) {b : Blk}
    (hb : b ∈ bs) (hf : b.al = false) : b.bp ∈ F (listIdOfSize b.sz) := h b hb hf

/-- `delete_from_list`, with the resulting lists described by membership. -/
theorem delete_mem {s : Heap} {bs : List Blk} {F : Nat → List Nat} (h : Rep s bs F)
    {x i : Nat} (hi : i < 21) (hx : x ∈ F i) :
    ∃ s' F', delete_from_list s x = s' ∧ Rep s' bs F' ∧ SameRegs s s' ∧
      ∀ j, j < 21 → ∀ z, z ∈ F' j ↔ z ∈ F j ∧ z ≠ x := by
  obtain ⟨hR, hS⟩ := delete_spec h hi hx
  refine ⟨_, _, rfl, hR, hS, ?_⟩
  intro j hj z
  rw [mem_update_erase (h.lists.nodup _ hi)]
  constructor
  · rintro ⟨h1, h2⟩
    exact ⟨h1, fun e => h2 ⟨h.bucket_unique hj hi h1 (e ▸ hx), e⟩⟩
  · rintro ⟨h1, h2⟩
    exact ⟨h1, fun hc => h2 hc.2⟩

/-- `insert_to_list`, with the resulting lists described by membership. -/
theorem insert_mem {s : Heap} {bs : List Blk} {F : Nat → List Nat} (h : Rep s bs F) {b : Blk}
    (hb : b ∈ bs) (hfree : b.al = false) (hnot : b.bp ∉ F (listIdOfSize b.sz)) :
    ∃ s' F', insert_to_list s b.bp = s' ∧ Rep s' bs F' ∧ SameRegs s s' ∧
      ∀ j, j < 21 → ∀ z, z ∈ F' j ↔ z ∈ F j ∨ (j = listIdOfSize b.sz ∧ z = b.bp) := by
  obtain ⟨hR, hS⟩ := insert_spec h hb hfree _ rfl hnot
  exact ⟨_, _, rfl, hR, hS, fun j _ z => mem_update_cons _ _ _⟩

theorem Tiled_nonempty_lt {l : List Blk} {a e : Nat} (h : Tiled a l e) (hne : l ≠ []) :
    a + 32 ≤ e ∧ (e - a) % 16 = 0 := by
  induction l generalizing a with
  | nil => exact absurd rfl hne
  | cons b l ih =>
    obtain ⟨h1, h2, h3, h4⟩ := h
    by_cases hl : l = []
    · subst hl
      have : a + b.sz = e := h4
      omega
    · have := ih h4 hl
      omega

/-- Giving a run of blocks one pair of tags (header stored first) turns it into a
single block. -/
theorem Rep_retag_hf {s : Heap} {pre mid post : List Blk} {F : Nat → List Nat}
    (h : Rep s (pre ++ mid ++ post) F) (a e : Nat) (al : Bool)
    (ha : Tiled (s.ptr + 192) pre a) (hm : Tiled a mid e) (hne : mid ≠ [])
    (hnot : ∀ j, j < 21 → ∀ x ∈ F j, ∀ b ∈ mid, b.bp ≠ x) (t : Nat)
    (ht : t = (e - a) + (if al then 1 else 0)) :
    Rep ((s.put (a - 8) t).put (e - 16) t) (pre ++ [⟨a, e - a, al⟩] ++ post) F := by
  have hW := W64_val
  have hle := Tiled_nonempty_lt hm hne
  have hpre := Tiled_le _ _ _ ha
  obtain ⟨a1, e1, t1, t2, t3⟩ := Tiled_split3 h.blocks.tiled
  have ea : a1 = a := Tiled_end_unique _ _ _ _ t1 ha
  subst ea
  have ee : e1 = e := Tiled_end_unique _ _ _ _ t2 hm
  subst ee
  have hpost := Tiled_le _ _ _ t3
  have hlim := h.blocks.lim
  have hlim64 := h.blocks.lim64
  have htl : t < W64 := by rw [ht]; split <;> omega
  refine Rep_replace h ?_ a1 e1 ha hm ?_ ?_ ?_ hnot
  · exact ⟨rfl, rfl, rfl, rfl⟩
  · exact ⟨rfl, by show 32 ≤ e1 - a1; omega, by show (e1 - a1) % 16 = 0; omega,
      by show a1 + (e1 - a1) = e1; omega⟩
  · intro x hx
    rw [List.mem_singleton] at hx
    subst hx
    show GET _ (a1 - 8) = _ ∧ GET _ (a1 + (e1 - a1) - 16) = _
    have e2 : a1 + (e1 - a1) - 16 = e1 - 16 := by omega
    rw [put_mem, put_mem, e2]
    constructor
    · rw [GET_PUT_ne _ _ _ _ (by omega), GET_PUT_eq_of_lt _ _ _ htl, ht]; rfl
    · rw [GET_PUT_eq_of_lt _ _ _ htl, ht]; rfl
  · intro q hq
    rw [put_mem, put_mem, GET_PUT_ne _ _ _ _ (by omega), GET_PUT_ne _ _ _ _ (by omega)]

/-- The same with the footer stored first. -/
theorem Rep_retag_fh {s : Heap} {pre mid post : List Blk} {F : Nat → List Nat}
    (h : Rep s (pre ++ mid ++ post) F) (a e : Nat) (al : Bool)
    (ha : Tiled (s.ptr + 192) pre a) (hm : Tiled a mid e) (hne : mid ≠ [])
    (hnot : ∀ j, j < 21 → ∀ x ∈ F j, ∀ b ∈ mid, b.bp ≠ x) (t : Nat)
    (ht : t = (e - a) + (if al then 1 else 0)) :
    Rep ((s.put (e - 16) t).put (a - 8) t) (pre ++ [⟨a, e - a, al⟩] ++ post) F := by
  have hW := W64_val
  have hle := Tiled_nonempty_lt hm hne
  have hpre := Tiled_le _ _ _ ha
  obtain ⟨a1, e1, t1, t2, t3⟩ := Tiled_split3 h.blocks.tiled
  have ea : a1 = a := Tiled_end_unique _ _ _ _ t1 ha
  subst ea
  have ee : e1 = e := Tiled_end_unique _ _ _ _ t2 hm
  subst ee
  have hpost := Tiled_le _ _ _ t3
  have hlim := h.blocks.lim
  have hlim64 := h.blocks.lim64
  have htl : t < W64 := by rw [ht]; split <;> omega
  refine Rep_replace h ?_ a1 e1 ha hm ?_ ?_ ?_ hnot
  · exact ⟨rfl, rfl, rfl, rfl⟩
  · exact ⟨rfl, by show 32 ≤ e1 - a1; omega, by show (e1 - a1) % 16 = 0; omega,
      by show a1 + (e1 - a1) = e1; omega⟩
  · intro x hx
    rw [List.mem_singleton] at hx
    subst hx
    show GET _ (a1 - 8) = _ ∧ GET _ (a1 + (e1 - a1) - 16) = _
    have e2 : a1 + (e1 - a1) - 16 = e1 - 16 := by omega
    rw [put_mem, put_mem, e2]
    constructor
    · rw [GET_PUT_eq_of_lt _ _ _ htl, ht]; rfl
    · rw [GET_PUT_ne _ _ _ _ (by omega), GET_PUT_eq_of_lt _ _ _ htl, ht]; rfl
  · intro q hq
    rw [put_mem, put_mem, GET_PUT_ne _ _ _ _ (by omega), GET_PUT_ne _ _ _ _ (by omega)]

/-- `Rep_retag_hf` for a run given by its first payload address and its size. -/
theorem Rep_retag_hf' {s : Heap} {pre mid post : List Blk} {F : Nat → List Nat}
    (h : Rep s (pre ++ mid ++ post) F) (hne : mid ≠ [])
    (hnot : ∀ j, j < 21 → ∀ x ∈ F j, ∀ b ∈ mid, b.bp ≠ x) (bp sz : Nat) (al : Bool)
    (hspan : ∀ a e, Tiled a mid e → a = bp ∧ e = bp + sz) (t : Nat)
    (ht : t = sz + (if al then 1 else 0)) :
    Rep ((s.put (bp - 8) t).put (bp + sz - 16) t) (pre ++ ⟨bp, sz, al⟩ :: post) F := by
  obtain ⟨a1, e1, t1, t2, t3⟩ := Tiled_split3 h.blocks.tiled
  obtain ⟨ha, he⟩ := hspan a1 e1 t2
  subst ha
  subst he
  have e0 : a1 + sz - a1 = sz := by omega
  have := Rep_retag_hf h a1 (a1 + sz) al t1 t2 hne hnot t (by rw [e0]; exact ht)
  rw [e0] at this
  have e : pre ++ [(⟨a1, sz, al⟩ : Blk)] ++ post = pre ++ ⟨a1, sz, al⟩ :: post := by simp
  rw [e] at this
  exact this

/-- `Rep_retag_fh` for a run given by its first payload address and its size. -/
theorem Rep_retag_fh' {s : Heap} {pre mid post : List Blk} {F : Nat → List Nat}
    (h : Rep s (pre ++ mid ++ post) F) (hne : mid ≠ [])
    (hnot : ∀ j, j < 21 → ∀ x ∈ F j, ∀ b ∈ mid, b.bp ≠ x) (bp sz : Nat) (al : Bool)
    (hspan : ∀ a e, Tiled a mid e → a = bp ∧ e = bp + sz) (t : Nat)
    (ht : t = sz + (if al then 1 else 0)) :
    Rep ((s.put (bp + sz - 16) t).put (bp - 8) t) (pre ++ ⟨bp, sz, al⟩ :: post) F := by
  obtain ⟨a1, e1, t1, t2, t3⟩ := Tiled_split3 h.blocks.tiled
  obtain ⟨ha, he⟩ := hspan a1 e1 t2
  subst ha
  subst he
  have e0 : a1 + sz - a1 = sz := by omega
  have := Rep_retag_fh h a1 (a1 + sz) al t1 t2 hne hnot t (by rw [e0]; exact ht)
  rw [e0] at this
  have e : pre ++ [(⟨a1, sz, al⟩ : Blk)] ++ post = pre ++ ⟨a1, sz, al⟩ :: post := by simp
  rw [e] at this
  exact this

theorem Tiled_two {a b : Blk} {a0 e0 : Nat} (h : Tiled a0 [a, b] e0) :
    a0 = a.bp ∧ e0 = a.bp + (a.sz + b.sz) ∧ b.bp = a.bp + a.sz := by
  obtain ⟨h1, _, _, h2, _, _, h3⟩ := h
  have h3' : a0 + a.sz + b.sz = e0 := h3
  omega

theorem Tiled_three {a b c : Blk} {a0 e0 : Nat} (h : Tiled a0 [a, b, c] e0) :
    a0 = a.bp ∧ e0 = a.bp + (a.sz + b.sz + c.sz) ∧ b.bp = a.bp + a.sz ∧
    c.bp = b.bp + b.sz := by
  obtain ⟨h1, _, _, h2, _, _, h3, _, _, h4⟩ := h
  have h4' : a0 + a.sz + b.sz + c.sz = e0 := h4
  omega

theorem Tiled_one {a : Blk} {a0 e0 : Nat} (h : Tiled a0 [a] e0) :
    a0 = a.bp ∧ e0 = a.bp + a.sz := by
  obtain ⟨h1, _, _, h2⟩ := h
  have h2' : a0 + a.sz = e0 := h2
  omega

/-- Second case of `coalesce`: the previous block is allocated and the next
block `c` is free. -/
theorem coalesce_next {s : Heap} {pre post : List Blk} {b c : Blk} {F : Nat → List Nat}
    (h : Rep s (pre ++ b :: c :: post) F) (hcomp : Complete (pre ++ b :: c :: post) F)
    (hbf : b.al = false) (hcf : c.al = false)
    (hpa : GET_ALLOC s.mem (FTRP s.mem (PREV_BLKP s.mem b.bp)) ≠ 0) :
    ∃ s' F', coalesce s b.bp = (s', b.bp) ∧
      Rep s' (pre ++ ⟨b.bp, b.sz + c.sz, false⟩ :: post) F' ∧ SameRegs s s' ∧
      (∀ j, j < 21 → ∀ z, z ∈ F' j ↔ (z ∈ F j ∧ z ≠ b.bp ∧ z ≠ c.bp) ∨
        (j = listIdOfSize (b.sz + c.sz) ∧ z = b.bp)) := by
  have hW := W64_val
  have hbm : b ∈ pre ++ b :: c :: post := List.mem_append_right _ (List.mem_cons_self _ _)
  have hcm : c ∈ pre ++ b :: c :: post :=
    List.mem_append_right _ (List.mem_cons_of_mem _ (List.mem_cons_self _ _))
  have fb := h.blocks.mem_facts hbm
  have fc := h.blocks.mem_facts hcm
  obtain ⟨_, hbc, hnx, hna⟩ := (h.blocks.next_alloc (show pre ++ b :: c :: post = pre ++ b :: (c :: post) from rfl)).2 c post rfl
  rw [hcf] at hna
  have hib := listIdOfSize_lt b.sz
  have hic := listIdOfSize_lt c.sz
  have hbl := hcomp.listed hbm hbf
  have hcl := hcomp.listed hcm hcf
  have hsz0 : GET_SIZE s.mem (HDRP b.bp) = b.sz := by
    rw [(h.blocks.hdr hbm).1, (h.blocks.hdr hbm).2.2.1]
  have hhd : HDRP b.bp = b.bp - 8 := (h.blocks.hdr hbm).1
  have hw : w64 (b.sz + c.sz) = b.sz + c.sz := w64_eq _ (by omega)
  -- unlink b, then c
  obtain ⟨s1, F1, hs1, hR1, hS1, hF1⟩ := delete_mem h hib hbl
  have hcl1 : c.bp ∈ F1 (listIdOfSize c.sz) := (hF1 _ hic _).2 ⟨hcl, by omega⟩
  have hnx1 : NEXT_BLKP s1.mem b.bp = c.bp := by
    rw [hR1.blocks.next hbm, hbc]
  obtain ⟨s2, F2, hs2, hR2, hS2, hF2⟩ := delete_mem hR1 hic hcl1
  have hnx2 : NEXT_BLKP s2.mem b.bp = c.bp := by rw [hR2.blocks.next hbm, hbc]
  have hsz2 : GET_SIZE s2.mem (HDRP c.bp) = c.sz := by
    rw [(hR2.blocks.hdr hcm).1, (hR2.blocks.hdr hcm).2.2.1]
  have hft : FTRP (s2.put (b.bp - 8) (b.sz + c.sz)).mem b.bp = b.bp + (b.sz + c.sz) - 16 := by
    rw [put_mem]
    exact FTRP_after_put _ _ _ _ (by omega) (by omega) (by omega) (by omega) rfl
  -- the two stores give the merged block its tags
  have hR2' : Rep s2 (pre ++ [b, c] ++ post) F2 := by
    have e : pre ++ [b, c] ++ post = pre ++ b :: c :: post := by simp
    rw [e]; exact hR2
  have hnot2 : ∀ j, j < 21 → ∀ x ∈ F2 j, ∀ y ∈ [b, c], y.bp ≠ x := by
    intro j hj x hx y hy
    have hx1 := (hF2 j hj x).1 hx
    have hx0 := (hF1 j hj x).1 hx1.1
    simp only [List.mem_cons, List.mem_singleton, List.not_mem_nil, or_false] at hy
    rcases hy with rfl | rfl
    · exact fun e => hx0.2 e.symm
    · exact fun e => hx1.2 e.symm
  have hR4 : Rep ((s2.put (b.bp - 8) (b.sz + c.sz)).put (b.bp + (b.sz + c.sz) - 16)
      (b.sz + c.sz)) (pre ++ ⟨b.bp, b.sz + c.sz, false⟩ :: post) F2 :=
    Rep_retag_hf' hR2' (by simp) hnot2 b.bp (b.sz + c.sz) false
      (fun a0 e0 ht => ⟨(Tiled_two ht).1, (Tiled_two ht).2.1⟩) (b.sz + c.sz) (by simp)
  have hmm : (⟨b.bp, b.sz + c.sz, false⟩ : Blk) ∈ pre ++ ⟨b.bp, b.sz + c.sz, false⟩ :: post :=
    List.mem_append_right _ (List.mem_cons_self _ _)
  have hnot : b.bp ∉ F2 (listIdOfSize (b.sz + c.sz)) := by
    intro hx
    have hx1 := (hF2 _ (listIdOfSize_lt _) _).1 hx
    exact ((hF1 _ (listIdOfSize_lt _) _).1 hx1.1).2 rfl
  obtain ⟨s5, F5, hs5, hR5, hS5, hF5⟩ := insert_mem hR4 hmm rfl hnot
  have hs5' : insert_to_list ((s2.put (b.bp - 8) (b.sz + c.sz)).put
      (b.bp + (b.sz + c.sz) - 16) (b.sz + c.sz)) b.bp = s5 := hs5
  refine ⟨s5, F5, ?_, hR5, ?_, ?_⟩
  · unfold coalesce
    have c1 : ¬ (GET_ALLOC s.mem (FTRP s.mem (PREV_BLKP s.mem b.bp)) ≠ 0 ∧
        GET_ALLOC s.mem (HDRP (NEXT_BLKP s.mem b.bp)) ≠ 0) := fun hc => hc.2 hna
    have c2 : GET_ALLOC s.mem (FTRP s.mem (PREV_BLKP s.mem b.bp)) ≠ 0 ∧
        ¬ GET_ALLOC s.mem (HDRP (NEXT_BLKP s.mem b.bp)) ≠ 0 := ⟨hpa, fun hc => hc hna⟩
    rw [if_neg c1, if_pos c2]
    dsimp only
    rw [hs1, hnx1, hs2, hnx2, hsz2, hsz0, hw, PACK_zero, hhd, hft, hs5']
  · exact (hS1.trans hS2).trans (SameRegs.trans ⟨rfl, rfl, rfl, rfl⟩ hS5)
  · intro j hj z
    rw [hF5 j hj, hF2 j hj, hF1 j hj]
    constructor
    · rintro (⟨⟨h1, h2⟩, h3⟩ | h4)
      · exact Or.inl ⟨h1, h2, h3⟩
      · exact Or.inr h4
    · rintro (⟨h1, h2, h3⟩ | h4)
      · exact Or.inl ⟨⟨h1, h2⟩, h3⟩
      · exact Or.inr h4

theorem GET_SIZE_PUT_ne (m : Mem) (p v q : Nat) (h : q + 8 ≤ p ∨ p + 8 ≤ q) :
    GET_SIZE (PUT m p v) q = GET_SIZE m q := by
  unfold GET_SIZE; rw [GET_PUT_ne _ _ _ _ h]

theorem PREV_BLKP_raw (m : Mem) (bp sz : Nat) (h : GET_SIZE m (bp - 16) = sz) (h16 : 16 ≤ bp)
    (hsz : sz ≤ bp) (h64 : bp < W64) : PREV_BLKP m bp = bp - sz := by
  unfold PREV_BLKP DSIZE
  rw [sub64_eq bp 16 h16 h64, h, sub64_eq _ _ hsz h64]

theorem NEXT_BLKP_raw (m : Mem) (bp sz : Nat) (h : GET_SIZE m (bp - 8) = sz) (h8 : 8 ≤ bp)
    (h64 : bp + sz < W64) : NEXT_BLKP m bp = bp + sz := by
  have hW := W64_val
  unfold NEXT_BLKP WSIZE
  rw [sub64_eq bp 8 h8 (by omega), h, w64_eq _ h64]

theorem FTRP_raw (m : Mem) (bp sz : Nat) (h : GET_SIZE m (bp - 8) = sz) (h8 : 8 ≤ bp)
    (h16 : 16 ≤ bp + sz) (h64 : bp + sz < W64) : FTRP m bp = bp + sz - 16 := by
  have hW := W64_val
  unfold FTRP DSIZE
  rw [HDRP_eq _ h8 (by omega), h, w64_eq _ h64, sub64_eq _ _ h16 h64]

/-- Reading the previous block through a footer that two stores leave alone. -/
theorem PREV_BLKP_put2 (m : Mem) (bp sz w1 v1 w2 v2 prev : Nat)
    (h : GET_SIZE m (bp - 16) = sz) (h16 : 16 ≤ bp) (hsz : sz ≤ bp) (h64 : bp < W64)
    (d1 : bp - 16 + 8 ≤ w1 ∨ w1 + 8 ≤ bp - 16) (d2 : bp - 16 + 8 ≤ w2 ∨ w2 + 8 ≤ bp - 16)
    (hp : prev = bp - sz) :
    PREV_BLKP (PUT m w1 v1) bp = prev ∧ PREV_BLKP (PUT (PUT m w1 v1) w2 v2) bp = prev := by
  subst hp
  constructor
  · exact PREV_BLKP_raw _ _ _ (by rw [GET_SIZE_PUT_ne _ _ _ _ d1]; exact h) h16 hsz h64
  · exact PREV_BLKP_raw _ _ _
      (by rw [GET_SIZE_PUT_ne _ _ _ _ d2, GET_SIZE_PUT_ne _ _ _ _ d1]; exact h) h16 hsz h64

/-- Third case of `coalesce`: the previous block `a` is free and the next
block is allocated. -/
theorem coalesce_prev {s : Heap} {pre post : List Blk} {a b : Blk} {F : Nat → List Nat}
    (h : Rep s (pre ++ a :: b :: post) F) (hcomp : Complete (pre ++ a :: b :: post) F)
    (haf : a.al = false) (hbf : b.al = false)
    (hna : GET_ALLOC s.mem (HDRP (NEXT_BLKP s.mem b.bp)) ≠ 0) :
    ∃ s' F', coalesce s b.bp = (s', a.bp) ∧
      Rep s' (pre ++ ⟨a.bp, a.sz + b.sz, false⟩ :: post) F' ∧ SameRegs s s' ∧
      (∀ j, j < 21 → ∀ z, z ∈ F' j ↔ (z ∈ F j ∧ z ≠ b.bp ∧ z ≠ a.bp) ∨
        (j = listIdOfSize (a.sz + b.sz) ∧ z = a.bp)) := by
  have hW := W64_val
  have ham : a ∈ pre ++ a :: b :: post := List.mem_append_right _ (List.mem_cons_self _ _)
  have hbm : b ∈ pre ++ a :: b :: post :=
    List.mem_append_right _ (List.mem_cons_of_mem _ (List.mem_cons_self _ _))
  have fa := h.blocks.mem_facts ham
  have fb := h.blocks.mem_facts hbm
  have hbs : pre ++ a :: b :: post = (pre ++ [a]) ++ b :: post := by simp
  have hab : a.bp + a.sz = b.bp := ((h.blocks.prev_alloc hbs).2 pre a rfl).2.1
  have hia := listIdOfSize_lt a.sz
  have hib := listIdOfSize_lt b.sz
  have hne : a.bp ≠ b.bp := by omega
  have e5 : b.bp + b.sz - 16 = a.bp + (a.sz + b.sz) - 16 := by omega
  have d1 : b.bp - 16 + 8 ≤ b.bp + b.sz - 16 ∨ b.bp + b.sz - 16 + 8 ≤ b.bp - 16 := by omega
  have d2 : b.bp - 16 + 8 ≤ a.bp - 8 ∨ a.bp - 8 + 8 ≤ b.bp - 16 := by omega
  have g1 : 16 ≤ b.bp := by omega
  have g2 : a.sz ≤ b.bp := by omega
  have g3 : b.bp < W64 := by omega
  have g4 : a.bp = b.bp - a.sz := by omega
  have g5 : a.bp + a.sz - 16 = b.bp - 16 := by omega
  have g6 : b.sz + a.sz < W64 := by omega
  have g7 : b.sz + a.sz = a.sz + b.sz := by omega
  clear fa fb hW
  -- unlink b, then a
  obtain ⟨s1, F1, hs1, hR1, hS1, hF1⟩ :=
    delete_mem h hib (hcomp.listed hbm hbf)
  obtain ⟨s2, F2, hs2, hR2, hS2, hF2⟩ :=
    delete_mem hR1 hia ((hF1 _ hia _).2 ⟨hcomp.listed ham haf, hne⟩)
  -- the two stores give the merged block its tags
  have hR2' : Rep s2 (pre ++ [a, b] ++ post) F2 := by
    have e : pre ++ [a, b] ++ post = pre ++ a :: b :: post := by simp
    rw [e]; exact hR2
  have hnot2 : ∀ j, j < 21 → ∀ x ∈ F2 j, ∀ y ∈ [a, b], y.bp ≠ x := by
    intro j hj x hx y hy
    have hx1 := (hF2 j hj x).1 hx
    have hx0 := (hF1 j hj x).1 hx1.1
    simp only [List.mem_cons, List.mem_singleton, List.not_mem_nil, or_false] at hy
    rcases hy with rfl | rfl
    · exact fun e => hx1.2 e.symm
    · exact fun e => hx0.2 e.symm
  have hR4 : Rep ((s2.put (b.bp + b.sz - 16) (a.sz + b.sz)).put (a.bp - 8) (a.sz + b.sz))
      (pre ++ ⟨a.bp, a.sz + b.sz, false⟩ :: post) F2 := by
    rw [e5]
    exact Rep_retag_fh' hR2' (by simp) hnot2 a.bp (a.sz + b.sz) false
      (fun a0 e0 ht => ⟨(Tiled_two ht).1, (Tiled_two ht).2.1⟩) (a.sz + b.sz) (by simp)
  have hnot : a.bp ∉ F2 (listIdOfSize (a.sz + b.sz)) := fun hx =>
    ((hF2 _ (listIdOfSize_lt _) _).1 hx).2 rfl
  obtain ⟨s5, F5, hs5, hR5, hS5, hF5⟩ := insert_mem hR4
    (List.mem_append_right _ (List.mem_cons_self _ _)) rfl hnot
  refine ⟨s5, F5, ?_, hR5, ?_, ?_⟩
  · have hpa : GET_ALLOC s.mem (FTRP s.mem (PREV_BLKP s.mem b.bp)) = 0 := by
      have := ((h.blocks.prev_alloc hbs).2 pre a rfl).2.2.2
      rw [haf] at this; exact this
    have hafs : GET_SIZE s2.mem (b.bp - 16) = a.sz := by
      rw [← g5]; exact (hR2.blocks.ftr ham).2.2.1
    obtain ⟨hpv3, hpv4⟩ := PREV_BLKP_put2 s2.mem b.bp a.sz (b.bp + b.sz - 16) (a.sz + b.sz)
      (a.bp - 8) (a.sz + b.sz) a.bp hafs g1 g2 g3 d1 d2 g4
    have c1 : ¬ (GET_ALLOC s.mem (FTRP s.mem (PREV_BLKP s.mem b.bp)) ≠ 0 ∧
        GET_ALLOC s.mem (HDRP (NEXT_BLKP s.mem b.bp)) ≠ 0) := fun hc => hc.1 hpa
    have c2 : ¬ (GET_ALLOC s.mem (FTRP s.mem (PREV_BLKP s.mem b.bp)) ≠ 0 ∧
        ¬ GET_ALLOC s.mem (HDRP (NEXT_BLKP s.mem b.bp)) ≠ 0) := fun hc => hc.1 hpa
    have c3 : ¬ GET_ALLOC s.mem (FTRP s.mem (PREV_BLKP s.mem b.bp)) ≠ 0 ∧
        GET_ALLOC s.mem (HDRP (NEXT_BLKP s.mem b.bp)) ≠ 0 := ⟨fun hc => hc hpa, hna⟩
    unfold coalesce
    rw [if_neg c1, if_neg c2, if_pos c3]
    dsimp only
    rw [hs1, hR1.blocks.prev_read ham hbm hab, hs2, hR2.blocks.prev_read ham hbm hab,
      (hR2.blocks.hdr ham).1, (hR2.blocks.hdr ham).2.2.1, (h.blocks.hdr hbm).1,
      (h.blocks.hdr hbm).2.2.1, w64_eq _ g6, g7, PACK_zero, (hR2.blocks.ftr hbm).1,
      put_mem, hpv3, (h.blocks.hdr ham).1, put_mem, put_mem, hpv4]
    exact congrArg (fun t => (t, a.bp)) hs5
  · exact (hS1.trans hS2).trans (SameRegs.trans ⟨rfl, rfl, rfl, rfl⟩ hS5)
  · intro j hj z
    rw [hF5 j hj, hF2 j hj, hF1 j hj]
    constructor
    · rintro (⟨⟨h1, h2⟩, h3⟩ | h4)
      · exact Or.inl ⟨h1, h2, h3⟩
      · exact Or.inr h4
    · rintro (⟨h1, h2, h3⟩ | h4)
      · exact Or.inl ⟨⟨h1, h2⟩, h3⟩
      · exact Or.inr h4

/-- Fourth case of `coalesce`: the previous block `a` and the next block `c`
are both free. -/
theorem coalesce_both {s : Heap} {pre post : List Blk} {a b c : Blk} {F : Nat → List Nat}
    (h : Rep s (pre ++ a :: b :: c :: post) F) (hcomp : Complete (pre ++ a :: b :: c :: post) F)
    (haf : a.al = false) (hbf : b.al = false) (hcf : c.al = false) :
    ∃ s' F', coalesce s b.bp = (s', a.bp) ∧
      Rep s' (pre ++ ⟨a.bp, a.sz + b.sz + c.sz, false⟩ :: post) F' ∧ SameRegs s s' ∧
      (∀ j, j < 21 → ∀ z, z ∈ F' j ↔ (z ∈ F j ∧ z ≠ b.bp ∧ z ≠ c.bp ∧ z ≠ a.bp) ∨
        (j = listIdOfSize (a.sz + b.sz + c.sz) ∧ z = a.bp)) := by
  have hW := W64_val
  have ham : a ∈ pre ++ a :: b :: c :: post := List.mem_append_right _ (List.mem_cons_self _ _)
  have hbm : b ∈ pre ++ a :: b :: c :: post :=
    List.mem_append_right _ (List.mem_cons_of_mem _ (List.mem_cons_self _ _))
  have hcm : c ∈ pre ++ a :: b :: c :: post :=
    List.mem_append_right _ (List.mem_cons_of_mem _ (List.mem_cons_of_mem _
      (List.mem_cons_self _ _)))
  have fa := h.blocks.mem_facts ham
  have fb := h.blocks.mem_facts hbm
  have fc := h.blocks.mem_facts hcm
  have hbs : pre ++ a :: b :: c :: post = (pre ++ [a]) ++ b :: c :: post := by simp
  have hab : a.bp + a.sz = b.bp := ((h.blocks.prev_alloc hbs).2 pre a rfl).2.1
  have hbc : c.bp = b.bp + b.sz := ((h.blocks.next_alloc hbs).2 c post rfl).2.1
  have hia := listIdOfSize_lt a.sz
  have hib := listIdOfSize_lt b.sz
  have hic := listIdOfSize_lt c.sz
  have hne : a.bp ≠ b.bp := by omega
  have hne2 : c.bp ≠ b.bp := by omega
  have hne3 : a.bp ≠ c.bp := by omega
  have e5 : c.bp + c.sz - 16 = a.bp + (a.sz + b.sz + c.sz) - 16 := by omega
  have d1 : b.bp - 16 + 8 ≤ a.bp - 8 ∨ a.bp - 8 + 8 ≤ b.bp - 16 := by omega
  have d2 : b.bp - 16 + 8 ≤ c.bp + c.sz - 16 ∨ c.bp + c.sz - 16 + 8 ≤ b.bp - 16 := by omega
  have d3 : b.bp - 8 + 8 ≤ a.bp - 8 ∨ a.bp - 8 + 8 ≤ b.bp - 8 := by omega
  have d4 : c.bp - 8 + 8 ≤ a.bp - 8 ∨ a.bp - 8 + 8 ≤ c.bp - 8 := by omega
  have g1 : 16 ≤ b.bp := by omega
  have g2 : a.sz ≤ b.bp := by omega
  have g3 : b.bp < W64 := by omega
  have g4 : a.bp = b.bp - a.sz := by omega
  have g5 : a.bp + a.sz - 16 = b.bp - 16 := by omega
  have g6 : a.sz + c.sz < W64 := by omega
  have g7 : b.sz + (a.sz + c.sz) = a.sz + b.sz + c.sz := by omega
  have g8 : b.sz + (a.sz + c.sz) < W64 := by omega
  have g9 : 8 ≤ b.bp := by omega
  have g10 : b.bp + b.sz < W64 := by omega
  have g11 : 8 ≤ c.bp := by omega
  have g12 : 16 ≤ c.bp + c.sz := by omega
  have g13 : c.bp + c.sz < W64 := by omega
  have g14 : b.bp + b.sz = c.bp := by omega
  clear fa fb fc hW
  -- unlink b, c and a
  obtain ⟨s1, F1, hs1, hR1, hS1, hF1⟩ :=
    delete_mem h hib (hcomp.listed hbm hbf)
  obtain ⟨s2, F2, hs2, hR2, hS2, hF2⟩ :=
    delete_mem hR1 hic ((hF1 _ hic _).2 ⟨hcomp.listed hcm hcf, hne2⟩)
  obtain ⟨s3, F3, hs3, hR3, hS3, hF3⟩ :=
    delete_mem hR2 hia ((hF2 _ hia _).2 ⟨(hF1 _ hia _).2 ⟨hcomp.listed ham haf, hne⟩, hne3⟩)
  -- the two stores give the merged block its tags
  have hR3' : Rep s3 (pre ++ [a, b, c] ++ post) F3 := by
    have e : pre ++ [a, b, c] ++ post = pre ++ a :: b :: c :: post := by simp
    rw [e]; exact hR3
  have hnot3 : ∀ j, j < 21 → ∀ x ∈ F3 j, ∀ y ∈ [a, b, c], y.bp ≠ x := by
    intro j hj x hx y hy
    have hx2 := (hF3 j hj x).1 hx
    have hx1 := (hF2 j hj x).1 hx2.1
    have hx0 := (hF1 j hj x).1 hx1.1
    simp only [List.mem_cons, List.mem_singleton, List.not_mem_nil, or_false] at hy
    rcases hy with rfl | rfl | rfl
    · exact fun e => hx2.2 e.symm
    · exact fun e => hx0.2 e.symm
    · exact fun e => hx1.2 e.symm
  have hR5 : Rep ((s3.put (a.bp - 8) (a.sz + b.sz + c.sz)).put (c.bp + c.sz - 16)
      (a.sz + b.sz + c.sz)) (pre ++ ⟨a.bp, a.sz + b.sz + c.sz, false⟩ :: post) F3 := by
    rw [e5]
    exact Rep_retag_hf' hR3' (by simp) hnot3 a.bp (a.sz + b.sz + c.sz) false
      (fun a0 e0 ht => ⟨(Tiled_three ht).1, (Tiled_three ht).2.1⟩) (a.sz + b.sz + c.sz) (by simp)
  have hnot : a.bp ∉ F3 (listIdOfSize (a.sz + b.sz + c.sz)) := fun hx =>
    ((hF3 _ (listIdOfSize_lt _) _).1 hx).2 rfl
  obtain ⟨s6, F6, hs6, hR6, hS6, hF6⟩ := insert_mem hR5
    (List.mem_append_right _ (List.mem_cons_self _ _)) rfl hnot
  refine ⟨s6, F6, ?_, hR6, ?_, ?_⟩
  · have hpa : GET_ALLOC s.mem (FTRP s.mem (PREV_BLKP s.mem b.bp)) = 0 := by
      have := ((h.blocks.prev_alloc hbs).2 pre a rfl).2.2.2
      rw [haf] at this; exact this
    have hna : GET_ALLOC s.mem (HDRP (NEXT_BLKP s.mem b.bp)) = 0 := by
      have := ((h.blocks.next_alloc hbs).2 c post rfl).2.2.2
      rw [hcf] at this; exact this
    have hafs : GET_SIZE s3.mem (b.bp - 16) = a.sz := by
      rw [← g5]; exact (hR3.blocks.ftr ham).2.2.1
    obtain ⟨hpv4, hpv5⟩ := PREV_BLKP_put2 s3.mem b.bp a.sz (a.bp - 8) (a.sz + b.sz + c.sz)
      (c.bp + c.sz - 16) (a.sz + b.sz + c.sz) a.bp hafs g1 g2 g3 d1 d2 g4
    have hnx4 : NEXT_BLKP (PUT s3.mem (a.bp - 8) (a.sz + b.sz + c.sz)) b.bp = c.bp := by
      rw [NEXT_BLKP_raw _ _ b.sz (by
        rw [GET_SIZE_PUT_ne _ _ _ _ d3]; exact (hR3.blocks.hdr hbm).2.2.1) g9 g10, g14]
    have hft4 : FTRP (PUT s3.mem (a.bp - 8) (a.sz + b.sz + c.sz)) c.bp = c.bp + c.sz - 16 :=
      FTRP_raw _ _ c.sz (by
        rw [GET_SIZE_PUT_ne _ _ _ _ d4]; exact (hR3.blocks.hdr hcm).2.2.1) g11 g12 g13
    have hnx := hR3.blocks.next hbm
    rw [g14] at hnx
    have c1 : ¬ (GET_ALLOC s.mem (FTRP s.mem (PREV_BLKP s.mem b.bp)) ≠ 0 ∧
        GET_ALLOC s.mem (HDRP (NEXT_BLKP s.mem b.bp)) ≠ 0) := fun hc => hc.1 hpa
    have c2 : ¬ (GET_ALLOC s.mem (FTRP s.mem (PREV_BLKP s.mem b.bp)) ≠ 0 ∧
        ¬ GET_ALLOC s.mem (HDRP (NEXT_BLKP s.mem b.bp)) ≠ 0) := fun hc => hc.1 hpa
    have c3 : ¬ (¬ GET_ALLOC s.mem (FTRP s.mem (PREV_BLKP s.mem b.bp)) ≠ 0 ∧
        GET_ALLOC s.mem (HDRP (NEXT_BLKP s.mem b.bp)) ≠ 0) := fun hc => hc.2 hna
    have hn1 := hR1.blocks.next hbm
    rw [g14] at hn1
    have hn2 := hR2.blocks.next hbm
    rw [g14] at hn2
    unfold coalesce
    rw [if_neg c1, if_neg c2, if_neg c3]
    dsimp only
    rw [hs1, hn1, hs2, hR2.blocks.prev_read ham hbm hab, hs3,
      hR3.blocks.prev_read ham hbm hab, (hR3.blocks.hdr ham).1, (hR3.blocks.hdr ham).2.2.1,
      hnx, (hR3.blocks.ftr hcm).1, (hR3.blocks.ftr hcm).2.2.1, (h.blocks.hdr hbm).1,
      (h.blocks.hdr hbm).2.2.1, w64_eq _ g6, w64_eq _ g8, g7, PACK_zero,
      put_mem, hnx4, hft4, put_mem, put_mem, hpv5]
    exact congrArg (fun t => (t, a.bp)) hs6
  · exact ((hS1.trans hS2).trans hS3).trans (SameRegs.trans ⟨rfl, rfl, rfl, rfl⟩ hS6)
  · intro j hj z
    rw [hF6 j hj, hF3 j hj, hF2 j hj, hF1 j hj]
    constructor
    · rintro (⟨⟨⟨h1, h2⟩, h3⟩, h4⟩ | h5)
      · exact Or.inl ⟨h1, h2, h3, h4⟩
      · exact Or.inr h5
    · rintro (⟨h1, h2, h3, h4⟩ | h5)
      · exact Or.inl ⟨⟨⟨h1, h2⟩, h3⟩, h4⟩
      · exact Or.inr h5

/-- The three parts of a tiling, with the address bounds of their blocks. -/
theorem Tiled_parts {pre mid post : List Blk} {a0 e0 : Nat}
    (h : Tiled a0 (pre ++ mid ++ post) e0) :
    ∃ a e, Tiled a mid e ∧ (∀ x ∈ pre, x.bp + x.sz ≤ a ∧ 32 ≤ x.sz) ∧
      (∀ x ∈ mid, a ≤ x.bp ∧ x.bp + x.sz ≤ e ∧ 32 ≤ x.sz) ∧
      (∀ x ∈ post, e ≤ x.bp ∧ 32 ≤ x.sz) := by
  obtain ⟨a, e, h1, h2, h3⟩ := Tiled_split3 h
  refine ⟨a, e, h2, ?_, ?_, ?_⟩
  · intro x hx
    have := Tiled_mem _ _ _ h1 x hx
    exact ⟨this.2.1, this.2.2.1⟩
  · intro x hx
    have := Tiled_mem _ _ _ h2 x hx
    exact ⟨this.1, this.2.1, this.2.2.1⟩
  · intro x hx
    have := Tiled_mem _ _ _ h3 x hx
    exact ⟨this.1, this.2.2.1⟩

/-- Merging a run of blocks around `b` into one block `r` leaves no two
adjacent free blocks, when `b` was the only place with adjacent free blocks
and the neighbours of the run are allocated. -/
theorem merge_coalesced {pre mid post : List Blk} {b r : Blk} {a0 e0 : Nat}
    (ht : Tiled a0 (pre ++ mid ++ post) e0)
    (hspan : ∀ a e, Tiled a mid e → a = r.bp ∧ e = r.bp + r.sz) (hrsz : 0 < r.sz)
    (hbm : b ∈ mid)
    (hco : ∀ x ∈ pre ++ mid ++ post, ∀ y ∈ pre ++ mid ++ post, x.bp + x.sz = y.bp →
      x.al = true ∨ y.al = true ∨ x = b ∨ y = b)
    (hP : ∀ x ∈ pre, x.bp + x.sz = r.bp → x.al = true)
    (hN : ∀ y ∈ post, r.bp + r.sz = y.bp → y.al = true) :
    Coalesced (pre ++ r :: post) := by
  obtain ⟨a, e, hm, hpre, hmid, hpost⟩ := Tiled_parts ht
  obtain ⟨ha, he⟩ := hspan a e hm
  have hb := hmid b hbm
  have old : ∀ x, (x ∈ pre ∨ x ∈ post) → ∀ y, (y ∈ pre ∨ y ∈ post) → x.bp + x.sz = y.bp →
      x.al = true ∨ y.al = true := by
    intro x hx y hy hxy
    have hx' : x ∈ pre ++ mid ++ post := by
      simp only [List.mem_append]; rcases hx with hx | hx
      · exact Or.inl (Or.inl hx)
      · exact Or.inr hx
    have hy' : y ∈ pre ++ mid ++ post := by
      simp only [List.mem_append]; rcases hy with hy | hy
      · exact Or.inl (Or.inl hy)
      · exact Or.inr hy
    have nx : x ≠ b := by
      rintro rfl
      rcases hx with hx | hx
      · have := hpre _ hx; omega
      · have := hpost _ hx; omega
    have ny : y ≠ b := by
      rintro rfl
      rcases hy with hy | hy
      · have := hpre _ hy; omega
      · have := hpost _ hy; omega
    rcases hco x hx' y hy' hxy with h1 | h1 | h1 | h1
    · exact Or.inl h1
    · exact Or.inr h1
    · exact absurd h1 nx
    · exact absurd h1 ny
  intro x hx y hy hxy
  simp only [List.mem_append, List.mem_cons] at hx hy
  rcases hx with hx | rfl | hx
  · rcases hy with hy | rfl | hy
    · exact old x (Or.inl hx) y (Or.inl hy) hxy
    · exact Or.inl (hP x hx hxy)
    · exact old x (Or.inl hx) y (Or.inr hy) hxy
  · rcases hy with hy | rfl | hy
    · have := hpre _ hy; omega
    · omega
    · exact Or.inr (hN y hy hxy)
  · rcases hy with hy | rfl | hy
    · exact old x (Or.inr hx) y (Or.inl hy) hxy
    · have := hpost _ hx; omega
    · exact old x (Or.inr hx) y (Or.inr hy) hxy

/-- Merging free blocks keeps the allocated blocks. -/
theorem merge_alloc_same {pre mid post : List Blk} {r : Blk}
    (hfree : ∀ m ∈ mid, m.al = false) (hr : r.al = false) (x : Blk) (hx : x.al = true) :
    x ∈ pre ++ r :: post ↔ x ∈ pre ++ mid ++ post := by
  simp only [List.mem_append, List.mem_cons]
  constructor
  · rintro (h1 | rfl | h1)
    · exact Or.inl (Or.inl h1)
    · rw [hr] at hx; exact absurd hx (by decide)
    · exact Or.inr h1
  · rintro ((h1 | h1) | h1)
    · exact Or.inl h1
    · rw [hfree x h1] at hx; exact absurd hx (by decide)
    · exact Or.inr (Or.inr h1)

/-- After a merge every free block is linked in its bucket. -/
theorem merge_complete {pre mid post : List Blk} {r : Blk} {F F' : Nat → List Nat}
    {a0 e0 : Nat} (ht : Tiled a0 (pre ++ mid ++ post) e0)
    (hc : Complete (pre ++ mid ++ post) F)
    (hF : ∀ j, j < 21 → ∀ z, (z ∈ F j ∧ ∀ m ∈ mid, z ≠ m.bp) ∨
      (j = listIdOfSize r.sz ∧ z = r.bp) → z ∈ F' j) :
    Complete (pre ++ r :: post) F' := by
  obtain ⟨a, e, hm, hpre, hmid, hpost⟩ := Tiled_parts ht
  intro x hx hxf
  simp only [List.mem_append, List.mem_cons] at hx
  rcases hx with hx | rfl | hx
  · refine hF _ (listIdOfSize_lt _) _ (Or.inl ⟨hc x ?_ hxf, ?_⟩)
    · simp only [List.mem_append]; exact Or.inl (Or.inl hx)
    · intro m hm'
      have h1 := hpre _ hx
      have h2 := hmid _ hm'
      omega
  · exact hF _ (listIdOfSize_lt _) _ (Or.inr ⟨rfl, rfl⟩)
  · refine hF _ (listIdOfSize_lt _) _ (Or.inl ⟨hc x ?_ hxf, ?_⟩)
    · simp only [List.mem_append]; exact Or.inr hx
    · intro m hm'
      have h1 := hpost _ hx
      have h2 := hmid _ hm'
      omega

/-- What `coalesce` reads about the block before `b`: it is allocated (or
absent), or it is a free block `a`. -/
theorem Rep.prev_cases {s : Heap} {pre post : List Blk} {b : Blk} {F : Nat → List Nat}
    (h : Rep s (pre ++ b :: post) F) :
    (GET_ALLOC s.mem (FTRP s.mem (PREV_BLKP s.mem b.bp)) ≠ 0 ∧
      ∀ x ∈ pre ++ b :: post, x.bp + x.sz = b.bp → x.al = true) ∨
    (∃ pre' a, pre = pre' ++ [a] ∧ a.al = false) := by
  have hbm : b ∈ pre ++ b :: post := List.mem_append_right _ (List.mem_cons_self _ _)
  have fb := h.blocks.mem_facts hbm
  rcases List.eq_nil_or_concat pre with hp | ⟨pre', a, hp⟩
  on_goal 2 => rw [List.concat_eq_append] at hp
  · left
    obtain ⟨h1, -⟩ := h.blocks.prev_alloc (show pre ++ b :: post = pre ++ b :: post from rfl)
    refine ⟨by rw [h1 hp]; decide, ?_⟩
    intro x hx hxb
    have h2 := (Tiled_prev h.blocks.tiled).1 hp
    have h3 := h.blocks.mem_facts hx
    omega
  · cases hal : a.al
    · right; exact ⟨pre', a, hp, hal⟩
    · left
      obtain ⟨-, h2⟩ := h.blocks.prev_alloc (show pre ++ b :: post = pre ++ b :: post from rfl)
      obtain ⟨h3, h4, h5, h6⟩ := h2 pre' a hp
      refine ⟨by rw [h6, hal]; decide, ?_⟩
      intro x hx hxb
      have fx := h.blocks.mem_facts hx
      have fa := h.blocks.mem_facts h3
      rcases h.blocks.sep hx h3 with e | e | e
      · rw [e]; exact hal
      · omega
      · omega

/-- What `coalesce` reads about the block after `b`. -/
theorem Rep.next_cases {s : Heap} {pre post : List Blk} {b : Blk} {F : Nat → List Nat}
    (h : Rep s (pre ++ b :: post) F) :
    (GET_ALLOC s.mem (HDRP (NEXT_BLKP s.mem b.bp)) ≠ 0 ∧
      ∀ y ∈ pre ++ b :: post, b.bp + b.sz = y.bp → y.al = true) ∨
    (∃ c post', post = c :: post' ∧ c.al = false) := by
  have hbm : b ∈ pre ++ b :: post := List.mem_append_right _ (List.mem_cons_self _ _)
  have fb := h.blocks.mem_facts hbm
  rcases post with _ | ⟨c, post'⟩
  · left
    obtain ⟨h1, -⟩ := h.blocks.next_alloc (show pre ++ [b] = pre ++ b :: [] from rfl)
    refine ⟨by rw [h1 rfl]; decide, ?_⟩
    intro y hy hyb
    have h2 := (Tiled_next h.blocks.tiled).1 rfl
    have h3 := h.blocks.mem_facts hy
    omega
  · cases hal : c.al
    · right; exact ⟨c, post', rfl, hal⟩
    · left
      obtain ⟨-, h2⟩ := h.blocks.next_alloc (show pre ++ b :: c :: post' = pre ++ b :: (c :: post') from rfl)
      obtain ⟨h3, h4, h5, h6⟩ := h2 c post' rfl
      refine ⟨by rw [h6, hal]; decide, ?_⟩
      intro y hy hyb
      have fy := h.blocks.mem_facts hy
      have fc := h.blocks.mem_facts h3
      rcases h.blocks.sep hy h3 with e | e | e
      · rw [e]; exact hal
      · omega
      · omega

/-- Specification of `coalesce` on a free, linked block `b` of a heap in which
`b` is the only place where two free blocks may be adjacent. -/
theorem coalesce_spec {s : Heap} {bs : List Blk} {F : Nat → List Nat} {b : Blk}
    (h : Rep s bs F) (hcomp : Complete bs F) (hb : b ∈ bs) (hbf : b.al = false)
    (hco : ∀ x ∈ bs, ∀ y ∈ bs, x.bp + x.sz = y.bp →
      x.al = true ∨ y.al = true ∨ x = b ∨ y = b) :
    ∃ s' bs' F' r, coalesce s b.bp = (s', r.bp) ∧ Rep s' bs' F' ∧ Complete bs' F' ∧
      Coalesced bs' ∧ SameRegs s s' ∧ r ∈ bs' ∧ r.al = false ∧ r.bp ≤ b.bp ∧
      b.bp + b.sz ≤ r.bp + r.sz ∧ (∀ x, x.al = true → (x ∈ bs' ↔ x ∈ bs)) := by
  obtain ⟨pre, post, rfl⟩ := List.append_of_mem hb
  have fb := h.blocks.mem_facts hb
  rcases h.prev_cases with ⟨hpa, hP⟩ | ⟨pre', a, rfl, haf⟩
  · rcases h.next_cases with ⟨hna, hN⟩ | ⟨c, post', rfl, hcf⟩
    · -- both neighbours allocated
      refine ⟨s, _, F, b, ?_, h, hcomp, ?_, SameRegs.refl s, hb, hbf, le_refl _, le_refl _,
        fun x _ => Iff.rfl⟩
      · unfold coalesce
        rw [if_pos ⟨hpa, hna⟩]
      · intro x hx y hy hxy
        rcases hco x hx y hy hxy with h1 | h1 | h1 | h1
        · exact Or.inl h1
        · exact Or.inr h1
        · rw [h1] at hxy; exact Or.inr (hN y hy hxy)
        · rw [h1] at hxy; exact Or.inl (hP x hx hxy)
    · -- the next block is free
      have hcm : c ∈ pre ++ b :: c :: post' :=
        List.mem_append_right _ (List.mem_cons_of_mem _ (List.mem_cons_self _ _))
      have fc := h.blocks.mem_facts hcm
      have hbc : c.bp = b.bp + b.sz :=
        ((h.blocks.next_alloc (show pre ++ b :: c :: post' = pre ++ b :: (c :: post') from rfl)).2
          c post' rfl).2.1
      obtain ⟨s', F', heq, hR, hS, hF⟩ := coalesce_next h hcomp hbf hcf hpa
      have e2 : pre ++ b :: c :: post' = pre ++ [b, c] ++ post' := by simp
      have hsub : ∀ x, x ∈ pre ∨ x ∈ post' → x ∈ pre ++ b :: c :: post' := by
        intro x hx
        simp only [List.mem_append, List.mem_cons]
        rcases hx with hx | hx
        · exact Or.inl hx
        · exact Or.inr (Or.inr (Or.inr hx))
      have ht := h.blocks.tiled
      rw [e2] at ht hcomp hco
      refine ⟨s', _, F', ⟨b.bp, b.sz + c.sz, false⟩, heq, hR, ?_, ?_, hS, ?_, rfl, le_refl _, ?_, ?_⟩
      · refine merge_complete ht hcomp ?_
        intro j hj z hz
        refine (hF j hj z).2 ?_
        rcases hz with ⟨h1, h2⟩ | h3
        · exact Or.inl ⟨h1, h2 b (by simp), h2 c (by simp)⟩
        · exact Or.inr h3
      · refine merge_coalesced (b := b) ht
          (fun a e hm => ⟨(Tiled_two hm).1, (Tiled_two hm).2.1⟩) ?_ (by simp) hco ?_ ?_
        · show 0 < b.sz + c.sz
          omega
        · intro x hx hxb
          exact hP x (hsub x (Or.inl hx)) hxb
        · intro y hy hyb
          have hyb' : b.bp + (b.sz + c.sz) = y.bp := hyb
          have hym := hsub y (Or.inr hy)
          rw [e2] at hym hcm
          rcases hco c hcm y hym (by omega) with h1 | h1 | h1 | h1
          · rw [hcf] at h1; exact absurd h1 (by decide)
          · exact h1
          · have := congrArg Blk.bp h1; omega
          · have := congrArg Blk.bp h1; omega
      · simp
      · show b.bp + b.sz ≤ b.bp + (b.sz + c.sz)
        omega
      · intro x hx
        rw [e2]
        refine merge_alloc_same ?_ rfl x hx
        intro m hm
        simp only [List.mem_cons, List.mem_singleton, List.not_mem_nil, or_false] at hm
        rcases hm with rfl | rfl
        · exact hbf
        · exact hcf
  · have e3 : pre' ++ [a] ++ b :: post = pre' ++ a :: b :: post := by simp
    rw [e3] at h hcomp hco hb
    have ham : a ∈ pre' ++ a :: b :: post := List.mem_append_right _ (List.mem_cons_self _ _)
    have fa := h.blocks.mem_facts ham
    have hab : a.bp + a.sz = b.bp :=
      ((h.blocks.prev_alloc (show pre' ++ a :: b :: post = (pre' ++ [a]) ++ b :: post by simp)).2
        pre' a rfl).2.1
    have h' : Rep s ((pre' ++ [a]) ++ b :: post) F := by rw [e3]; exact h
    rcases h'.next_cases with ⟨hna, hN⟩ | ⟨c, post', rfl, hcf⟩
    · -- the previous block is free
      rw [e3] at hN
      clear h'
      obtain ⟨s', F', heq, hR, hS, hF⟩ := coalesce_prev h hcomp haf hbf hna
      have e2 : pre' ++ a :: b :: post = pre' ++ [a, b] ++ post := by simp
      have hsub : ∀ x, x ∈ pre' ∨ x ∈ post → x ∈ pre' ++ a :: b :: post := by
        intro x hx
        simp only [List.mem_append, List.mem_cons]
        rcases hx with hx | hx
        · exact Or.inl hx
        · exact Or.inr (Or.inr (Or.inr hx))
      have ht := h.blocks.tiled
      rw [e2] at ht hcomp hco
      refine ⟨s', _, F', ⟨a.bp, a.sz + b.sz, false⟩, heq, hR, ?_, ?_, hS, ?_, rfl, ?_, ?_, ?_⟩
      · refine merge_complete ht hcomp ?_
        intro j hj z hz
        refine (hF j hj z).2 ?_
        rcases hz with ⟨h1, h2⟩ | h3
        · exact Or.inl ⟨h1, h2 b (by simp), h2 a (by simp)⟩
        · exact Or.inr h3
      · refine merge_coalesced (b := b) ht
          (fun a0 e0 hm => ⟨(Tiled_two hm).1, (Tiled_two hm).2.1⟩) ?_ (by simp) hco ?_ ?_
        · show 0 < a.sz + b.sz
          omega
        · intro x hx hxa
          have hxa' : x.bp + x.sz = a.bp := hxa
          have hxm := hsub x (Or.inl hx)
          have fx := h.blocks.mem_facts hxm
          rw [e2] at hxm ham
          rcases hco x hxm a ham hxa' with h1 | h1 | h1 | h1
          · exact h1
          · rw [haf] at h1; exact absurd h1 (by decide)
          · have := congrArg Blk.bp h1; omega
          · have := congrArg Blk.bp h1; omega
        · intro y hy hyb
          have hyb' : a.bp + (a.sz + b.sz) = y.bp := hyb
          exact hN y (hsub y (Or.inr hy)) (by omega)
      · simp
      · show a.bp ≤ b.bp
        omega
      · show b.bp + b.sz ≤ a.bp + (a.sz + b.sz)
        omega
      · intro x hx
        rw [e3, e2]
        refine merge_alloc_same ?_ rfl x hx
        intro m hm
        simp only [List.mem_cons, List.mem_singleton, List.not_mem_nil, or_false] at hm
        rcases hm with rfl | rfl
        · exact haf
        · exact hbf
    · -- both neighbours are free
      clear h'
      have hcm : c ∈ pre' ++ a :: b :: c :: post' :=
        List.mem_append_right _ (List.mem_cons_of_mem _ (List.mem_cons_of_mem _
          (List.mem_cons_self _ _)))
      have fc := h.blocks.mem_facts hcm
      have hbc : c.bp = b.bp + b.sz :=
        ((h.blocks.next_alloc (show pre' ++ a :: b :: c :: post' = (pre' ++ [a]) ++ b :: (c :: post')
          by simp)).2 c post' rfl).2.1
      obtain ⟨s', F', heq, hR, hS, hF⟩ := coalesce_both h hcomp haf hbf hcf
      have e2 : pre' ++ a :: b :: c :: post' = pre' ++ [a, b, c] ++ post' := by simp
      have hsub : ∀ x, x ∈ pre' ∨ x ∈ post' → x ∈ pre' ++ a :: b :: c :: post' := by
        intro x hx
        simp only [List.mem_append, List.mem_cons]
        rcases hx with hx | hx
        · exact Or.inl hx
        · exact Or.inr (Or.inr (Or.inr (Or.inr hx)))
      have ht := h.blocks.tiled
      rw [e2] at ht hcomp hco
      refine ⟨s', _, F', ⟨a.bp, a.sz + b.sz + c.sz, false⟩, heq, hR, ?_, ?_, hS, ?_, rfl,
        ?_, ?_, ?_⟩
      · refine merge_complete ht hcomp ?_
        intro j hj z hz
        refine (hF j hj z).2 ?_
        rcases hz with ⟨h1, h2⟩ | h3
        · exact Or.inl ⟨h1, h2 b (by simp), h2 c (by simp), h2 a (by simp)⟩
        · exact Or.inr h3
      · refine merge_coalesced (b := b) ht
          (fun a0 e0 hm => ⟨(Tiled_three hm).1, (Tiled_three hm).2.1⟩) ?_ (by simp) hco ?_ ?_
        · show 0 < a.sz + b.sz + c.sz
          omega
        · intro x hx hxa
          have hxa' : x.bp + x.sz = a.bp := hxa
          have hxm := hsub x (Or.inl hx)
          have fx := h.blocks.mem_facts hxm
          rw [e2] at hxm ham
          rcases hco x hxm a ham hxa' with h1 | h1 | h1 | h1
          · exact h1
          · rw [haf] at h1; exact absurd h1 (by decide)
          · have := congrArg Blk.bp h1; omega
          · have := congrArg Blk.bp h1; omega
        · intro y hy hyb
          have hyb' : a.bp + (a.sz + b.sz + c.sz) = y.bp := hyb
          have hym := hsub y (Or.inr hy)
          rw [e2] at hym hcm
          rcases hco c hcm y hym (by omega) with h1 | h1 | h1 | h1
          · rw [hcf] at h1; exact absurd h1 (by decide)
          · exact h1
          · have := congrArg Blk.bp h1; omega
          · have := congrArg Blk.bp h1; omega
      · simp
      · show a.bp ≤ b.bp
        omega
      · show b.bp + b.sz ≤ a.bp + (a.sz + b.sz + c.sz)
        omega
      · intro x hx
        rw [e3, e2]
        refine merge_alloc_same ?_ rfl x hx
        intro m hm
        simp only [List.mem_cons, List.mem_singleton, List.not_mem_nil, or_false] at hm
        rcases hm with rfl | rfl | rfl
        · exact haf
        · exact hbf
        · exact hcf

/-- A heap grown by `size` bytes whose old epilogue word became the header of a
free block of that size, with a footer and a new epilogue behind it. -/
theorem Rep_grow {s s' : Heap} {bs : List Blk} {F : Nat → List Nat} (h : Rep s bs F)
    (size : Nat) (hptr : s'.ptr = s.ptr) (hhlp : s'.heap_listp = s.heap_listp)
    (hlimit : s'.limit = s.limit) (hbrk : s'.brk = s.brk + size)
    (hlim : s.brk + size ≤ s.limit) (h32 : 32 ≤ size) (h16 : size % 16 = 0)
    (hfar : ∀ q, q + 8 ≤ s.brk - 8 → GET s'.mem q = GET s.mem q)
    (hh : GET s'.mem (s.brk - 8) = size) (hf : GET s'.mem (s.brk + size - 16) = size)
    (he : GET s'.mem (s.brk + size - 8) = 1) :
    Rep s' (bs ++ [⟨s.brk, size, false⟩]) F := by
  have hb := h.blocks.brk_facts
  refine ⟨⟨by rw [hhlp, hptr]; exact h.blocks.hlp, ?_, by rw [hbrk, hlimit]; exact hlim,
    by rw [hlimit]; exact h.blocks.lim64, ?_, ?_, by rw [hbrk]; exact he, ?_⟩, ?_, ?_⟩
  · rw [hptr, hbrk, Tiled_append]
    exact ⟨s.brk, h.blocks.tiled, rfl, h32, h16, rfl⟩
  · rw [hptr, hfar _ (by omega)]; exact h.blocks.pro1
  · rw [hptr, hfar _ (by omega)]; exact h.blocks.pro2
  · intro b hbm
    simp only [List.mem_append, List.mem_singleton] at hbm
    rcases hbm with hbm | rfl
    · have fb := h.blocks.mem_facts hbm
      have ok := h.blocks.ok b hbm
      exact ⟨(hfar _ (by omega)).trans ok.1, (hfar _ (by omega)).trans ok.2⟩
    · exact ⟨hh, hf⟩
  · refine Lists_frame h.lists hptr (fun i hi => hfar _ (by omega)) ?_
    intro i hi x hx
    have := Sound.ne_zero h hi hx
    exact ⟨hfar _ (by omega), hfar _ (by omega)⟩
  · intro i hi x hx
    obtain ⟨b, hb1, hb2⟩ := h.sound i hi x hx
    exact ⟨b, List.mem_append_left _ hb1, hb2⟩

/-- Specification of `extend_heap` when the break can move by the requested
size. -/
theorem extend_heap_spec {s : Heap} {bs : List Blk} {F : Nat → List Nat} (h : Rep s bs F)
    (hcomp : Complete bs F) (hco : Coalesced bs) (words size : Nat)
    (hsize : growSize words = size) (h32 : 32 ≤ size) (h16 : size % 16 = 0)
    (hlim : s.brk + size ≤ s.limit) (h63 : size < 2 ^ 63) :
    ∃ s' bs' F' r, extend_heap s words = (s', r.bp) ∧ Rep s' bs' F' ∧ Complete bs' F' ∧
      Coalesced bs' ∧ r ∈ bs' ∧ r.al = false ∧ size ≤ r.sz ∧ s'.ptr = s.ptr ∧
      s'.heap_listp = s.heap_listp ∧ s'.limit = s.limit ∧ s'.brk = s.brk + size ∧
      (∀ x, x.al = true → (x ∈ bs' ↔ x ∈ bs)) := by
  have hW := W64_val
  have hb := h.blocks.brk_facts
  have hl := h.blocks.lim64
  have g1 : s.brk ≠ NEG1 := by unfold NEG1; omega
  have g2 : 8 ≤ s.brk := by omega
  have g3 : s.brk < W64 := by omega
  have g4 : s.brk + size < W64 := by omega
  have g5 : size < W64 := by omega
  have g6 : size % 8 = 0 := by omega
  have g7 : 16 ≤ size := by omega
  have g8 : 8 ≤ s.brk + size := by omega
  have d1 : s.brk - 8 + 8 ≤ s.brk + size - 16 ∨ s.brk + size - 16 + 8 ≤ s.brk - 8 := by omega
  have d2 : s.brk - 8 + 8 ≤ s.brk + size - 8 ∨ s.brk + size - 8 + 8 ≤ s.brk - 8 := by omega
  have d3 : s.brk + size - 16 + 8 ≤ s.brk + size - 8 ∨
      s.brk + size - 8 + 8 ≤ s.brk + size - 16 := by omega
  have d4 : ∀ q, q + 8 ≤ s.brk - 8 → (q + 8 ≤ s.brk - 8 ∨ s.brk - 8 + 8 ≤ q) ∧
      (q + 8 ≤ s.brk + size - 16 ∨ s.brk + size - 16 + 8 ≤ q) ∧
      (q + 8 ≤ s.brk + size - 8 ∨ s.brk + size - 8 + 8 ≤ q) := by
    intro q hq; omega
  clear hW
  have hR3 : Rep (((({ s with brk := s.brk + size } : Heap).put (s.brk - 8) size).put
      (s.brk + size - 16) size).put (s.brk + size - 8) 1)
      (bs ++ [⟨s.brk, size, false⟩]) F := by
    refine Rep_grow h size rfl rfl rfl rfl hlim h32 h16 ?_ ?_ ?_ ?_
    · intro q hq
      obtain ⟨e1, e2, e3⟩ := d4 q hq
      show GET (PUT (PUT (PUT s.mem _ _) _ _) _ _) q = _
      rw [GET_PUT_ne _ _ _ _ e3, GET_PUT_ne _ _ _ _ e2, GET_PUT_ne _ _ _ _ e1]
    · show GET (PUT (PUT (PUT s.mem _ _) _ _) _ _) _ = _
      rw [GET_PUT_ne _ _ _ _ d2, GET_PUT_ne _ _ _ _ d1, GET_PUT_eq_of_lt _ _ _ g5]
    · show GET (PUT (PUT (PUT s.mem _ _) _ _) _ _) _ = _
      rw [GET_PUT_ne _ _ _ _ d3, GET_PUT_eq_of_lt _ _ _ g5]
    · show GET (PUT (PUT (PUT s.mem _ _) _ _) _ _) _ = _
      rw [GET_PUT_eq_of_lt _ _ _ (by unfold W64; norm_num)]
  have hnm : (⟨s.brk, size, false⟩ : Blk) ∈ bs ++ [⟨s.brk, size, false⟩] := by simp
  have hnot : s.brk ∉ F (listIdOfSize size) := by
    intro hx
    have := Sound.ne_zero h (listIdOfSize_lt _) hx
    omega
  obtain ⟨s4, F4, hs4, hR4, hS4, hF4⟩ := insert_mem hR3 hnm rfl hnot
  have hcomp4 : Complete (bs ++ [⟨s.brk, size, false⟩]) F4 := by
    intro x hx hxf
    simp only [List.mem_append, List.mem_singleton] at hx
    rcases hx with hx | rfl
    · exact (hF4 _ (listIdOfSize_lt _) _).2 (Or.inl (hcomp x hx hxf))
    · exact (hF4 _ (listIdOfSize_lt _) _).2 (Or.inr ⟨rfl, rfl⟩)
  have hco4 : ∀ x ∈ bs ++ [⟨s.brk, size, false⟩], ∀ y ∈ bs ++ [⟨s.brk, size, false⟩],
      x.bp + x.sz = y.bp → x.al = true ∨ y.al = true ∨ x = ⟨s.brk, size, false⟩ ∨
        y = ⟨s.brk, size, false⟩ := by
    intro x hx y hy hxy
    simp only [List.mem_append, List.mem_singleton] at hx hy
    rcases hx with hx | hx
    · rcases hy with hy | hy
      · rcases hco x hx y hy hxy with h1 | h1
        · exact Or.inl h1
        · exact Or.inr (Or.inl h1)
      · exact Or.inr (Or.inr (Or.inr hy))
    · exact Or.inr (Or.inr (Or.inl hx))
  obtain ⟨s', bs', F', r, hc, hR, hC, hCo, hS, hrm, hrf, hr1, hr2, hsame⟩ :=
    coalesce_spec hR4 hcomp4 hnm rfl hco4
  have hr1' : r.bp ≤ s.brk := hr1
  have hr2' : s.brk + size ≤ r.bp + r.sz := hr2
  obtain ⟨q1, q2, q3, q4⟩ := hS4.trans hS
  refine ⟨s', bs', F', r, ?_, hR, hC, hCo, hrm, hrf, by omega, q4, q3, q2, q1, ?_⟩
  · have hsb : sbrk s size = ({ s with brk := s.brk + size }, s.brk) := by
      rw [sbrk_nonneg s size h63, if_pos hlim]
    have hft : FTRP (PUT s.mem (s.brk - 8) size) s.brk = s.brk + size - 16 :=
      FTRP_after_put _ _ _ _ g2 g4 g6 g7 rfl
    have hnx : NEXT_BLKP (PUT (PUT s.mem (s.brk - 8) size) (s.brk + size - 16) size) s.brk
        = s.brk + size :=
      NEXT_BLKP_raw _ _ size (by
        rw [GET_SIZE_PUT_ne _ _ _ _ d1]
        exact GET_SIZE_of_tag _ _ size 0 (GET_PUT_eq_of_lt _ _ _ g5) g6 (by omega)) g2 g4
    unfold extend_heap
    rw [hsize]
    dsimp only
    rw [hsb]
    dsimp only
    rw [if_neg g1]
    show coalesce (insert_to_list (Heap.put _ _ 1) _) _ = _
    rw [HDRP_eq _ g2 g3, PACK_zero size, put_mem, hft, put_mem, put_mem, hnx, HDRP_eq _ g8 g4]
    exact hs4 ▸ hc
  · intro x hx
    rw [hsame x hx]
    simp only [List.mem_append, List.mem_singleton]
    constructor
    · rintro (h1 | rfl)
      · exact h1
      · exact Bool.noConfusion hx
    · exact Or.inl

/-- The four words that `place` stores into are separated from each other. -/
theorem split_arith (bp sz k : Nat) (hbp : 16 ≤ bp) (hk32 : 32 ≤ k) (hkb : k + 32 ≤ sz) :
    (bp - 8 + 8 ≤ bp + k - 16 ∨ bp + k - 16 + 8 ≤ bp - 8) ∧
    (bp - 8 + 8 ≤ bp + k - 8 ∨ bp + k - 8 + 8 ≤ bp - 8) ∧
    (bp - 8 + 8 ≤ bp + sz - 16 ∨ bp + sz - 16 + 8 ≤ bp - 8) ∧
    (bp + k - 16 + 8 ≤ bp + k - 8 ∨ bp + k - 8 + 8 ≤ bp + k - 16) ∧
    (bp + k - 16 + 8 ≤ bp + sz - 16 ∨ bp + sz - 16 + 8 ≤ bp + k - 16) ∧
    (bp + k - 8 + 8 ≤ bp + sz - 16 ∨ bp + sz - 16 + 8 ≤ bp + k - 8) := by
  refine ⟨?_, ?_, ?_, ?_, ?_, ?_⟩ <;> omega

/-- A word outside the block is separated from the four words that `place`
stores into. -/
theorem split_far (bp sz k q : Nat) (hbp : 16 ≤ bp) (hk32 : 32 ≤ k) (hkb : k + 32 ≤ sz)
    (hq : q + 8 ≤ bp - 8 ∨ bp + sz - 8 ≤ q) :
    (q + 8 ≤ bp - 8 ∨ bp - 8 + 8 ≤ q) ∧ (q + 8 ≤ bp + k - 16 ∨ bp + k - 16 + 8 ≤ q) ∧
    (q + 8 ≤ bp + k - 8 ∨ bp + k - 8 + 8 ≤ q) ∧
    (q + 8 ≤ bp + sz - 16 ∨ bp + sz - 16 + 8 ≤ q) := by
  refine ⟨?_, ?_, ?_, ?_⟩ <;> omega

/-- Splitting an unlinked block `b` into an allocated block of size `k` and a
free remainder, by the four stores of `place`. -/
theorem Rep_split {s : Heap} {pre post : List Blk} {b : Blk} {F : Nat → List Nat}
    (h : Rep s (pre ++ [b] ++ post) F) (hnot : ∀ j, j < 21 → ∀ x ∈ F j, b.bp ≠ x)
    (k : Nat) (hk32 : 32 ≤ k) (hk16 : k % 16 = 0) (hkb : k + 32 ≤ b.sz) :
    Rep ((((s.put (b.bp - 8) (k + 1)).put (b.bp + k - 16) (k + 1)).put (b.bp + k - 8)
      (b.sz - k)).put (b.bp + b.sz - 16) (b.sz - k))
      (pre ++ ⟨b.bp, k, true⟩ :: ⟨b.bp + k, b.sz - k, false⟩ :: post) F := by
  have hW := W64_val
  have hbm : b ∈ pre ++ [b] ++ post := by simp
  have fb := h.blocks.mem_facts hbm
  obtain ⟨a1, e1, t1, t2, t3⟩ := Tiled_split3 h.blocks.tiled
  obtain ⟨ha, he⟩ := Tiled_one t2
  have l1 : k + 1 < W64 := by omega
  have l2 : b.sz - k < W64 := by omega
  have c1 : b.bp + k + (b.sz - k) - 16 = b.bp + b.sz - 16 := by omega
  have c2 : b.bp + k + (b.sz - k) = b.bp + b.sz := by omega
  have c3 : 32 ≤ b.sz - k := by omega
  have c4 : (b.sz - k) % 16 = 0 := by omega
  have hbp16 : 16 ≤ b.bp := by omega
  obtain ⟨d1, d2, d3, d4, d5, d6⟩ := split_arith b.bp b.sz k hbp16 hk32 hkb
  have d7 : ∀ q, q + 8 ≤ a1 - 8 ∨ e1 - 8 ≤ q →
      (q + 8 ≤ b.bp - 8 ∨ b.bp - 8 + 8 ≤ q) ∧ (q + 8 ≤ b.bp + k - 16 ∨ b.bp + k - 16 + 8 ≤ q) ∧
      (q + 8 ≤ b.bp + k - 8 ∨ b.bp + k - 8 + 8 ≤ q) ∧
      (q + 8 ≤ b.bp + b.sz - 16 ∨ b.bp + b.sz - 16 + 8 ≤ q) := by
    intro q hq
    rw [ha, he] at hq
    exact split_far b.bp b.sz k q hbp16 hk32 hkb hq
  clear hW fb
  have e : pre ++ (⟨b.bp, k, true⟩ : Blk) :: ⟨b.bp + k, b.sz - k, false⟩ :: post =
      pre ++ [⟨b.bp, k, true⟩, ⟨b.bp + k, b.sz - k, false⟩] ++ post := by simp
  rw [e]
  refine Rep_replace h ⟨rfl, rfl, rfl, rfl⟩ a1 e1 t1 t2 ?_ ?_ ?_ ?_
  · rw [ha, he]
    exact ⟨rfl, hk32, hk16, rfl, c3, c4, c2⟩
  · intro x hx
    simp only [List.mem_cons, List.mem_singleton, List.not_mem_nil, or_false] at hx
    rcases hx with rfl | rfl
    · show GET _ (b.bp - 8) = k + 1 ∧ GET _ (b.bp + k - 16) = k + 1
      rw [put_mem, put_mem, put_mem, put_mem]
      constructor
      · rw [GET_PUT_ne _ _ _ _ d3, GET_PUT_ne _ _ _ _ d2, GET_PUT_ne _ _ _ _ d1,
          GET_PUT_eq_of_lt _ _ _ l1]
      · rw [GET_PUT_ne _ _ _ _ d5, GET_PUT_ne _ _ _ _ d4, GET_PUT_eq_of_lt _ _ _ l1]
    · show GET _ (b.bp + k - 8) = b.sz - k + 0 ∧ GET _ (b.bp + k + (b.sz - k) - 16) = b.sz - k + 0
      rw [put_mem, put_mem, put_mem, put_mem, c1]
      constructor
      · rw [GET_PUT_ne _ _ _ _ d6, GET_PUT_eq_of_lt _ _ _ l2]; rfl
      · rw [GET_PUT_eq_of_lt _ _ _ l2]; rfl
  · intro q hq
    obtain ⟨q1, q2, q3, q4⟩ := d7 q hq
    rw [put_mem, put_mem, put_mem, put_mem, GET_PUT_ne _ _ _ _ q4, GET_PUT_ne _ _ _ _ q3,
      GET_PUT_ne _ _ _ _ q2, GET_PUT_ne _ _ _ _ q1]
  · intro j hj x hx c hc
    rw [List.mem_singleton] at hc
    rw [hc]
    exact hnot j hj x hx

/-- The reads of `place` after its first two stores. -/
theorem place_reads (m : Mem) (bp sz k : Nat) (hbp : 16 ≤ bp) (hk32 : 32 ≤ k)
    (hk16 : k % 16 = 0) (hkb : k + 32 ≤ sz) (hsz : sz % 16 = 0) (h64 : bp + sz < W64) :
    FTRP (PUT m (bp - 8) (k + 1)) bp = bp + k - 16 ∧
    NEXT_BLKP (PUT (PUT m (bp - 8) (k + 1)) (bp + k - 16) (k + 1)) bp = bp + k ∧
    HDRP (bp + k) = bp + k - 8 ∧
    FTRP (PUT (PUT (PUT m (bp - 8) (k + 1)) (bp + k - 16) (k + 1)) (bp + k - 8) (sz - k))
      (bp + k) = bp + sz - 16 := by
  have hW := W64_val
  obtain ⟨d1, d2, d3, d4, d5, d6⟩ := split_arith bp sz k hbp hk32 hkb
  have l1 : k + 1 < W64 := by omega
  have l2 : sz - k < W64 := by omega
  have g1 : GET_SIZE (PUT m (bp - 8) (k + 1)) (bp - 8) = k :=
    GET_SIZE_of_tag _ _ k 1 (GET_PUT_eq_of_lt _ _ _ l1) (by omega) (by omega)
  have c0 : bp + k + (sz - k) - 16 = bp + sz - 16 := by omega
  refine ⟨FTRP_raw _ _ k g1 (by omega) (by omega) (by omega), ?_, HDRP_eq _ (by omega) (by omega),
    ?_⟩
  · exact NEXT_BLKP_raw _ _ k (by rw [GET_SIZE_PUT_ne _ _ _ _ d1]; exact g1) (by omega)
      (by omega)
  · rw [← c0]
    refine FTRP_raw _ _ (sz - k) ?_ (by omega) (by omega) (by omega)
    exact GET_SIZE_of_tag _ _ (sz - k) 0 (GET_PUT_eq_of_lt _ _ _ l2) (by omega) (by omega)

theorem find_id_loop_le (sz : Int) : ∀ k i now, i + k ≤ 21 → find_id_loop sz k i now ≤ 20 := by
  intro k
  induction k with
  | zero => intro i now _; exact Nat.le_refl 20
  | succ k ih =>
    intro i now hik
    unfold find_id_loop
    split
    · omega
    · exact ih _ _ (by omega)

theorem find_id_le (sz : Int) : find_id sz ≤ 20 := find_id_loop_le sz 21 0 1 (by omega)

/-- The byte count that `mm_malloc` asks `extend_heap` for. -/
theorem growSize_extend (asize : Nat) (h16 : asize % 16 = 0) (h64 : asize < W64) :
    growSize (max asize CHUNKSIZE / WSIZE) = max asize 4096 := by
  have hW := W64_val
  have e : max asize CHUNKSIZE / WSIZE = max asize 4096 / 8 := rfl
  rw [e]
  unfold growSize
  have e8 : WSIZE = 8 := rfl
  rw [e8]
  have hm : max asize 4096 % 16 = 0 := by
    rcases le_total asize 4096 with h | h
    · rw [max_eq_right h]
    · rw [max_eq_left h]; exact h16
  have hm2 : max asize 4096 < W64 := by
    rcases le_total asize 4096 with h | h
    · rw [max_eq_right h]; omega
    · rw [max_eq_left h]; exact h64
  generalize max asize 4096 = x at hm hm2
  rw [if_neg (by omega), w64_eq _ (by omega)]
  omega

/-- `extend_heap` when the growth primitive fails. -/
theorem extend_heap_fail (s : Heap) (words : Nat) (h : ¬ s.brk + growSize words ≤ s.limit)
    (h63 : growSize words < 2 ^ 63) :
    extend_heap s words = (s, 0) := by
  have hsb : sbrk s (growSize words) = (s, NEG1) := by
    rw [sbrk_nonneg s _ h63, if_neg h]
  unfold extend_heap
  dsimp only
  rw [hsb]
  dsimp only
  rw [if_pos rfl]

/-- The loop of `mm_init` leaves the words below the slots it clears. -/
theorem init_buckets_below (base : Nat) : ∀ k i (m : Mem) (q : Nat),
    base + (i + k) * 8 < W64 → q + 8 ≤ base + i * 8 →
    GET (init_buckets m base k i) q = GET m q := by
  intro k
  induction k with
  | zero => intro i m q _ _; rfl
  | succ k ih =>
    intro i m q h64 hq
    unfold init_buckets
    have e8 : WSIZE = 8 := rfl
    rw [e8, ih (i + 1) _ q (by omega) (by omega), w64_eq _ (by omega),
      GET_PUT_ne _ _ _ _ (by omega)]

/-- The loop of `mm_init` clears the slots `i .. i + k - 1`. -/
theorem init_buckets_get (base : Nat) : ∀ k i (m : Mem), base + (i + k) * 8 < W64 →
    ∀ j, i ≤ j → j < i + k → GET (init_buckets m base k i) (base + 8 * j) = 0 := by
  intro k
  induction k with
  | zero => intro i m _ j h1 h2; omega
  | succ k ih =>
    intro i m h64 j h1 h2
    unfold init_buckets
    have e8 : WSIZE = 8 := rfl
    rw [e8]
    rcases Nat.eq_or_lt_of_le h1 with h3 | h3
    · rw [init_buckets_below base k (i + 1) _ _ (by omega) (by omega), w64_eq _ (by omega),
        ← h3, show base + 8 * i = base + i * 8 by omega,
        GET_PUT_eq_of_lt _ _ _ (by unfold W64; norm_num)]
    · exact ih (i + 1) _ (by omega) j (by omega) (by omega)

/-- The state that `mm_init` builds before it extends the heap: bucket table,
prologue and epilogue, and no block. -/
theorem mm_init_layout (m : Mem) (base : Nat) (h64 : base + 192 < W64) :
    (∀ i, i < 21 → GET (PUT (PUT (PUT (init_buckets m base 21 0) (base + 168) 17) (base + 176) 17)
      (base + 184) 1) (base + 8 * i) = 0) ∧
    GET (PUT (PUT (PUT (init_buckets m base 21 0) (base + 168) 17) (base + 176) 17)
      (base + 184) 1) (base + 168) = 17 ∧
    GET (PUT (PUT (PUT (init_buckets m base 21 0) (base + 168) 17) (base + 176) 17)
      (base + 184) 1) (base + 176) = 17 ∧
    GET (PUT (PUT (PUT (init_buckets m base 21 0) (base + 168) 17) (base + 176) 17)
      (base + 184) 1) (base + 184) = 1 := by
  have hW := W64_val
  have l17 : 17 < W64 := by omega
  have l1 : 1 < W64 := by omega
  refine ⟨?_, ?_, ?_, ?_⟩
  · intro i hi
    rw [GET_PUT_ne _ _ _ _ (by omega), GET_PUT_ne _ _ _ _ (by omega),
      GET_PUT_ne _ _ _ _ (by omega)]
    exact init_buckets_get base 21 0 m (by omega) i (by omega) (by omega)
  · rw [GET_PUT_ne _ _ _ _ (by omega), GET_PUT_ne _ _ _ _ (by omega), GET_PUT_eq_of_lt _ _ _ l17]
  · rw [GET_PUT_ne _ _ _ _ (by omega), GET_PUT_eq_of_lt _ _ _ l17]
  · rw [GET_PUT_eq_of_lt _ _ _ l1]

theorem mm_init_eq (s : Heap) (hlim : s.brk + 192 ≤ s.limit) (h64 : s.limit < W64) :
    mm_init s =
      (if (extend_heap (emptyHeap s) 512).2 = 0 then ((extend_heap (emptyHeap s) 512).1, -1)
       else ((extend_heap (emptyHeap s) 512).1, 0)) := by
  have hW := W64_val
  have hsb : sbrk s ((MAX_N + 3) * WSIZE) = ({ s with brk := s.brk + 192 }, s.brk) := by
    rw [sbrk_nonneg s _ (show (MAX_N + 3) * WSIZE < 2 ^ 63 by decide),
      if_pos (show s.brk + (MAX_N + 3) * WSIZE ≤ s.limit from hlim)]
    rfl
  have hne : s.brk ≠ NEG1 := by unfold NEG1; omega
  have hw1 : w64 (s.brk + MAX_N * WSIZE) = s.brk + 168 := w64_eq (s.brk + 168) (by omega)
  have hw2 : w64 (s.brk + (1 + MAX_N) * WSIZE) = s.brk + 176 := w64_eq (s.brk + 176) (by omega)
  have hw3 : w64 (s.brk + (2 + MAX_N) * WSIZE) = s.brk + 184 := w64_eq (s.brk + 184) (by omega)
  unfold mm_init
  dsimp only
  rw [hsb]
  dsimp only
  rw [if_neg hne]
  simp only [put_heap_listp, setMem_heap_listp, put_mem, setMem_mem, put_brk, setMem_brk,
    put_limit, setMem_limit, put_ptr, setMem_ptr, hw1, hw2, hw3]
  rfl

/-- The heap that `mm_init` builds before extending it is a heap with no
block and empty bucket lists. -/
theorem emptyHeap_rep (s : Heap) (hlim : s.brk + 192 ≤ s.limit) (h64 : s.limit < W64) :
    Rep (emptyHeap s) [] (fun _ => []) := by
  have hW := W64_val
  obtain ⟨h1, h2, h3, h4⟩ := mm_init_layout s.mem s.brk (by omega)
  refine ⟨⟨rfl, rfl, hlim, h64, h2, h3, h4, ?_⟩, ⟨fun i hi => h1 i hi, fun i hi => trivial,
    fun i hi => List.nodup_nil⟩, ?_⟩
  · intro b hb
    exact absurd hb (List.not_mem_nil b)
  · intro i hi x hx
    exact absurd hx (List.not_mem_nil x)

/-- Specification of `mm_init` on a heap with room for the bucket table and
the first chunk. -/
theorem mm_init_spec (s : Heap) (hlim : s.brk + 4288 ≤ s.limit) (h64 : s.limit < W64) :
    ∃ s' bs' F', mm_init s = (s', 0) ∧ Rep s' bs' F' ∧ Complete bs' F' ∧ Coalesced bs' ∧
      s'.ptr = s.brk ∧ s'.limit = s.limit ∧ s'.brk = s.brk + 4288 ∧
      ∀ x ∈ bs', x.al = false := by
  have hR := emptyHeap_rep s (by omega) h64
  obtain ⟨s', bs', F', r, he, hR', hC, hCo, hrm, hrf, hrs, q4, q3, q2, q1, hsame⟩ :=
    extend_heap_spec hR (fun b hb => absurd hb (List.not_mem_nil b))
      (fun x hx => absurd hx (List.not_mem_nil x)) 512 4096 rfl (by norm_num) (by norm_num)
      (show s.brk + 192 + 4096 ≤ s.limit by omega) (by norm_num)
  have fr := hR'.blocks.mem_facts hrm
  refine ⟨s', bs', F', ?_, hR', hC, hCo, q4, q2, by rw [q1]; show s.brk + 192 + 4096 = _; omega,
    ?_⟩
  · rw [mm_init_eq s (by omega) h64, he]
    dsimp only
    rw [if_neg (by omega)]
  · intro x hx
    cases hal : x.al
    · rfl
    · exact absurd ((hsame x hal).1 hx) (List.not_mem_nil x)

/-- When the growth primitive has room for the bucket table but not for the
first chunk, `mm_init` fails and leaves a heap with no block. -/
theorem mm_init_no_chunk (s : Heap) (hlim : s.brk + 192 ≤ s.limit)
    (hno : ¬ s.brk + 4288 ≤ s.limit) (h64 : s.limit < W64) :
    mm_init s = (emptyHeap s, -1) := by
  have he := extend_heap_fail (emptyHeap s) 512 (by
    show ¬ s.brk + 192 + 4096 ≤ s.limit
    omega) (by decide)
  rw [mm_init_eq s hlim h64, he]
  rfl

/-- `memcpy` copies the source bytes as they were before the call. -/
theorem memcpy_inside (m : Mem) (dst src k i : Nat) (h : i < k) :
    memcpy m dst src k (dst + i) = m (src + i) := by
  unfold memcpy
  rw [if_pos (by omega)]
  congr 1
  omega

/-- When the growth primitive has no room for the bucket table, `mm_init`
returns -1. -/
theorem mm_init_no_table (s : Heap) (h : ¬ s.brk + 192 ≤ s.limit) : (mm_init s).2 = -1 := by
  have hsb : sbrk s ((MAX_N + 3) * WSIZE) = (s, NEG1) := by
    rw [sbrk_nonneg s _ (show (MAX_N + 3) * WSIZE < 2 ^ 63 by decide),
      if_neg (show ¬ s.brk + (MAX_N + 3) * WSIZE ≤ s.limit from h)]
  unfold mm_init
  dsimp only
  rw [hsb]
  dsimp only
  rw [if_pos rfl]

/-- The loop of `find_id` from counter `i` on, when no power below `2^i` was
large enough. -/
theorem find_id_loop_spec (sz : Int) : ∀ k i, i + k = 21 → (∀ j, j < i → ¬ sz ≤ 2 ^ j) →
    find_id_loop sz k i (2 ^ i) < 21 ∧
    (sz ≤ 2 ^ 20 → sz ≤ 2 ^ find_id_loop sz k i (2 ^ i) ∧
      ∀ j, j < find_id_loop sz k i (2 ^ i) → ¬ sz ≤ 2 ^ j) ∧
    ((2 : Int) ^ 20 < sz → find_id_loop sz k i (2 ^ i) = 20) := by
  intro k
  induction k with
  | zero =>
    intro i hi hlow
    have e : find_id_loop sz 0 i (2 ^ i) = 20 := rfl
    rw [e]
    refine ⟨by omega, fun h => absurd h (hlow 20 (by omega)), fun _ => rfl⟩
  | succ k ih =>
    intro i hi hlow
    unfold find_id_loop
    by_cases h : sz ≤ 2 ^ i
    · rw [if_pos h]
      refine ⟨by omega, fun _ => ⟨h, hlow⟩, fun h2 => ?_⟩
      have : (2 : Int) ^ i ≤ 2 ^ 20 := pow_le_pow_right₀ (by norm_num) (by omega)
      omega
    · rw [if_neg h]
      have e : (2 : Int) ^ i * 2 = 2 ^ (i + 1) := (pow_succ 2 i).symm
      rw [e]
      refine ih (i + 1) (by omega) ?_
      intro j hj
      rcases Nat.lt_succ_iff_lt_or_eq.1 hj with h1 | h1
      · exact hlow j h1
      · rw [h1]; exact h

/-- Specification of `find_id`. -/
theorem find_id_spec (sz : Int) :
    find_id sz < 21 ∧
    (sz ≤ 2 ^ 20 → sz ≤ 2 ^ find_id sz ∧ ∀ j, j < find_id sz → ¬ sz ≤ 2 ^ j) ∧
    ((2 : Int) ^ 20 < sz → find_id sz = 20) := by
  have := find_id_loop_spec sz 21 0 rfl (fun j hj => absurd hj (Nat.not_lt_zero j))
  exact this

/-- The size-class function is monotone. -/
theorem find_id_mono (sz sz' : Int) (h : sz ≤ sz') : find_id sz ≤ find_id sz' := by
  obtain ⟨a1, a2, a3⟩ := find_id_spec sz
  obtain ⟨b1, b2, b3⟩ := find_id_spec sz'
  by_cases hb : sz' ≤ 2 ^ 20
  · obtain ⟨c1, c2⟩ := b2 hb
    obtain ⟨d1, d2⟩ := a2 (le_trans h hb)
    by_contra hlt
    exact d2 (find_id sz') (by omega) (le_trans h c1)
  · rw [b3 (by omega)]
    omega

/-! ### The adjusted request size -/

/-- The adjusted size of a request that does not wrap: 32 up to 16 bytes, and
above that the request rounded up to a multiple of 16, plus 16. -/
theorem adjust_eq (n : Nat) (hn : n + 31 < W64) :
    adjust n = if n ≤ 16 then 32 else 16 * ((n + 15) / 16) + 16 := by
  have hW := W64_val
  unfold adjust
  by_cases h : n ≤ 16
  · rw [if_pos (show n ≤ DSIZE from h), if_pos h]; rfl
  · rw [if_neg (show ¬ n ≤ DSIZE from h), if_neg h]
    have e1 : n + DSIZE + (DSIZE - 1) = n + 31 := rfl
    rw [e1, w64_eq _ hn]
    have e2 : DSIZE * ((n + 31) / DSIZE) = 16 * ((n + 31) / 16) := rfl
    rw [e2, w64_eq _ (by omega)]
    omega

/-- The adjusted size is a multiple of 16 below `2^64`, for every request. -/
theorem adjust_mod (n : Nat) : adjust n % 16 = 0 ∧ adjust n < W64 := by
  have hW := W64_val
  unfold adjust
  split
  · constructor
    · rfl
    · rw [hW]; decide
  · have e2 : ∀ x, w64 (DSIZE * x) = (16 * x) % 18446744073709551616 := fun x => rfl
    rw [e2]
    constructor
    · omega
    · omega

/-! ### Only the growth primitive moves the break -/

theorem insert_to_list_regs (s : Heap) (bp : Nat) : SameRegs s (insert_to_list s bp) := by
  unfold insert_to_list
  by_cases h : HEAD_PTR s (LIST_ID s.mem bp) = 0
  · simp only [h, if_true]
    exact ((SameRegs_put _ _ _).trans (SameRegs_setMem _ _)).trans (SameRegs_setMem _ _)
  · simp only [h, if_false]
    exact (((SameRegs_put _ _ _).trans (SameRegs_setMem _ _)).trans (SameRegs_setMem _ _)).trans
      (SameRegs_setMem _ _)

theorem delete_from_list_regs (s : Heap) (bp : Nat) : SameRegs s (delete_from_list s bp) := by
  unfold delete_from_list
  split
  · dsimp only
    split
    · exact (SameRegs_put _ _ _).trans (SameRegs_setMem _ _)
    · exact SameRegs_put _ _ _
  · dsimp only
    split
    · exact (SameRegs_setMem _ _).trans (SameRegs_setMem _ _)
    · exact SameRegs_setMem _ _

theorem SameRegs.ins {s x : Heap} (h : SameRegs s x) (bp : Nat) :
    SameRegs s (insert_to_list x bp) := h.trans (insert_to_list_regs x bp)

theorem SameRegs.del {s x : Heap} (h : SameRegs s x) (bp : Nat) :
    SameRegs s (delete_from_list x bp) := h.trans (delete_from_list_regs x bp)

theorem SameRegs.puts {s x : Heap} (h : SameRegs s x) (p v : Nat) :
    SameRegs s (x.put p v) := h.trans (SameRegs_put x p v)

theorem coalesce_regs_aux (s : Heap) (bp : Nat) (s' : Heap) (bp' : Nat)
    (hr : coalesce s bp = (s', bp')) : SameRegs s s' := by
  by_cases c1 : GET_ALLOC s.mem (FTRP s.mem (PREV_BLKP s.mem bp)) ≠ 0 ∧
      GET_ALLOC s.mem (HDRP (NEXT_BLKP s.mem bp)) ≠ 0
  · unfold coalesce at hr
    rw [if_pos c1] at hr
    rw [← (Prod.mk.inj hr).1]; exact SameRegs.refl s
  · by_cases c2 : GET_ALLOC s.mem (FTRP s.mem (PREV_BLKP s.mem bp)) ≠ 0 ∧
        ¬ GET_ALLOC s.mem (HDRP (NEXT_BLKP s.mem bp)) ≠ 0
    · unfold coalesce at hr
      rw [if_neg c1, if_pos c2] at hr
      rw [← (Prod.mk.inj hr).1]
      apply SameRegs.ins; apply SameRegs.puts; apply SameRegs.puts
      apply SameRegs.del; apply SameRegs.del
      exact SameRegs.refl s
    · by_cases c3 : ¬ GET_ALLOC s.mem (FTRP s.mem (PREV_BLKP s.mem bp)) ≠ 0 ∧
          GET_ALLOC s.mem (HDRP (NEXT_BLKP s.mem bp)) ≠ 0
      · unfold coalesce at hr
        rw [if_neg c1, if_neg c2, if_pos c3] at hr
        rw [← (Prod.mk.inj hr).1]
        apply SameRegs.ins; apply SameRegs.puts; apply SameRegs.puts
        apply SameRegs.del; apply SameRegs.del
        exact SameRegs.refl s
      · unfold coalesce at hr
        rw [if_neg c1, if_neg c2, if_neg c3] at hr
        rw [← (Prod.mk.inj hr).1]
        apply SameRegs.ins; apply SameRegs.puts; apply SameRegs.puts
        apply SameRegs.del; apply SameRegs.del; apply SameRegs.del
        exact SameRegs.refl s

theorem coalesce_regs (s : Heap) (bp : Nat) : SameRegs s (coalesce s bp).1 :=
  coalesce_regs_aux s bp _ _ rfl

theorem place_regs (s : Heap) (bp asize : Nat) : SameRegs s (place s bp asize) := by
  unfold place
  dsimp only
  by_cases c : 4 * WSIZE ≤ sub64 (GET_SIZE (delete_from_list s bp).mem (HDRP bp)) asize
  · rw [if_pos c]
    apply SameRegs.ins; apply SameRegs.puts; apply SameRegs.puts
    apply SameRegs.puts; apply SameRegs.puts; apply SameRegs.del
    exact SameRegs.refl s
  · rw [if_neg c]
    apply SameRegs.puts; apply SameRegs.puts; apply SameRegs.del
    exact SameRegs.refl s

/-- The call `extend_heap(words)` calls the growth primitive once, with
`growSize words` bytes; the break is the one this call leaves. -/
theorem extend_heap_regs_aux (s : Heap) (words : Nat) (s' : Heap) (p : Nat)
    (hr : extend_heap s words = (s', p)) :
    SameRegs (sbrk s (growSize words)).1 s' ∧
    ((sbrk s (growSize words)).2 = NEG1 → s' = (sbrk s (growSize words)).1 ∧ p = 0) := by
  unfold extend_heap at hr
  by_cases c : (sbrk s (growSize words)).2 = NEG1
  · rw [if_pos c] at hr
    obtain ⟨h1, h2⟩ := Prod.mk.inj hr
    rw [← h1, ← h2]
    exact ⟨SameRegs.refl _, fun _ => ⟨rfl, rfl⟩⟩
  · rw [if_neg c] at hr
    refine ⟨?_, fun h2 => absurd h2 c⟩
    refine SameRegs.trans ?_ (coalesce_regs_aux _ _ _ _ hr)
    apply SameRegs.ins; apply SameRegs.puts; apply SameRegs.puts; apply SameRegs.puts
    exact SameRegs.refl _

theorem extend_heap_regs (s : Heap) (words : Nat) :
    SameRegs (sbrk s (growSize words)).1 (extend_heap s words).1 ∧
    ((sbrk s (growSize words)).2 = NEG1 →
      extend_heap s words = ((sbrk s (growSize words)).1, 0)) := by
  obtain ⟨h1, h2⟩ := extend_heap_regs_aux s words _ _ rfl
  refine ⟨h1, fun h => ?_⟩
  obtain ⟨h3, h4⟩ := h2 h
  exact Prod.ext h3 h4

theorem sbrk_regs (s : Heap) (incr : Nat) (h63 : incr < 2 ^ 63) :
    (sbrk s incr).1.limit = s.limit ∧ (sbrk s incr).1.heap_listp = s.heap_listp ∧
    (sbrk s incr).1.ptr = s.ptr ∧
    (s.brk + incr ≤ s.limit → (sbrk s incr).1.brk = s.brk + incr) ∧
    (¬ s.brk + incr ≤ s.limit → sbrk s incr = (s, NEG1)) := by
  rw [sbrk_nonneg s incr h63]
  split
  · rename_i h
    exact ⟨rfl, rfl, rfl, fun _ => rfl, fun h2 => absurd h h2⟩
  · rename_i h
    exact ⟨rfl, rfl, rfl, fun h2 => absurd h2 h, fun _ => rfl⟩

/-- The byte count that `mm_malloc` asks `extend_heap` for, for every request. -/
theorem growSize_request (n : Nat) :
    growSize (max (adjust n) CHUNKSIZE / WSIZE) = max (adjust n) 4096 :=
  growSize_extend (adjust n) (adjust_mod n).1 (adjust_mod n).2

/-- When `find_fit` finds no block, `mm_malloc` extends the heap once, by
`max(asize, 4096)` bytes. -/
theorem mm_malloc_no_fit (fuel : Nat) (s : Heap) (n : Nat) (hinit : s.heap_listp ≠ 0)
    (hn : n ≠ 0) (h63 : adjust n < 2 ^ 63) (hfit : find_fit fuel s (adjust n) = some 0) :
    ∃ r, mm_malloc fuel s n = some r ∧
      r.1.brk = (sbrk s (max (adjust n) 4096)).1.brk ∧ r.1.limit = s.limit ∧
      (s.brk + max (adjust n) 4096 ≤ s.limit → r.1.brk = s.brk + max (adjust n) 4096) ∧
      (¬ s.brk + max (adjust n) 4096 ≤ s.limit → r = (s, 0)) := by
  have hg := growSize_request n
  obtain ⟨hE, hEf⟩ := extend_heap_regs s (max (adjust n) CHUNKSIZE / WSIZE)
  rw [hg] at hE hEf
  obtain ⟨k1, k2, k3, k4, k5⟩ := sbrk_regs s (max (adjust n) 4096) (max_lt h63 (by norm_num))
  have hbody : mm_malloc fuel s n = mm_malloc_body fuel s n := by
    unfold mm_malloc
    rw [if_neg hinit]
  rw [hbody]
  unfold mm_malloc_body
  rw [if_neg hn]
  dsimp only
  rw [hfit]
  dsimp only
  rw [if_neg (by simp)]
  generalize extend_heap s (max (adjust n) CHUNKSIZE / WSIZE) = e at hE hEf ⊢
  obtain ⟨e1, e2, e3, e4⟩ := hE
  by_cases h0 : e.2 = 0
  · rw [if_pos h0]
    refine ⟨(e.1, 0), rfl, e1, e2.trans k1, fun h => e1.trans (k4 h), fun h => ?_⟩
    have h5 := k5 h
    rw [h5] at hEf
    have := hEf rfl
    rw [this]
  · rw [if_neg h0]
    obtain ⟨p1, p2, p3, p4⟩ := place_regs e.1 e.2 (adjust n)
    refine ⟨_, rfl, p1.trans e1, p2.trans (e2.trans k1), fun h => (p1.trans e1).trans (k4 h),
      fun h => ?_⟩
    have h5 := k5 h
    rw [h5] at hEf
    have := hEf rfl
    rw [this] at h0
    exact absurd rfl h0

/-- The representation depends on the bucket lists with index below 21 only. -/
theorem Rep.congr {s : Heap} {bs : List Blk} {F G : Nat → List Nat} (h : Rep s bs F)
    (hG : ∀ i, i < 21 → G i = F i) : Rep s bs G := by
  refine ⟨h.blocks, ⟨fun i hi => ?_, fun i hi => ?_, fun i hi => ?_⟩, fun i hi x hx => ?_⟩
  · rw [hG i hi]; exact h.lists.head i hi
  · rw [hG i hi]; exact h.lists.seg i hi
  · rw [hG i hi]; exact h.lists.nodup i hi
  · rw [hG i hi] at hx; exact h.sound i hi x hx

/-- A block that fills a tiled extent is the only block of the tiling. -/
theorem Tiled_single {l : List Blk} {a e : Nat} (h : Tiled a l e) {r : Blk} (hr : r ∈ l)
    (hsz : e - a ≤ r.sz) : l = [r] ∧ r.bp = a ∧ a + r.sz = e := by
  obtain ⟨pre, post, rfl⟩ := List.append_of_mem hr
  have e1 : pre ++ r :: post = pre ++ [r] ++ post := by simp
  rw [e1] at h
  obtain ⟨a1, e2, t1, t2, t3⟩ := Tiled_split3 h
  obtain ⟨ha, he⟩ := Tiled_one t2
  have l1 := Tiled_le _ _ _ t1
  have l3 := Tiled_le _ _ _ t3
  have hpre : pre = [] := by
    by_contra hne
    have := Tiled_nonempty_lt t1 hne
    omega
  have hpost : post = [] := by
    by_contra hne
    have := Tiled_nonempty_lt t3 hne
    omega
  subst hpre
  subst hpost
  have t1' : a = a1 := t1
  have t3' : e2 = e := t3
  refine ⟨rfl, by omega, by omega⟩

/-- A duplicate-free list all of whose members are `x`, and which has `x`. -/
theorem list_eq_single {l : List Nat} {x : Nat} (hnd : l.Nodup) (hall : ∀ y ∈ l, y = x)
    (hx : x ∈ l) : l = [x] := by
  cases l with
  | nil => exact absurd hx (List.not_mem_nil x)
  | cons a t =>
    have ha := hall a (List.mem_cons_self _ _)
    subst ha
    cases t with
    | nil => rfl
    | cons b t' =>
      have hb := hall b (List.mem_cons_of_mem _ (List.mem_cons_self _ _))
      subst hb
      exact absurd (List.mem_cons_self _ _) (List.nodup_cons.1 hnd).1

theorem listIdOfSize_4096 : listIdOfSize 4096 = 12 := by decide!

/-- After a successful `mm_init` the heap consists of one free block of 4096
bytes, linked alone in bucket 12. -/
theorem mm_init_rep (s : Heap) (hlim : s.brk + 4288 ≤ s.limit) (h64 : s.limit < W64) :
    ∃ s', mm_init s = (s', 0) ∧
      Rep s' [⟨s.brk + 192, 4096, false⟩] (fun i => if i = 12 then [s.brk + 192] else []) ∧
      s'.ptr = s.brk ∧ s'.limit = s.limit ∧ s'.brk = s.brk + 4288 := by
  obtain ⟨s', bs', F', he, hR, hC, hCo, q1, q2, q3, hfree⟩ := mm_init_spec s hlim h64
  have hR0 := emptyHeap_rep s (by omega) h64
  obtain ⟨s2, bs2, F2, r, he2, hR2, hC2, -, hrm, hrf, hrs, p4, -, -, p1, -⟩ :=
    extend_heap_spec hR0 (fun b hb => absurd hb (List.not_mem_nil b))
      (fun x hx => absurd hx (List.not_mem_nil x)) 512 4096 rfl (by norm_num) (by norm_num)
      (show s.brk + 192 + 4096 ≤ s.limit by omega) (by norm_num)
  have fr := hR2.blocks.mem_facts hrm
  have hinit : mm_init s = (s2, 0) := by
    rw [mm_init_eq s (by omega) h64, he2]
    dsimp only
    rw [if_neg (by omega)]
  have ht := hR2.blocks.tiled
  have p1' : s2.brk = s.brk + 192 + 4096 := p1
  have p4' : s2.ptr = s.brk := p4
  rw [p1', p4'] at ht
  obtain ⟨hl, hbp, hsz⟩ := Tiled_single ht hrm (by omega)
  have hr : r = ⟨s.brk + 192, 4096, false⟩ := by
    cases r with
    | mk bp sz al =>
      have h1 : bp = s.brk + 192 := hbp
      have h2 : s.brk + 192 + sz = s.brk + 192 + 4096 := hsz
      have h3 : al = false := hrf
      have h2' : sz = 4096 := by omega
      rw [h1, h2', h3]
  rw [hr] at hl hrm
  rw [hl] at hR2 hC2
  have hin := hC2 ⟨s.brk + 192, 4096, false⟩ (List.mem_singleton_self _) rfl
  have hin' : s.brk + 192 ∈ F2 12 := by
    have := hin
    rw [show (Blk.mk (s.brk + 192) 4096 false).sz = 4096 from rfl, listIdOfSize_4096] at this
    exact this
  refine ⟨s2, hinit, hR2.congr ?_, p4, ?_, by rw [p1']⟩
  · intro i hi
    have hall : ∀ y ∈ F2 i, y = s.brk + 192 ∧ i = 12 := by
      intro y hy
      obtain ⟨b, hb, hb1, -, hb3⟩ := hR2.sound i hi y hy
      rw [List.mem_singleton] at hb
      rw [hb] at hb1 hb3
      exact ⟨hb1.symm, by
        rw [show (Blk.mk (s.brk + 192) 4096 false).sz = 4096 from rfl, listIdOfSize_4096] at hb3
        exact hb3.symm⟩
    by_cases h12 : i = 12
    · rw [if_pos h12, h12]
      exact (list_eq_single (hR2.lists.nodup 12 (by omega))
        (fun y hy => by
          obtain ⟨b, hb, hb1, -, -⟩ := hR2.sound 12 (by omega) y hy
          rw [List.mem_singleton] at hb
          rw [hb] at hb1
          exact hb1.symm) hin').symm
    · rw [if_neg h12]
      cases hF : F2 i with
      | nil => rfl
      | cons y t =>
        exact absurd (hall y (by rw [hF]; exact List.mem_cons_self _ _)).2 h12
  · have := mm_init_spec s hlim h64
    obtain ⟨s3, _, _, he3, -, -, -, -, k2, -⟩ := this
    have e3 : s3 = s2 := congrArg Prod.fst (he3.symm.trans hinit)
    rw [← e3]; exact k2

/-- The block before `b` in address order, as `coalesce` sees it. -/
theorem Rep.prev_view {s : Heap} {pre post : List Blk} {b : Blk} {F : Nat → List Nat}
    (h : Rep s (pre ++ b :: post) F) :
    (isFreeBlk pre.getLast? = false ∧ freeSz pre.getLast? = 0 ∧
      GET_ALLOC s.mem (FTRP s.mem (PREV_BLKP s.mem b.bp)) ≠ 0) ∨
    (∃ pre' a, pre = pre' ++ [a] ∧ a.al = false ∧ isFreeBlk pre.getLast? = true ∧
      freeSz pre.getLast? = a.sz ∧ pre.dropLast = pre') := by
  rcases List.eq_nil_or_concat pre with hp | ⟨pre', a, hp⟩
  · left
    obtain ⟨h1, -⟩ := h.blocks.prev_alloc (show pre ++ b :: post = pre ++ b :: post from rfl)
    subst hp
    exact ⟨rfl, rfl, by rw [h1 rfl]; decide⟩
  · rw [List.concat_eq_append] at hp
    subst hp
    have e1 : (pre' ++ [a]).getLast? = some a := by simp
    have e2 : (pre' ++ [a]).dropLast = pre' := by simp
    cases hal : a.al
    · right
      refine ⟨pre', a, rfl, hal, ?_, ?_, e2⟩
      · rw [e1]; show (!a.al) = true; rw [hal]; rfl
      · rw [e1]; show (if a.al then 0 else a.sz) = a.sz; rw [hal]; rfl
    · left
      obtain ⟨-, h2⟩ := h.blocks.prev_alloc
        (show pre' ++ [a] ++ b :: post = (pre' ++ [a]) ++ b :: post from rfl)
      obtain ⟨-, -, -, h6⟩ := h2 pre' a rfl
      refine ⟨?_, ?_, by rw [h6, hal]; decide⟩
      · rw [e1]; show (!a.al) = false; rw [hal]; rfl
      · rw [e1]; show (if a.al then 0 else a.sz) = 0; rw [hal]; rfl

/-- The block after `b` in address order, as `coalesce` sees it. -/
theorem Rep.next_view {s : Heap} {pre post : List Blk} {b : Blk} {F : Nat → List Nat}
    (h : Rep s (pre ++ b :: post) F) :
    (isFreeBlk post.head? = false ∧ freeSz post.head? = 0 ∧
      GET_ALLOC s.mem (HDRP (NEXT_BLKP s.mem b.bp)) ≠ 0) ∨
    (∃ c post', post = c :: post' ∧ c.al = false ∧ isFreeBlk post.head? = true ∧
      freeSz post.head? = c.sz ∧ post.tail = post') := by
  rcases post with _ | ⟨c, post'⟩
  · left
    obtain ⟨h1, -⟩ := h.blocks.next_alloc (show pre ++ [b] = pre ++ b :: [] from rfl)
    exact ⟨rfl, rfl, by rw [h1 rfl]; decide⟩
  · cases hal : c.al
    · right
      refine ⟨c, post', rfl, hal, ?_, ?_, rfl⟩
      · show (!c.al) = true; rw [hal]; rfl
      · show (if c.al then 0 else c.sz) = c.sz; rw [hal]; rfl
    · left
      obtain ⟨-, h2⟩ := h.blocks.next_alloc
        (show pre ++ b :: c :: post' = pre ++ b :: (c :: post') from rfl)
      obtain ⟨-, -, -, h6⟩ := h2 c post' rfl
      refine ⟨?_, ?_, by rw [h6, hal]; decide⟩
      · show (!c.al) = false; rw [hal]; rfl
      · show (if c.al then 0 else c.sz) = 0; rw [hal]; rfl

/-- A linked address lies outside a run of blocks exactly when it is the
address of none of them. -/
theorem Rep.listed_outside {s : Heap} {pre mid post : List Blk} {F : Nat → List Nat}
    (h : Rep s (pre ++ mid ++ post) F) {j z : Nat} (hj : j < 21) (hz : z ∈ F j) {a e : Nat}
    (hspan : ∀ a' e', Tiled a' mid e' → a' = a ∧ e' = e) :
    (z < a ∨ e ≤ z) ↔ ∀ m ∈ mid, z ≠ m.bp := by
  obtain ⟨a1, e1, hm, hpre, hmid, hpost⟩ := Tiled_parts h.blocks.tiled
  obtain ⟨ha, he⟩ := hspan a1 e1 hm
  subst ha
  subst he
  obtain ⟨x, hx, hx1, -⟩ := h.sound j hj z hz
  constructor
  · intro ho m hm'
    have := hmid m hm'
    omega
  · intro hne
    simp only [List.mem_append] at hx
    rcases hx with (hx | hx) | hx
    · have := hpre x hx; omega
    · exact absurd hx1.symm (hne x hx)
    · have := hpost x hx; omega

theorem Blk.eta_free {b : Blk} (hbf : b.al = false) : (⟨b.bp, b.sz, false⟩ : Blk) = b := by
  cases b
  simp only at hbf
  subst hbf
  rfl

/-- Outcome of `coalesce` on a free block `b` of a well-formed heap, stated on
the address-ordered list of blocks: the free ones among the two neighbours of
`b` are absorbed. -/
theorem coalesce_exact {s : Heap} {pre post : List Blk} {b : Blk} {F : Nat → List Nat}
    (h : Rep s (pre ++ b :: post) F) (hcomp : Complete (pre ++ b :: post) F)
    (hbf : b.al = false) :
    ∃ s' F', coalesce s b.bp = (s', b.bp - freeSz pre.getLast?) ∧
      Rep s' ((if isFreeBlk pre.getLast? then pre.dropLast else pre) ++
        ⟨b.bp - freeSz pre.getLast?, freeSz pre.getLast? + b.sz + freeSz post.head?, false⟩ ::
        (if isFreeBlk post.head? then post.tail else post)) F' ∧
      SameRegs s s' ∧
      (∀ j, j < 21 → ∀ z, z ∈ F' j ↔
        (z ∈ F j ∧ (z < b.bp - freeSz pre.getLast? ∨
          b.bp - freeSz pre.getLast? + (freeSz pre.getLast? + b.sz + freeSz post.head?) ≤ z)) ∨
        (j = listIdOfSize (freeSz pre.getLast? + b.sz + freeSz post.head?) ∧
          z = b.bp - freeSz pre.getLast?)) ∧
      (isFreeBlk pre.getLast? = false → isFreeBlk post.head? = false → s' = s) := by
  have hb : b ∈ pre ++ b :: post := List.mem_append_right _ (List.mem_cons_self _ _)
  have fb := h.blocks.mem_facts hb
  rcases h.prev_view with ⟨p1, p2, hpa⟩ | ⟨pre', a, rfl, haf, p1, p2, p3⟩
  · rcases h.next_view with ⟨n1, n2, hna⟩ | ⟨c, post', rfl, hcf, n1, n2, n3⟩
    · -- both neighbours allocated
      rw [p1, p2, n1, n2]
      simp only [Bool.false_eq_true, if_false, Nat.sub_zero, Nat.zero_add, Nat.add_zero]
      rw [Blk.eta_free hbf]
      have e2 : pre ++ b :: post = pre ++ [b] ++ post := by simp
      refine ⟨s, F, ?_, h, SameRegs.refl s, ?_, fun _ _ => rfl⟩
      · unfold coalesce
        rw [if_pos ⟨hpa, hna⟩]
      · intro j hj z
        constructor
        · intro hz
          by_cases hzb : z = b.bp
          · right
            refine ⟨?_, hzb⟩
            rw [hzb] at hz
            exact h.bucket_unique hj (listIdOfSize_lt _) hz (hcomp b hb hbf)
          · left
            refine ⟨hz, ?_⟩
            rw [e2] at h
            refine (h.listed_outside hj hz
              (fun a' e' hm => ⟨(Tiled_one hm).1, (Tiled_one hm).2⟩)).2 ?_
            intro m hm
            rw [List.mem_singleton] at hm
            rw [hm]
            exact hzb
        · rintro (⟨hz, -⟩ | ⟨hj', hz⟩)
          · exact hz
          · rw [hj', hz]
            exact hcomp b hb hbf
    · -- the next block is free
      rw [p1, p2, n1, n2, n3]
      simp only [Bool.false_eq_true, if_false, if_true, Nat.sub_zero, Nat.zero_add]
      obtain ⟨s', F', heq, hR, hS, hF⟩ := coalesce_next h hcomp hbf hcf hpa
      have e2 : pre ++ b :: c :: post' = pre ++ [b, c] ++ post' := by simp
      refine ⟨s', F', heq, hR, hS, ?_, fun _ hc => Bool.noConfusion hc⟩
      intro j hj z
      rw [hF j hj z]
      refine or_congr (and_congr_right ?_) Iff.rfl
      intro hz
      rw [e2] at h
      rw [h.listed_outside hj hz
        (fun a' e' hm => ⟨(Tiled_two hm).1, (Tiled_two hm).2.1⟩)]
      simp
  · have e3 : pre' ++ [a] ++ b :: post = pre' ++ a :: b :: post := by simp
    have hab : a.bp + a.sz = b.bp :=
      ((h.blocks.prev_alloc (show pre' ++ [a] ++ b :: post = (pre' ++ [a]) ++ b :: post
        from rfl)).2 pre' a rfl).2.1
    have hba : b.bp - a.sz = a.bp := by omega
    rcases h.next_view with ⟨n1, n2, hna⟩ | ⟨c, post', rfl, hcf, n1, n2, n3⟩
    · -- the previous block is free
      rw [p1, p2, p3, n1, n2, hba]
      simp only [Bool.false_eq_true, if_false, if_true, Nat.add_zero]
      rw [e3] at h hcomp
      obtain ⟨s', F', heq, hR, hS, hF⟩ := coalesce_prev h hcomp haf hbf hna
      have e2 : pre' ++ a :: b :: post = pre' ++ [a, b] ++ post := by simp
      refine ⟨s', F', heq, hR, hS, ?_, fun hc _ => Bool.noConfusion hc⟩
      intro j hj z
      rw [hF j hj z]
      refine or_congr (and_congr_right ?_) Iff.rfl
      intro hz
      rw [e2] at h
      rw [h.listed_outside hj hz
        (fun a' e' hm => ⟨(Tiled_two hm).1, (Tiled_two hm).2.1⟩)]
      simp
      tauto
    · -- both neighbours are free
      rw [p1, p2, p3, n1, n2, n3, hba]
      simp only [if_true]
      have e4 : pre' ++ [a] ++ b :: c :: post' = pre' ++ a :: b :: c :: post' := by simp
      rw [e4] at h hcomp
      obtain ⟨s', F', heq, hR, hS, hF⟩ := coalesce_both h hcomp haf hbf hcf
      have e2 : pre' ++ a :: b :: c :: post' = pre' ++ [a, b, c] ++ post' := by simp
      refine ⟨s', F', heq, hR, hS, ?_, fun hc _ => Bool.noConfusion hc⟩
      intro j hj z
      rw [hF j hj z]
      refine or_congr (and_congr_right ?_) Iff.rfl
      intro hz
      rw [e2] at h
      rw [h.listed_outside hj hz
        (fun a' e' hm => ⟨(Tiled_three hm).1, (Tiled_three hm).2.1⟩)]
      simp
      tauto

/-- Outcome of `place` on a linked block `b` that is large enough, stated on
the address-ordered list of blocks. -/
theorem place_exact {s : Heap} {pre post : List Blk} {b : Blk} {F : Nat → List Nat}
    (h : Rep s (pre ++ b :: post) F) (hl : b.bp ∈ F (listIdOfSize b.sz))
    (asize : Nat) (h32 : 32 ≤ asize) (h16 : asize % 16 = 0) (hfit : asize ≤ b.sz) :
    ∃ F', Rep (place s b.bp asize)
        (pre ++ (if 32 ≤ b.sz - asize
          then [⟨b.bp, asize, true⟩, ⟨b.bp + asize, b.sz - asize, false⟩]
          else [⟨b.bp, b.sz, true⟩]) ++ post) F' ∧
      SameRegs s (place s b.bp asize) ∧
      ∀ j, j < 21 → ∀ z, z ∈ F' j ↔ (z ∈ F j ∧ z ≠ b.bp) ∨
        (32 ≤ b.sz - asize ∧ j = listIdOfSize (b.sz - asize) ∧ z = b.bp + asize) := by
  have hW := W64_val
  have hb : b ∈ pre ++ b :: post := List.mem_append_right _ (List.mem_cons_self _ _)
  have fb := h.blocks.mem_facts hb
  have e1 : pre ++ b :: post = pre ++ [b] ++ post := by simp
  have g1 : sub64 b.sz asize = b.sz - asize := sub64_eq _ _ hfit (by omega)
  have g2 : 16 ≤ b.bp := by omega
  have g3 : b.bp + b.sz < W64 := by omega
  have g4 : asize % 2 = 0 := by omega
  have g5 : b.sz % 2 = 0 := by omega
  have g6 : 4 * WSIZE = 32 := rfl
  have g7 : b.sz % 16 = 0 := fb.2.2.2.1
  have g8 : 32 ≤ b.sz := fb.2.2.1
  clear hW fb
  obtain ⟨s1, F1, hs1, hR1, hS1, hF1⟩ := delete_mem h (listIdOfSize_lt _) hl
  have hnot1 : ∀ j, j < 21 → ∀ x ∈ F1 j, b.bp ≠ x := fun j hj x hx e =>
    ((hF1 j hj x).1 hx).2 e.symm
  have hR1' : Rep s1 (pre ++ [b] ++ post) F1 := e1 ▸ hR1
  have hsz1 := (hR1.blocks.hdr hb).2.2.1
  have hhd := (hR1.blocks.hdr hb).1
  by_cases hsp : 32 ≤ b.sz - asize
  · -- the block is split
    have hkb : asize + 32 ≤ b.sz := by omega
    have hR5 := Rep_split hR1' hnot1 asize h32 h16 hkb
    have hnot2 : b.bp + asize ∉ F1 (listIdOfSize (b.sz - asize)) := by
      intro hx
      obtain ⟨c, hc, hc1, -⟩ := h.sound _ (listIdOfSize_lt _) _
        ((hF1 _ (listIdOfSize_lt _) _).1 hx).1
      have fc := h.blocks.mem_facts hc
      rcases h.blocks.sep hc hb with e | e | e
      · rw [e] at hc1; omega
      · omega
      · omega
    obtain ⟨s6, F6, hs6, hR6, hS6, hF6⟩ := insert_mem hR5
      (b := ⟨b.bp + asize, b.sz - asize, false⟩)
      (List.mem_append_right _ (List.mem_cons_of_mem _ (List.mem_cons_self _ _))) rfl hnot2
    have hp : place s b.bp asize = s6 := by
      obtain ⟨r1, r2, r3, r4⟩ := place_reads s1.mem b.bp b.sz asize g2 h32 h16 hkb g7 g3
      unfold place
      dsimp only
      rw [hs1, hhd, hsz1, g1, g6, if_pos hsp, PACK_one asize g4, PACK_zero, put_mem, r1,
        put_mem, put_mem, r2, r3, put_mem, put_mem, put_mem, r4]
      exact hs6
    have e2 : pre ++ [(⟨b.bp, asize, true⟩ : Blk), ⟨b.bp + asize, b.sz - asize, false⟩] ++ post =
        pre ++ ⟨b.bp, asize, true⟩ :: ⟨b.bp + asize, b.sz - asize, false⟩ :: post := by simp
    rw [hp, if_pos hsp, e2]
    refine ⟨F6, hR6, hS1.trans (SameRegs.trans ⟨rfl, rfl, rfl, rfl⟩ hS6), ?_⟩
    intro j hj z
    rw [hF6 j hj z, hF1 j hj z]
    exact or_congr Iff.rfl ⟨fun hz => ⟨hsp, hz⟩, fun hz => hz.2⟩
  · -- the whole block is used
    have hR3 := Rep_retag_hf' hR1' (by simp)
      (fun j hj x hx c hc => by rw [List.mem_singleton] at hc; rw [hc]; exact hnot1 j hj x hx)
      b.bp b.sz true (fun a e ht => Tiled_one ht) (b.sz + 1) rfl
    have hp : place s b.bp asize =
        (s1.put (b.bp - 8) (b.sz + 1)).put (b.bp + b.sz - 16) (b.sz + 1) := by
      have r1 : FTRP (PUT s1.mem (b.bp - 8) (b.sz + 1)) b.bp = b.bp + b.sz - 16 :=
        FTRP_raw _ _ b.sz (GET_SIZE_of_tag _ _ b.sz 1
          (GET_PUT_eq_of_lt _ _ _ (by omega)) (by omega) (by omega)) (by omega) (by omega) g3
      unfold place
      dsimp only
      rw [hs1, hhd, hsz1, g1, g6, if_neg hsp, PACK_one b.sz g5, put_mem, r1]
    have e2 : pre ++ [(⟨b.bp, b.sz, true⟩ : Blk)] ++ post = pre ++ ⟨b.bp, b.sz, true⟩ :: post := by
      simp
    rw [hp, if_neg hsp, e2]
    refine ⟨F1, hR3, hS1.trans ⟨rfl, rfl, rfl, rfl⟩, ?_⟩
    intro j hj z
    rw [hF1 j hj z]
    exact ⟨fun hz => Or.inl hz, fun hz => hz.elim id (fun hc => absurd hc.1 hsp)⟩

/-- The walk of `find_fit` over one bucket list stops at the first block that
is large enough. -/
theorem find_fit_list_first (m : Mem) (asize : Nat) : ∀ (xs : List Nat) (p fuel : Nat),
    Seg m p xs 0 → (∀ x ∈ xs, x ≠ 0 ∧ x + 8 < W64) → xs.length < fuel →
    ∃ r, find_fit_list m asize fuel (xs.headD 0) = some r ∧
      ((r = 0 ∧ ∀ x ∈ xs, GET_SIZE m (HDRP x) < asize) ∨
       (r ≠ 0 ∧ asize ≤ GET_SIZE m (HDRP r) ∧ ∃ l1 l2, xs = l1 ++ r :: l2 ∧
          ∀ x ∈ l1, GET_SIZE m (HDRP x) < asize)) := by
  intro xs
  induction xs with
  | nil =>
    intro p fuel _ _ hf
    obtain ⟨f, rfl⟩ : ∃ f, fuel = f + 1 := ⟨fuel - 1, by simp at hf; omega⟩
    exact ⟨0, by simp [find_fit_list], Or.inl ⟨rfl, fun x hx => absurd hx (List.not_mem_nil x)⟩⟩
  | cons x xs ih =>
    intro p fuel hseg hx hf
    obtain ⟨f, rfl⟩ : ∃ f, fuel = f + 1 := ⟨fuel - 1, by simp at hf; omega⟩
    rw [Seg_cons] at hseg
    obtain ⟨hx0, hx8⟩ := hx x (List.mem_cons_self _ _)
    by_cases hfit : asize ≤ GET_SIZE m (HDRP x)
    · refine ⟨x, ?_, Or.inr ⟨hx0, hfit, [], xs, rfl, fun y hy => absurd hy (List.not_mem_nil y)⟩⟩
      show find_fit_list m asize (f + 1) x = some x
      unfold find_fit_list
      rw [if_neg hx0, if_pos hfit]
    · obtain ⟨r, hr, hr'⟩ := ih x f hseg.2.2 (fun y hy => hx y (List.mem_cons_of_mem _ hy))
        (by simp at hf; omega)
      refine ⟨r, ?_, ?_⟩
      · show find_fit_list m asize (f + 1) x = some r
        unfold find_fit_list
        rw [if_neg hx0, if_neg hfit]
        unfold SUCC
        rw [w64_eq _ hx8, hseg.2.1]
        exact hr
      · rcases hr' with ⟨h1, h2⟩ | ⟨h1, h2, l1, l2, h3, h4⟩
        · refine Or.inl ⟨h1, ?_⟩
          intro y hy
          rcases List.mem_cons.1 hy with e | e
          · rw [e]; exact Nat.lt_of_not_le hfit
          · exact h2 y e
        · refine Or.inr ⟨h1, h2, x :: l1, l2, by rw [h3]; rfl, ?_⟩
          intro y hy
          rcases List.mem_cons.1 hy with e | e
          · rw [e]; exact Nat.lt_of_not_le hfit
          · exact h4 y e

/-- The bucket loop of `find_fit` stops at the first block, in scan order,
that is large enough. -/
theorem find_fit_from_first {s : Heap} {bs : List Blk} {F : Nat → List Nat} (h : Rep s bs F)
    (asize fuel : Nat) (hfuel : ∀ i, i < 21 → (F i).length < fuel) :
    ∀ k id, id + k ≤ 21 → ∃ r, find_fit_from s asize fuel k id = some r ∧
      ((r = 0 ∧ ∀ i, id ≤ i → i < id + k → ∀ x ∈ F i, GET_SIZE s.mem (HDRP x) < asize) ∨
       (r ≠ 0 ∧ asize ≤ GET_SIZE s.mem (HDRP r) ∧ ∃ i l1 l2, id ≤ i ∧ i < id + k ∧
          F i = l1 ++ r :: l2 ∧ (∀ x ∈ l1, GET_SIZE s.mem (HDRP x) < asize) ∧
          ∀ j, id ≤ j → j < i → ∀ x ∈ F j, GET_SIZE s.mem (HDRP x) < asize)) := by
  have hW := W64_val
  have hl := h.blocks.lim
  have hl64 := h.blocks.lim64
  intro k
  induction k with
  | zero =>
    intro id _
    exact ⟨0, rfl, Or.inl ⟨rfl, fun i h1 h2 => absurd h2 (by omega)⟩⟩
  | succ k ih =>
    intro id hid
    have hi : id < 21 := by omega
    have hhead : HEAD_PTR s id = (F id).headD 0 := by
      unfold HEAD_PTR
      rw [HEAD_PTR_ADDR_eq h.blocks id hi]
      exact h.lists.head id hi
    obtain ⟨r, hr, hr'⟩ := find_fit_list_first s.mem asize (F id) _ fuel (h.lists.seg id hi)
      (fun x hx => by
        have := Sound.ne_zero h hi hx
        exact ⟨this.1, by omega⟩) (hfuel id hi)
    rw [← hhead] at hr
    rcases hr' with ⟨h1, h2⟩ | ⟨h1, h2, l1, l2, h3, h4⟩
    · subst h1
      obtain ⟨r2, hr2, hr2'⟩ := ih (id + 1) (by omega)
      refine ⟨r2, ?_, ?_⟩
      · unfold find_fit_from
        rw [hr]
        exact hr2
      · have hlow : ∀ j, id ≤ j → j < id + 1 → ∀ x ∈ F j, GET_SIZE s.mem (HDRP x) < asize := by
          intro j hj1 hj2 x hx
          have : j = id := by omega
          subst this
          exact h2 x hx
        rcases hr2' with ⟨g1, g2⟩ | ⟨g1, g2, i, m1, m2, g3, g4, g5, g6, g7⟩
        · refine Or.inl ⟨g1, ?_⟩
          intro i hi1 hi2 x hx
          by_cases hc : i < id + 1
          · exact hlow i hi1 hc x hx
          · exact g2 i (by omega) (by omega) x hx
        · refine Or.inr ⟨g1, g2, i, m1, m2, by omega, by omega, g5, g6, ?_⟩
          intro j hj1 hj2 x hx
          by_cases hc : j < id + 1
          · exact hlow j hj1 hc x hx
          · exact g7 j (by omega) hj2 x hx
    · obtain ⟨n, rfl⟩ : ∃ n, r = n + 1 := ⟨r - 1, by omega⟩
      refine ⟨n + 1, ?_, Or.inr ⟨h1, h2, id, l1, l2, le_refl _, by omega, h3, h4, ?_⟩⟩
      · unfold find_fit_from
        rw [hr]
        rfl
      · intro j hj1 hj2
        omega

/-- First fit: with enough fuel `find_fit` returns the first block, in scan
order from bucket `find_id asize`, whose size is at least `asize`, and null
exactly when there is none. -/
theorem find_fit_first {s : Heap} {bs : List Blk} {F : Nat → List Nat} (h : Rep s bs F)
    (asize fuel : Nat) (hfuel : ∀ i, i < 21 → (F i).length < fuel) :
    ∃ r, find_fit fuel s asize = some r ∧
      (r = 0 ↔ ∀ i, find_id (toInt32 asize) ≤ i → i < 21 → ∀ x ∈ F i,
        GET_SIZE s.mem (HDRP x) < asize) ∧
      (r ≠ 0 → asize ≤ GET_SIZE s.mem (HDRP r) ∧
        (∃ b ∈ bs, b.bp = r ∧ b.al = false ∧ asize ≤ b.sz) ∧
        ∃ i l1 l2, find_id (toInt32 asize) ≤ i ∧ i < 21 ∧ F i = l1 ++ r :: l2 ∧
          (∀ x ∈ l1, GET_SIZE s.mem (HDRP x) < asize) ∧
          ∀ j, find_id (toInt32 asize) ≤ j → j < i → ∀ x ∈ F j,
            GET_SIZE s.mem (HDRP x) < asize) := by
  have hle := find_id_le (toInt32 asize)
  have e : find_id (toInt32 asize) + (21 - find_id (toInt32 asize)) = 21 := by omega
  obtain ⟨r, hr, hr'⟩ := find_fit_from_first h asize fuel hfuel
    (MAX_N - find_id (toInt32 asize)) (find_id (toInt32 asize)) (by
      show find_id (toInt32 asize) + (21 - find_id (toInt32 asize)) ≤ 21
      omega)
  have e' : find_id (toInt32 asize) + (MAX_N - find_id (toInt32 asize)) = 21 := e
  rw [e'] at hr'
  refine ⟨r, hr, ?_, ?_⟩
  · constructor
    · intro h0
      rcases hr' with ⟨-, g2⟩ | ⟨g1, -⟩
      · exact g2
      · exact absurd h0 g1
    · intro hall
      rcases hr' with ⟨g1, -⟩ | ⟨-, g2, i, l1, l2, g3, g4, g5, -⟩
      · exact g1
      · have := hall i g3 g4 r (by rw [g5]; simp)
        omega
  · intro hne
    rcases hr' with ⟨g1, -⟩ | ⟨-, g2, i, l1, l2, g3, g4, g5, g6, g7⟩
    · exact absurd g1 hne
    · refine ⟨g2, ?_, i, l1, l2, g3, g4, g5, g6, g7⟩
      obtain ⟨b, hb, hb1, hb2, -⟩ := h.sound i g4 r (by rw [g5]; simp)
      refine ⟨b, hb, hb1, hb2, ?_⟩
      rw [← hb1, (h.blocks.hdr hb).1, (h.blocks.hdr hb).2.2.1] at g2
      exact g2

theorem absPush_eq (F : Nat → List Nat) (i b : Nat) :
    absPush F i b = Function.update F i (b :: F i) := by
  funext j
  unfold absPush Function.update
  by_cases h : j = i
  · subst h; simp
  · simp [h]

theorem absRemove_eq (F : Nat → List Nat) (i b : Nat) :
    absRemove F i b = Function.update F i ((F i).erase b) := by
  funext j
  unfold absRemove Function.update
  by_cases h : j = i
  · subst h; simp
  · simp [h]

/-- Following succ links along a list segment reads the segment. -/
theorem follow_seg (m : Mem) : ∀ (xs : List Nat) (p fuel : Nat),
    Seg m p xs 0 → (∀ x ∈ xs, x ≠ 0 ∧ x + 8 < W64) → xs.length < fuel →
    follow m fuel (xs.headD 0) = some xs := by
  intro xs
  induction xs with
  | nil =>
    intro p fuel _ _ hf
    obtain ⟨f, rfl⟩ : ∃ f, fuel = f + 1 := ⟨fuel - 1, by simp at hf; omega⟩
    simp [follow]
  | cons x xs ih =>
    intro p fuel hseg hx hf
    obtain ⟨f, rfl⟩ : ∃ f, fuel = f + 1 := ⟨fuel - 1, by simp at hf; omega⟩
    rw [Seg_cons] at hseg
    obtain ⟨hx0, hx8⟩ := hx x (List.mem_cons_self _ _)
    have := ih x f hseg.2.2 (fun y hy => hx y (List.mem_cons_of_mem _ hy))
      (by simp at hf; omega)
    show follow m (f + 1) x = some (x :: xs)
    unfold follow
    rw [if_neg hx0]
    unfold SUCC
    rw [w64_eq _ hx8, hseg.2.1, this]
    rfl

/-- The links along a list segment. -/
theorem Seg_links (m : Mem) : ∀ (xs : List Nat) (p : Nat),
    Seg m p xs 0 → (∀ x ∈ xs, x ≠ 0 ∧ x + 8 < W64) →
    (∀ x, xs.head? = some x → PRED m x = p) ∧
    (∀ x ∈ xs, SUCC m x ≠ 0 → PRED m (SUCC m x) = x) ∧
    (∀ x, xs.getLast? = some x → SUCC m x = 0) := by
  intro xs
  induction xs with
  | nil =>
    intro p _ _
    refine ⟨fun x hx => ?_, fun x hx => absurd hx (List.not_mem_nil x), fun x hx => ?_⟩
    · exact absurd hx (by simp)
    · exact absurd hx (by simp)
  | cons x xs ih =>
    intro p hseg hx
    rw [Seg_cons] at hseg
    obtain ⟨hx0, hx8⟩ := hx x (List.mem_cons_self _ _)
    obtain ⟨i1, i2, i3⟩ := ih x hseg.2.2 (fun y hy => hx y (List.mem_cons_of_mem _ hy))
    have hs : SUCC m x = xs.headD 0 := by
      unfold SUCC
      rw [w64_eq _ hx8, hseg.2.1]
    refine ⟨?_, ?_, ?_⟩
    · intro y hy
      simp only [List.head?_cons, Option.some.injEq] at hy
      rw [← hy]
      exact hseg.1
    · intro y hy hne
      rcases List.mem_cons.1 hy with e | e
      · rw [e] at hne ⊢
        rw [hs] at hne ⊢
        cases xs with
        | nil => exact absurd rfl hne
        | cons z zs => exact i1 z rfl
      · exact i2 y e hne
    · intro y hy
      cases xs with
      | nil =>
        simp only [List.getLast?_singleton, Option.some.injEq] at hy
        rw [← hy, hs]
        rfl
      | cons z zs =>
        rw [List.getLast?_cons_cons] at hy
        exact i3 y hy

/-- Reading a bucket of a well-formed heap by succ links gives its list. -/
theorem Rep.bucket_read {s : Heap} {bs : List Blk} {F : Nat → List Nat} (h : Rep s bs F)
    {i : Nat} (hi : i < 21) {fuel : Nat} (hf : (F i).length < fuel) :
    bucketSeq fuel s i = some (F i) := by
  have hW := W64_val
  have hl := h.blocks.lim
  have hl64 := h.blocks.lim64
  have hhead : HEAD_PTR s i = (F i).headD 0 := by
    unfold HEAD_PTR
    rw [HEAD_PTR_ADDR_eq h.blocks i hi]
    exact h.lists.head i hi
  unfold bucketSeq
  rw [hhead]
  exact follow_seg s.mem (F i) _ fuel (h.lists.seg i hi)
    (fun x hx => by
      have := Sound.ne_zero h hi hx
      exact ⟨this.1, by omega⟩) hf

/-- The buckets of a well-formed heap satisfy the link invariant. -/
theorem Rep.link_inv {s : Heap} {bs : List Blk} {F : Nat → List Nat} (h : Rep s bs F)
    {i : Nat} (hi : i < 21) : LinkInv s i (F i) := by
  have hW := W64_val
  have hl := h.blocks.lim
  have hl64 := h.blocks.lim64
  have := Seg_links s.mem (F i) _ (h.lists.seg i hi)
    (fun x hx => by
      have := Sound.ne_zero h hi hx
      exact ⟨this.1, by omega⟩)
  unfold LinkInv
  rw [HEAD_PTR_ADDR_eq h.blocks i hi]
  exact this

/-- The free-list store refines per-bucket sequences: `insert_to_list` of a
free block that is not linked is a push on the bucket of the block. -/
theorem insert_refines {s : Heap} {bs : List Blk} {F : Nat → List Nat} (h : Rep s bs F)
    {b : Blk} (hb : b ∈ bs) (hbf : b.al = false) (hnot : b.bp ∉ F (LIST_ID s.mem b.bp))
    {j : Nat} (hj : j < 21) {fuel : Nat} (hf : (F j).length + 1 < fuel) :
    bucketSeq fuel (insert_to_list s b.bp) j = some (absPush F (LIST_ID s.mem b.bp) b.bp j) ∧
    LinkInv (insert_to_list s b.bp) j (absPush F (LIST_ID s.mem b.bp) b.bp j) := by
  have hid := LIST_ID_eq h.blocks hb
  rw [hid] at hnot ⊢
  obtain ⟨hRi, -⟩ := insert_spec h hb hbf _ rfl hnot
  rw [← absPush_eq] at hRi
  refine ⟨hRi.bucket_read hj ?_, hRi.link_inv hj⟩
  unfold absPush
  split
  · next e => rw [e] at hf; simpa using hf
  · omega

/-- The free-list store refines per-bucket sequences: `delete_from_list` of a
linked block erases it from its bucket. -/
theorem delete_refines {s : Heap} {bs : List Blk} {F : Nat → List Nat} (h : Rep s bs F)
    {x i : Nat} (hi : i < 21) (hx : x ∈ F i) :
    LIST_ID s.mem x = i ∧
    ∀ j, j < 21 → ∀ fuel, (F j).length < fuel →
      bucketSeq fuel (delete_from_list s x) j = some (absRemove F i x j) ∧
      LinkInv (delete_from_list s x) j (absRemove F i x j) := by
  obtain ⟨hRd, -⟩ := delete_spec h hi hx
  rw [← absRemove_eq] at hRd
  refine ⟨?_, ?_⟩
  · obtain ⟨c, hc, hc1, -, hc3⟩ := h.sound i hi x hx
    rw [← hc1, LIST_ID_eq h.blocks hc]
    exact hc3
  · intro j hj fuel hf
    refine ⟨hRd.bucket_read hj ?_, hRd.link_inv hj⟩
    unfold absRemove
    split
    · next e =>
      rw [e] at hf
      exact lt_of_le_of_lt (List.length_erase_le _ _) hf
    · exact hf

theorem heap1_rep : Rep heap1 [⟨4288, 4096, false⟩] (fun i => if i = 12 then [4288] else []) := by
  obtain ⟨s', he, hR, -⟩ := mm_init_rep heap0 (by decide) (by decide)
  have e : heap1 = s' := congrArg Prod.fst he
  rw [e]
  exact hR

theorem heap1_complete :
    Complete [⟨4288, 4096, false⟩] (fun i => if i = 12 then [4288] else []) := by
  intro b hb _
  rw [List.mem_singleton] at hb
  rw [hb]
  show 4288 ∈ (fun i => if i = 12 then [4288] else []) (listIdOfSize 4096)
  rw [listIdOfSize_4096]
  simp

theorem heap1_coalesced : Coalesced [⟨4288, 4096, false⟩] := by
  intro x hx y hy hxy
  rw [List.mem_singleton] at hx hy
  rw [hx, hy] at hxy
  exact absurd hxy (by decide)

theorem listIdOfSize_2032 : listIdOfSize 2032 = 11 := by decide!

theorem listIdOfSize_2064 : listIdOfSize 2064 = 11 := by decide!

theorem heapW_rep :
    Rep heapW [⟨4288, 2032, false⟩, ⟨6320, 2064, false⟩]
      (fun i => if i = 11 then [6320] else []) := by
  obtain ⟨F', hR, -, hF⟩ := place_exact
    (show Rep heap1 ([] ++ (⟨4288, 4096, false⟩ : Blk) :: []) _ from heap1_rep)
    (by
      show 4288 ∈ (fun i => if i = 12 then [4288] else []) (listIdOfSize 4096)
      rw [listIdOfSize_4096]
      simp) 2032 (by decide) (by decide) (by decide)
  have hsp : 32 ≤ (⟨4288, 4096, false⟩ : Blk).sz - 2032 := by decide
  rw [if_pos hsp] at hR
  have hF' : ∀ j, j < 21 → ∀ z, z ∈ F' j ↔ j = 11 ∧ z = 6320 := by
    intro j hj z
    rw [hF j hj z]
    constructor
    · rintro (⟨h1, h2⟩ | ⟨-, h2, h3⟩)
      · exfalso
        by_cases h12 : j = 12
        · simp only [h12, if_true, List.mem_singleton] at h1
          exact h2 h1
        · simp only [h12, if_false, List.not_mem_nil] at h1
      · refine ⟨?_, h3⟩
        rw [h2]
        exact listIdOfSize_2064
    · rintro ⟨h1, h2⟩
      exact Or.inr ⟨hsp, by rw [h1]; exact listIdOfSize_2064.symm, h2⟩
  have hnot : ∀ j, j < 21 → ∀ x ∈ F' j, ∀ b ∈ [(⟨4288, 2032, true⟩ : Blk)], b.bp ≠ x := by
    intro j hj x hx b hb
    rw [List.mem_singleton] at hb
    rw [hb, ((hF' j hj x).1 hx).2]
    decide
  have hR1 : Rep (place heap1 4288 2032)
      ([] ++ [(⟨4288, 2032, true⟩ : Blk)] ++ [⟨6320, 2064, false⟩]) F' := hR
  have hR2 := Rep_retag_hf' hR1 (by simp) hnot 4288 2032 false
    (fun a e ht => Tiled_one ht) 2032 rfl
  refine Rep.congr hR2 ?_
  intro i hi
  by_cases h11 : i = 11
  · rw [if_pos h11, h11]
    exact (list_eq_single (hR2.lists.nodup 11 (by omega))
      (fun y hy => ((hF' 11 (by omega) y).1 hy).2) ((hF' 11 (by omega) 6320).2 ⟨rfl, rfl⟩)).symm
  · rw [if_neg h11]
    cases hc : F' i with
    | nil => rfl
    | cons y t => exact absurd ((hF' i hi y).1 (by rw [hc]; exact List.mem_cons_self _ _)).1 h11

theorem heapX_rep :
    Rep heapX [⟨4288, 2032, false⟩, ⟨6320, 2064, false⟩]
      (fun i => if i = 11 then [4288, 6320] else []) := by
  obtain ⟨hR, -⟩ := insert_spec heapW_rep (b := ⟨4288, 2032, false⟩) (by simp) rfl 11
    listIdOfSize_2032 (by simp)
  refine Rep.congr hR ?_
  intro i _
  by_cases h0 : i = 11
  · subst h0
    simp
  · simp [Function.update, h0]

theorem heapX_complete :
    Complete [⟨4288, 2032, false⟩, ⟨6320, 2064, false⟩]
      (fun i => if i = 11 then [4288, 6320] else []) := by
  intro b hb _
  simp only [List.mem_cons, List.mem_singleton, List.not_mem_nil, or_false] at hb
  rcases hb with rfl | rfl
  · show 4288 ∈ (fun i => if i = 11 then [4288, 6320] else []) (listIdOfSize 2032)
    rw [listIdOfSize_2032]
    simp
  · show 6320 ∈ (fun i => if i = 11 then [4288, 6320] else []) (listIdOfSize 2064)
    rw [listIdOfSize_2064]
    simp

/-- After `mm_init`: the bucket table, the prologue, one free block of 4096
bytes linked alone in its bucket, and the epilogue; or the result -1. -/
theorem mm_init_exact (s : Heap) (h64 : s.limit < W64) :
    (s.brk + 4288 ≤ s.limit → ∃ s', mm_init s = (s', 0) ∧
      s'.ptr = s.brk ∧ s'.heap_listp = s.brk + 176 ∧ s'.brk = s.brk + 4288 ∧
      (∀ i, i < 21 → HEAD_PTR s' i = if i = 12 then s.brk + 192 else 0) ∧
      GET s'.mem (s.brk + 168) = PACK 16 1 ∧ GET s'.mem (s.brk + 176) = PACK 16 1 ∧
      GET s'.mem (HDRP (s.brk + 192)) = PACK 4096 0 ∧
      GET s'.mem (FTRP s'.mem (s.brk + 192)) = PACK 4096 0 ∧
      NEXT_BLKP s'.mem (s.brk + 192) = s'.brk ∧
      GET s'.mem (HDRP s'.brk) = PACK 0 1 ∧
      LIST_ID s'.mem (s.brk + 192) = 12 ∧
      PRED s'.mem (s.brk + 192) = HEAD_PTR_ADDR s' 12 ∧ SUCC s'.mem (s.brk + 192) = 0 ∧
      Rep s' [⟨s.brk + 192, 4096, false⟩] (fun i => if i = 12 then [s.brk + 192] else [])) ∧
    (¬ s.brk + 4288 ≤ s.limit → (mm_init s).2 = -1) := by
  have hW := W64_val
  constructor
  · intro hlim
    obtain ⟨s', he, hR, q1, q2, q3⟩ := mm_init_rep s hlim h64
    have hb : (⟨s.brk + 192, 4096, false⟩ : Blk) ∈ [(⟨s.brk + 192, 4096, false⟩ : Blk)] :=
      List.mem_singleton_self _
    obtain ⟨a1, a2, a3, a4⟩ := hR.blocks.hdr hb
    obtain ⟨b1, b2, b3, b4⟩ := hR.blocks.ftr hb
    obtain ⟨l1, l2, l3⟩ := hR.link_inv (show 12 < 21 by decide)
    have hnx := (hR.blocks.next hb)
    have hlid := LIST_ID_eq hR.blocks hb
    have hepi := hR.blocks.epi
    have hhd : HDRP s'.brk = s'.brk - 8 := HDRP_eq _ (by omega) (by omega)
    refine ⟨s', he, q1, ?_, q3, ?_, ?_, ?_, ?_, ?_, ?_, ?_, ?_, ?_, ?_, hR⟩
    · rw [hR.blocks.hlp, q1]
    · intro i hi
      unfold HEAD_PTR
      rw [HEAD_PTR_ADDR_eq hR.blocks i hi, hR.lists.head i hi]
      by_cases h12 : i = 12
      · simp [h12]
      · simp [h12]
    · rw [← q1]; exact hR.blocks.pro1
    · rw [← q1]; exact hR.blocks.pro2
    · rw [a1]; exact a2.trans (show 4096 + 0 = PACK 4096 0 by decide)
    · rw [b1]; exact b2.trans (show 4096 + 0 = PACK 4096 0 by decide)
    · rw [q3]; exact hnx
    · rw [hhd]; exact hepi
    · rw [hlid]; exact listIdOfSize_4096
    · exact l1 _ rfl
    · exact l3 _ rfl
  · intro hno
    by_cases h1 : s.brk + 192 ≤ s.limit
    · rw [mm_init_no_chunk s h1 hno h64]
    · exact mm_init_no_table s h1

end MM

/-! # Claims C11 to C25 -/

namespace MM

/-! ## C11 -/

/-- C12 (failing run): on the fresh heap, `mm_malloc(4064)` returns 4288 and
`p = mm_malloc(8192)` returns 8384 with the break at 16592; the adjusted size
is 8208. After `mm_free(p)` the block at `p` is free with size 8208, yet
`find_fit` returns null for 8208, and the second `mm_malloc(8192)` returns
`p` again after moving the break from 16592 to 24800. -/
theorem C12_reuse_after_free_grows_heap :
    (mm_malloc 3 heap1 4064).bind (fun r1 => (mm_malloc 3 r1.1 8192).map (fun r2 =>
        (r1.2, r2.2, r2.1.brk, adjust 8192, GET (mm_free r2.1 r2.2).mem (HDRP r2.2))))
      = some (4288, 8384, 16592, 8208, 8208) ∧
    (mm_malloc 3 heap1 4064).bind (fun r1 => (mm_malloc 3 r1.1 8192).bind (fun r2 =>
      (mm_malloc 3 (mm_free r2.1 r2.2) 8192).map (fun r4 =>
        (find_fit 3 (mm_free r2.1 r2.2) (adjust 8192), (mm_free r2.1 r2.2).brk, r4.2,
          r4.1.brk))))
      = some (some 0, 16592, 8384, 24800) ∧
    (mm_malloc 3 heap1 4064).bind (fun r1 => (mm_malloc 3 r1.1 8192).map (fun r2 =>
        (LIST_ID (mm_free r2.1 r2.2).mem r2.2, HEAD_PTR (mm_free r2.1 r2.2) 13,
          find_id (toInt32 (adjust 8192)))))
      = some (13, 8384, 14) := by decide!

/-! ## C13 -/

/-- C13 (failing run): with `N = 2` and `S = 2^30` on a fresh heap whose limit
is `2^33`, the two blocks are at 4288 and 1073746128. After both are freed the
heap is one free block of 2147487776 bytes at 4288, which `LIST_ID` files in
bucket 0; `find_fit` for the adjusted size starts at bucket 20 and returns
null, and the further `mm_malloc(S)` moves the break from 2147492064 to
3221233904. -/
theorem C13_freed_space_not_found_beyond_int_range :
    (mm_malloc 3 heapBig 1073741824).bind (fun r1 =>
      (mm_malloc 3 r1.1 1073741824).map (fun r2 =>
        (r1.2, r2.2, GET (mm_free (mm_free r2.1 r1.2) r2.2).mem (HDRP 4288),
          LIST_ID (mm_free (mm_free r2.1 r1.2) r2.2).mem 4288,
          HEAD_PTR (mm_free (mm_free r2.1 r1.2) r2.2) 0)))
      = some (4288, 1073746128, 2147487776, 0, 4288) ∧
    (mm_malloc 3 heapBig 1073741824).bind (fun r1 =>
      (mm_malloc 3 r1.1 1073741824).bind (fun r2 =>
        (mm_malloc 3 (mm_free (mm_free r2.1 r1.2) r2.2) 1073741824).map (fun r4 =>
          (find_id (toInt32 (adjust 1073741824)),
            find_fit 3 (mm_free (mm_free r2.1 r1.2) r2.2) (adjust 1073741824),
            (mm_free (mm_free r2.1 r1.2) r2.2).brk, r4.2, r4.1.brk))))
      = some (20, some 0, 2147492064, 4288, 3221233904) := by decide!

/-! ## C14 -/

/-- C14 (counterexample): on the fresh heap `heap0`, where `mm_init` has not
run and the break is at 4096, `mm_malloc(5000)` first runs `mm_init`, which
calls the growth primitive twice (192 bytes, then 4096 bytes: break 8384);
`find_fit` then finds no block for the adjusted size 5024, and `extend_heap`
calls the growth primitive a third time. The call returns 4288 with the break
at 13408: the heap extent has grown by 9312 bytes, not by 5024. -/
theorem C14_first_call_grows_heap_three_times :
    heap0.heap_listp = 0 ∧ heap0.brk = 4096 ∧ (mm_init heap0).1.brk = 8384 ∧
    adjust 5000 = 5024 ∧ find_fit 3 (mm_init heap0).1 (adjust 5000) = some 0 ∧
    (mm_malloc 3 heap0 5000).map (fun r => (r.2, r.1.brk)) = some (4288, 13408) := by
  decide!

/-- C14 (amended): on a well-formed heap (initialised, with boundary tags and
bucket lists intact: `Rep`), for a request `n > 0` whose adjusted size
`asize = adjust n` is below `2^63`, when `find_fit` returns null for `asize`,
`mm_malloc` returns, the number of bytes that `extend_heap` passes to the
growth primitive is `max(asize, 4096)`, and the break afterwards is the break
after that single `sbrk` call: it has moved by `max(asize, 4096)` when the call
succeeds (by exactly `asize` when `asize > 4096`), and the heap is unchanged
and null is returned when it fails. -/
theorem C14_no_fit_grows_once_by_max_asize_chunk (fuel : Nat) (s : Heap) (bs : List Blk)
    (F : Nat → List Nat) (n : Nat) (h : Rep s bs F) (hn : n ≠ 0) (h63 : adjust n < 2 ^ 63)
    (hfit : find_fit fuel s (adjust n) = some 0) :
    growSize (max (adjust n) CHUNKSIZE / WSIZE) = max (adjust n) 4096 ∧
    ∃ r, mm_malloc fuel s n = some r ∧
      r.1.brk = (sbrk s (max (adjust n) 4096)).1.brk ∧ r.1.limit = s.limit ∧
      (s.brk + max (adjust n) 4096 ≤ s.limit → r.1.brk = s.brk + max (adjust n) 4096) ∧
      (4096 < adjust n → s.brk + adjust n ≤ s.limit → r.1.brk = s.brk + adjust n) ∧
      (¬ s.brk + max (adjust n) 4096 ≤ s.limit → r = (s, 0)) := by
  have hinit : s.heap_listp ≠ 0 := by
    have := h.blocks.hlp
    omega
  obtain ⟨r, h1, h2, h3, h4, h5⟩ := mm_malloc_no_fit fuel s n hinit hn h63 hfit
  refine ⟨growSize_request n, r, h1, h2, h3, h4, ?_, h5⟩
  intro hbig hlim
  have e : max (adjust n) 4096 = adjust n := max_eq_left (by omega)
  rw [e] at h4
  exact h4 hlim

/-- Witness of `C14_no_fit_grows_once_by_max_asize_chunk`: a request of 5000
bytes on the initialised heap `heap1`, whose only free block has 4096 bytes;
the break moves from 8384 by the adjusted size 5024. -/
theorem C14_no_fit_grows_once_by_max_asize_chunk_witness :
    Rep heap1 [⟨4288, 4096, false⟩] (fun i => if i = 12 then [4288] else []) ∧
    (5000 : Nat) ≠ 0 ∧ adjust 5000 < 2 ^ 63 ∧
    find_fit 3 heap1 (adjust 5000) = some 0 ∧
    growSize (max (adjust 5000) CHUNKSIZE / WSIZE) = max (adjust 5000) 4096 ∧
    ∃ r, mm_malloc 3 heap1 5000 = some r ∧
      r.1.brk = (sbrk heap1 (max (adjust 5000) 4096)).1.brk ∧ r.1.limit = heap1.limit ∧
      (heap1.brk + max (adjust 5000) 4096 ≤ heap1.limit →
        r.1.brk = heap1.brk + max (adjust 5000) 4096) ∧
      (4096 < adjust 5000 → heap1.brk + adjust 5000 ≤ heap1.limit →
        r.1.brk = heap1.brk + adjust 5000) ∧
      (¬ heap1.brk + max (adjust 5000) 4096 ≤ heap1.limit → r = (heap1, 0)) :=
  have h2 : (5000 : Nat) ≠ 0 := by decide
  have h3 : adjust 5000 < 2 ^ 63 := by decide
  have h4 : find_fit 3 heap1 (adjust 5000) = some 0 := by decide!
  ⟨heap1_rep, h2, h3, h4,
    C14_no_fit_grows_once_by_max_asize_chunk 3 heap1 _ _ 5000 heap1_rep h2 h3 h4⟩

/-! ## C15 -/

/-- C15: for a heap whose limit is an address (below `2^64`): when there is
room for both growth calls (192 bytes for the table and the prologue, then
4096 bytes), `mm_init` returns 0 and leaves the bucket table at the old break,
the prologue header and footer `PACK(16, 1)`, one free block at `brk + 192`
with header and footer `PACK(4096, 0)`, followed by the epilogue header
`PACK(0, 1)` in the last word below the new break; slot 12, the bucket of that
block, holds its address, the block's pred is the slot and its succ is null,
and the other 20 slots are null. When there is no room for both calls,
`mm_init` returns -1. -/
theorem C15_mm_init_layout (s : Heap) (h64 : s.limit < W64) :
    (s.brk + 4288 ≤ s.limit → ∃ s', mm_init s = (s', 0) ∧
      s'.ptr = s.brk ∧ s'.heap_listp = s.brk + 176 ∧ s'.brk = s.brk + 4288 ∧
      (∀ i, i < 21 → HEAD_PTR s' i = if i = 12 then s.brk + 192 else 0) ∧
      GET s'.mem (s.brk + 168) = PACK 16 1 ∧ GET s'.mem (s.brk + 176) = PACK 16 1 ∧
      GET s'.mem (HDRP (s.brk + 192)) = PACK 4096 0 ∧
      GET s'.mem (FTRP s'.mem (s.brk + 192)) = PACK 4096 0 ∧
      NEXT_BLKP s'.mem (s.brk + 192) = s'.brk ∧
      GET s'.mem (HDRP s'.brk) = PACK 0 1 ∧
      LIST_ID s'.mem (s.brk + 192) = 12 ∧
      PRED s'.mem (s.brk + 192) = HEAD_PTR_ADDR s' 12 ∧ SUCC s'.mem (s.brk + 192) = 0 ∧
      Rep s' [⟨s.brk + 192, 4096, false⟩] (fun i => if i = 12 then [s.brk + 192] else [])) ∧
    (¬ s.brk + 4288 ≤ s.limit → (mm_init s).2 = -1) :=
  mm_init_exact s h64

/-- Witness of `C15_mm_init_layout` on the fresh heap `heap0`, where both
growth calls succeed. -/
theorem C15_mm_init_layout_witness :
    heap0.limit < W64 ∧ heap0.brk + 4288 ≤ heap0.limit ∧
    ∃ s', mm_init heap0 = (s', 0) ∧ s'.brk = heap0.brk + 4288 ∧
      (∀ i, i < 21 → HEAD_PTR s' i = if i = 12 then heap0.brk + 192 else 0) ∧
      GET s'.mem (HDRP (heap0.brk + 192)) = PACK 4096 0 :=
  have h1 : heap0.limit < W64 := by decide
  have h2 : heap0.brk + 4288 ≤ heap0.limit := by decide
  ⟨h1, h2, ((C15_mm_init_layout heap0 h1).1 h2).elim
    (fun s' h => ⟨s', h.1, h.2.2.2.1, h.2.2.2.2.1, h.2.2.2.2.2.2.2.1⟩)⟩

/-! ## C16 -/

/-- C16 (failing run): after `mm_malloc(4032)` on the fresh heap the remainder
at 8336 is a free block of 48 bytes, linked as the head of bucket 5
(`find_id(48 - 31) = 5`). For the adjusted size `a = 48` the scan of
`find_fit` starts at bucket `find_id(48) = 6` and returns null although that
block has size 48, and `mm_malloc(32)`, whose adjusted size is 48, moves the
break from 8384 to 12480. -/
theorem C16_fitting_block_in_lower_bucket_is_missed :
    (mm_malloc 3 heap1 4032).map (fun r1 =>
      (r1.2, GET r1.1.mem (HDRP 8336), LIST_ID r1.1.mem 8336, HEAD_PTR r1.1 5,
        find_id (toInt32 48)))
      = some (4288, 48, 5, 8336, 6) ∧
    (mm_malloc 3 heap1 4032).bind (fun r1 => (mm_malloc 3 r1.1 32).map (fun r2 =>
      (find_fit 3 r1.1 48, adjust 32, r1.1.brk, r2.2, r2.1.brk)))
      = some (some 0, 48, 8384, 8336, 12480) := by decide!

/-! ## C17 -/

/-- C17 (counterexample): requests of 17 and of 32 bytes get the adjusted size
48, not 32. -/
theorem C17_requests_above_16_get_48 : adjust 17 = 48 ∧ adjust 32 = 48 := by decide

/-- C17 (amended): for a request `n` of at most `2^64 - 32` bytes the adjusted
size is 32 when `n ≤ 16` and otherwise `n` rounded up to a multiple of 16,
plus 16. -/
theorem C17_adjusted_size (n : Nat) (hn : n + 31 < W64) :
    adjust n = if n ≤ 16 then 32 else 16 * ((n + 15) / 16) + 16 :=
  adjust_eq n hn

/-- Witness of `C17_adjusted_size` for a request of 100 bytes. -/
theorem C17_adjusted_size_witness :
    100 + 31 < W64 ∧ adjust 100 = if 100 ≤ 16 then 32 else 16 * ((100 + 15) / 16) + 16 :=
  ⟨by decide, C17_adjusted_size 100 (by decide)⟩

/-! ## C18 -/

/-- C18 (failing run): on the fresh heap `p1 = mm_malloc(16)` is 4288, in a
block whose header word is 33 (size 32, allocated), and `p2 = mm_malloc(16)`
is 4320. The caller fills the 16 bytes at `p2` with 171. `mm_realloc(p1, 100)`
returns 4352; byte 32 of the new block is 171, the first byte at `p2`, while
`mm_malloc(100)` alone leaves 0 there: 33 bytes were copied, the raw header
word, not the size 32. -/
theorem C18_realloc_copies_header_word_many_bytes :
    (mm_malloc 3 heap1 16).bind (fun r1 => (mm_malloc 3 r1.1 16).map (fun r2 =>
      (r1.2, r2.2, GET r2.1.mem (HDRP r1.2), GET_SIZE r2.1.mem (HDRP r1.2))))
      = some (4288, 4320, 33, 32) ∧
    (mm_malloc 3 heap1 16).bind (fun r1 => (mm_malloc 3 r1.1 16).bind (fun r2 =>
      (mm_malloc 3 (r2.1.setMem (fill r2.1.mem r2.2 16 171)) 100).bind (fun r3 =>
        (mm_realloc 3 (r2.1.setMem (fill r2.1.mem r2.2 16 171)) r1.2 100).map (fun r4 =>
          (r4.2, r3.1.mem (r4.2 + 32), r4.1.mem (r4.2 + 31), r4.1.mem (r4.2 + 32),
            r4.1.mem (r4.2 + 33))))))
      = some (4352, 0, 0, 171, 0) := by decide!

/-! ## C19 -/

/-- C19: in a well-formed heap whose blocks in address order are
`pre ++ b :: post`, with every free block linked in the bucket of its size,
`coalesce` on the free block `b` returns the address of `mergedBlk pre b post`:
the address of the previous block when that one is free and `b.bp` otherwise,
with the size of `b` plus the sizes of the free ones among the previous and
the next block. The heap afterwards is well-formed with the blocks
`mergedList pre b post`; header and footer of the merged block hold its size
with the allocated bit clear; the bucket lists are the ones before, without
the addresses inside the merged extent, plus the merged block in the bucket of
its size. When neither neighbour is free the heap is unchanged. -/
theorem C19_coalesce_merges_free_neighbours (s : Heap) (pre post : List Blk) (b : Blk)
    (F : Nat → List Nat) (h : Rep s (pre ++ b :: post) F)
    (hcomp : Complete (pre ++ b :: post) F) (hbf : b.al = false) :
    ∃ s' F', coalesce s b.bp = (s', (mergedBlk pre b post).bp) ∧
      Rep s' (mergedList pre b post) F' ∧
      GET_SIZE s'.mem (HDRP (mergedBlk pre b post).bp) = (mergedBlk pre b post).sz ∧
      GET_ALLOC s'.mem (HDRP (mergedBlk pre b post).bp) = 0 ∧
      GET_SIZE s'.mem (FTRP s'.mem (mergedBlk pre b post).bp) = (mergedBlk pre b post).sz ∧
      GET_ALLOC s'.mem (FTRP s'.mem (mergedBlk pre b post).bp) = 0 ∧
      (∀ j, j < 21 → ∀ z, z ∈ F' j ↔
        (z ∈ F j ∧ (z < (mergedBlk pre b post).bp ∨
          (mergedBlk pre b post).bp + (mergedBlk pre b post).sz ≤ z)) ∨
        (j = listIdOfSize (mergedBlk pre b post).sz ∧ z = (mergedBlk pre b post).bp)) ∧
      (isFreeBlk pre.getLast? = false → isFreeBlk post.head? = false → s' = s) := by
  obtain ⟨s', F', h1, h2, -, h4, h5⟩ := coalesce_exact h hcomp hbf
  have h2' : Rep s' (mergedList pre b post) F' := h2
  have hm : mergedBlk pre b post ∈ mergedList pre b post :=
    List.mem_append_right _ (List.mem_cons_self _ _)
  obtain ⟨a1, -, a3, a4⟩ := h2'.blocks.hdr hm
  obtain ⟨b1, -, b3, b4⟩ := h2'.blocks.ftr hm
  refine ⟨s', F', h1, h2', ?_, ?_, ?_, ?_, h4, h5⟩
  · rw [a1]; exact a3
  · rw [a1]; exact a4
  · rw [b1]; exact b3
  · rw [b1]; exact b4

/-- Witness of `C19_coalesce_merges_free_neighbours` on `heapX`, whose blocks
are the free block of 2032 bytes at 4288 and the free block of 2064 bytes at
6320, both linked in bucket 11. `coalesce(4288)` absorbs the next block and
`coalesce(6320)` absorbs the previous block: either call returns 4288 and
leaves one free block of 4096 bytes there. -/
theorem C19_coalesce_merges_free_neighbours_witness :
    Rep heapX ([] ++ (⟨4288, 2032, false⟩ : Blk) :: [⟨6320, 2064, false⟩])
      (fun i => if i = 11 then [4288, 6320] else []) ∧
    Complete ([] ++ (⟨4288, 2032, false⟩ : Blk) :: [⟨6320, 2064, false⟩])
      (fun i => if i = 11 then [4288, 6320] else []) ∧
    (∃ s' F', coalesce heapX 4288 = (s', 4288) ∧ Rep s' [⟨4288, 4096, false⟩] F' ∧
      GET_SIZE s'.mem (HDRP 4288) = 4096 ∧ GET_ALLOC s'.mem (HDRP 4288) = 0 ∧
      (∀ j, j < 21 → ∀ z, z ∈ F' j ↔ j = listIdOfSize 4096 ∧ z = 4288)) ∧
    (∃ s' F', coalesce heapX 6320 = (s', 4288) ∧ Rep s' [⟨4288, 4096, false⟩] F' ∧
      GET_SIZE s'.mem (HDRP 4288) = 4096 ∧ GET_ALLOC s'.mem (HDRP 4288) = 0) :=
  ⟨heapX_rep, heapX_complete,
    (C19_coalesce_merges_free_neighbours heapX [] [⟨6320, 2064, false⟩] ⟨4288, 2032, false⟩ _
      heapX_rep heapX_complete rfl).elim (fun s' h => h.elim (fun F' h =>
        ⟨s', F', h.1, h.2.1, h.2.2.1, h.2.2.2.1, fun j hj z => by
          rw [h.2.2.2.2.2.2.1 j hj z]
          constructor
          · rintro (⟨h1, h2⟩ | h3)
            · exfalso
              by_cases h11 : j = 11
              · simp only [h11, if_true, List.mem_cons, List.mem_singleton,
                  List.not_mem_nil, or_false] at h1
                have h2' : z < 4288 ∨ 4288 + 4096 ≤ z := h2
                omega
              · simp only [h11, if_false, List.not_mem_nil] at h1
            · exact h3
          · intro h3
            exact Or.inr h3⟩)),
    (C19_coalesce_merges_free_neighbours heapX [⟨4288, 2032, false⟩] [] ⟨6320, 2064, false⟩ _
      heapX_rep heapX_complete rfl).elim (fun s' h => h.elim (fun F' h =>
        ⟨s', F', h.1, h.2.1, h.2.2.1, h.2.2.2.1⟩))⟩

/-! ## C20 -/

/-- C20: in a well-formed heap whose blocks in address order are
`pre ++ b :: post`, for a block `b` linked in the bucket of its size (so `b`
is free) and an adjusted size `a` (a multiple of 16, at least 32) with
`a ≤ b.sz`, the heap after `place(b.bp, a)` is well-formed with the blocks
`pre ++ placedList b a ++ post`: when `b.sz - a ≥ 32`, the block at `b.bp`
with size `a`, allocated, and a free block at `b.bp + a` of size `b.sz - a`;
otherwise the block at `b.bp` with size `b.sz`, allocated. Header and footer
of every block hold its size and flag, the blocks before and after are the
ones before the call, `b.bp` is linked in no bucket any more, and the only new
entry is the remainder, in the bucket of `b.sz - a`. -/
theorem C20_place_splits_or_uses_whole_block (s : Heap) (pre post : List Blk) (b : Blk)
    (F : Nat → List Nat) (h : Rep s (pre ++ b :: post) F)
    (hl : b.bp ∈ F (listIdOfSize b.sz)) (a : Nat) (h32 : 32 ≤ a) (h16 : a % 16 = 0)
    (hfit : a ≤ b.sz) :
    ∃ F', Rep (place s b.bp a) (pre ++ placedList b a ++ post) F' ∧
      (∀ x ∈ pre ++ placedList b a ++ post,
        GET (place s b.bp a).mem (HDRP x.bp) = x.tag ∧
        GET (place s b.bp a).mem (FTRP (place s b.bp a).mem x.bp) = x.tag) ∧
      (∀ x ∈ post, GET (place s b.bp a).mem (HDRP x.bp) = GET s.mem (HDRP x.bp)) ∧
      (∀ j, j < 21 → ∀ z, z ∈ F' j ↔ (z ∈ F j ∧ z ≠ b.bp) ∨
        (32 ≤ b.sz - a ∧ j = listIdOfSize (b.sz - a) ∧ z = b.bp + a)) := by
  obtain ⟨F', h1, -, h3⟩ := place_exact h hl a h32 h16 hfit
  have h1' : Rep (place s b.bp a) (pre ++ placedList b a ++ post) F' := h1
  refine ⟨F', h1', ?_, ?_, h3⟩
  · intro x hx
    obtain ⟨a1, a2, -⟩ := h1'.blocks.hdr hx
    obtain ⟨b1, b2, -⟩ := h1'.blocks.ftr hx
    exact ⟨by rw [a1]; exact a2, by rw [b1]; exact b2⟩
  · intro x hx
    obtain ⟨a1, a2, -⟩ := h1'.blocks.hdr (List.mem_append_right _ hx)
    obtain ⟨c1, c2, -⟩ := h.blocks.hdr
      (List.mem_append_right _ (List.mem_cons_of_mem _ hx))
    rw [a1, a2, c2]

/-- Witness of `C20_place_splits_or_uses_whole_block`: placing 32 bytes in the
block of the freshly initialised heap. -/
theorem C20_place_splits_or_uses_whole_block_witness :
    Rep heap1 ([] ++ (⟨4288, 4096, false⟩ : Blk) :: [])
      (fun i => if i = 12 then [4288] else []) ∧
    (4288 : Nat) ∈ (fun i => if i = 12 then [4288] else [] : Nat → List Nat)
      (listIdOfSize 4096) ∧
    ∃ F', Rep (place heap1 4288 32)
      ([] ++ placedList ⟨4288, 4096, false⟩ 32 ++ []) F' :=
  have hl : (4288 : Nat) ∈ (fun i => if i = 12 then [4288] else [] : Nat → List Nat)
      (listIdOfSize 4096) := by
    rw [listIdOfSize_4096]
    simp
  ⟨heap1_rep, hl,
    (C20_place_splits_or_uses_whole_block heap1 [] [] ⟨4288, 4096, false⟩ _ heap1_rep hl 32
      (by decide) (by decide) (by decide)).elim (fun F' h => ⟨F', h.1⟩)⟩

/-! ## C21 -/

/-- C21: in a well-formed heap with bucket lists `F`, with fuel above the
length of every list, `find_fit(a)` returns some `r`. It is null exactly when
every block linked in the buckets `find_id(a) .. 20` has size below `a`. When
`r` is not null, it is the address of a free block of size at least `a`,
linked in a bucket `i ≥ find_id(a)` as `F i = l1 ++ r :: l2`, where every block
of `l1` (the blocks before it in the list) and every block of the buckets
`find_id(a) .. i - 1` has size below `a`. -/
theorem C21_find_fit_is_first_fit (s : Heap) (bs : List Blk) (F : Nat → List Nat)
    (h : Rep s bs F) (a fuel : Nat) (hfuel : ∀ i, i < 21 → (F i).length < fuel) :
    ∃ r, find_fit fuel s a = some r ∧
      (r = 0 ↔ ∀ i, find_id (toInt32 a) ≤ i → i < 21 → ∀ x ∈ F i,
        GET_SIZE s.mem (HDRP x) < a) ∧
      (r ≠ 0 → a ≤ GET_SIZE s.mem (HDRP r) ∧
        (∃ b ∈ bs, b.bp = r ∧ b.al = false ∧ a ≤ b.sz) ∧
        ∃ i l1 l2, find_id (toInt32 a) ≤ i ∧ i < 21 ∧ F i = l1 ++ r :: l2 ∧
          (∀ x ∈ l1, GET_SIZE s.mem (HDRP x) < a) ∧
          ∀ j, find_id (toInt32 a) ≤ j → j < i → ∀ x ∈ F j,
            GET_SIZE s.mem (HDRP x) < a) :=
  find_fit_first h a fuel hfuel

/-- Witness of `C21_find_fit_is_first_fit` on `heapX`, whose bucket 11 is the
list 4288 (a block of 2032 bytes), 6320 (a block of 2064 bytes). A search for
2048 bytes starts at bucket 11, passes over 4288, which is too small, and
returns 6320; a search for 4096 bytes starts at bucket 12 and returns null. -/
theorem C21_find_fit_is_first_fit_witness :
    Rep heapX [⟨4288, 2032, false⟩, ⟨6320, 2064, false⟩]
      (fun i => if i = 11 then [4288, 6320] else []) ∧
    (∀ i, i < 21 →
      ((fun i => if i = 11 then [4288, 6320] else [] : Nat → List Nat) i).length < 3) ∧
    find_fit 3 heapX 2048 = some 6320 ∧ find_id (toInt32 2048) = 11 ∧
    GET_SIZE heapX.mem (HDRP 4288) = 2032 ∧ GET_SIZE heapX.mem (HDRP 6320) = 2064 ∧
    (∃ i l1 l2, 11 ≤ i ∧ i < 21 ∧
      (fun i => if i = 11 then [4288, 6320] else [] : Nat → List Nat) i = l1 ++ 6320 :: l2 ∧
      ∀ x ∈ l1, GET_SIZE heapX.mem (HDRP x) < 2048) ∧
    find_fit 3 heapX 4096 = some 0 ∧
    (∀ i, find_id (toInt32 4096) ≤ i → i < 21 →
      ∀ x ∈ (fun i => if i = 11 then [4288, 6320] else [] : Nat → List Nat) i,
        GET_SIZE heapX.mem (HDRP x) < 4096) :=
  have hf : ∀ i, i < 21 →
      ((fun i => if i = 11 then [4288, 6320] else [] : Nat → List Nat) i).length < 3 := by
    intro i _
    by_cases h11 : i = 11
    · simp [h11]
    · simp [h11]
  have e1 : find_fit 3 heapX 2048 = some 6320 := by decide!
  have e2 : find_fit 3 heapX 4096 = some 0 := by decide!
  have e3 : find_id (toInt32 2048) = 11 := by decide
  ⟨heapX_rep, hf, e1, e3, by decide!, by decide!,
    (C21_find_fit_is_first_fit heapX _ _ heapX_rep 2048 3 hf).elim (fun r h => by
      have hr : r = 6320 := Option.some.inj (h.1.symm.trans e1)
      subst hr
      obtain ⟨-, -, i, l1, l2, g1, g2, g3, g4, -⟩ := h.2.2 (by decide)
      rw [e3] at g1
      exact ⟨i, l1, l2, g1, g2, g3, g4⟩),
    e2,
    (C21_find_fit_is_first_fit heapX _ _ heapX_rep 4096 3 hf).elim (fun r h => by
      have hr : r = 0 := Option.some.inj (h.1.symm.trans e2)
      subst hr
      exact h.2.1.1 rfl)⟩

/-! ## C22 -/

/-- C22 (failing run): on the fresh heap `p = mm_malloc(2^64 - 31)` returns
4288; after `mm_free(p)` the block at 4288 is free with size 8192, whose
bucket is 13, and it is the head of bucket 12 and of bucket 13: it occurs
twice across the bucket lists. -/
theorem C22_free_block_linked_in_two_buckets_after_overflowing_request :
    (mm_malloc 3 heap1 18446744073709551585).map (fun r =>
      (r.2, HEAD_PTR (mm_free r.1 r.2) 12, HEAD_PTR (mm_free r.1 r.2) 13,
        GET (mm_free r.1 r.2).mem (HDRP 4288), LIST_ID (mm_free r.1 r.2).mem 4288))
      = some (4288, 4288, 4288, 8192, 13) := by decide!

/-! ## C23 -/

/-- C23: in a well-formed heap with bucket lists `F`, reading bucket `j` by
following succ from its slot gives `F j`. For every free block `b` that is not
linked, after `insert_to_list(b)` the buckets read as `absPush F id b`, where
`id = LIST_ID(b)`: `b :: F id` in bucket `id` and `F j` elsewhere. For every
block `x` linked in a bucket `i`, `LIST_ID(x) = i` and after
`delete_from_list(x)` the buckets read as `absRemove F i x`: `F i` with `x`
erased in bucket `i` (wherever `x` is in the list: head or interior) and `F j`
elsewhere. After either operation every bucket satisfies the link
invariant. -/
theorem C23_free_list_store_refines_bucket_sequences (s : Heap) (bs : List Blk)
    (F : Nat → List Nat) (h : Rep s bs F) :
    (∀ j, j < 21 → ∀ fuel, (F j).length < fuel → bucketSeq fuel s j = some (F j)) ∧
    (∀ b ∈ bs, b.al = false → b.bp ∉ F (LIST_ID s.mem b.bp) →
      ∀ j, j < 21 → ∀ fuel, (F j).length + 1 < fuel →
        bucketSeq fuel (insert_to_list s b.bp) j =
          some (absPush F (LIST_ID s.mem b.bp) b.bp j) ∧
        LinkInv (insert_to_list s b.bp) j (absPush F (LIST_ID s.mem b.bp) b.bp j)) ∧
    (∀ x i, i < 21 → x ∈ F i → LIST_ID s.mem x = i ∧
      ∀ j, j < 21 → ∀ fuel, (F j).length < fuel →
        bucketSeq fuel (delete_from_list s x) j = some (absRemove F i x j) ∧
        LinkInv (delete_from_list s x) j (absRemove F i x j)) :=
  ⟨fun _ hj _ hf => h.bucket_read hj hf,
    fun _ hb hbf hnot _ hj _ hf => insert_refines h hb hbf hnot hj hf,
    fun _ _ hi hx => delete_refines h hi hx⟩

/-- Witness of `C23_free_list_store_refines_bucket_sequences`. On `heapX`,
where both free blocks are linked and bucket 11 reads 4288, 6320:
`delete_from_list(4288)` (the head) leaves 6320 and `delete_from_list(6320)`
(an interior block, the tail) leaves 4288. On `heapW`, where the free block at
4288 is not linked and bucket 11 reads 6320: `insert_to_list(4288)` gives
4288, 6320. -/
theorem C23_free_list_store_refines_bucket_sequences_witness :
    Rep heapX [⟨4288, 2032, false⟩, ⟨6320, 2064, false⟩]
      (fun i => if i = 11 then [4288, 6320] else []) ∧
    bucketSeq 3 heapX 11 = some [4288, 6320] ∧
    bucketSeq 3 (delete_from_list heapX 4288) 11 = some [6320] ∧
    LinkInv (delete_from_list heapX 4288) 11 [6320] ∧
    bucketSeq 3 (delete_from_list heapX 6320) 11 = some [4288] ∧
    LinkInv (delete_from_list heapX 6320) 11 [4288] ∧
    Rep heapW [⟨4288, 2032, false⟩, ⟨6320, 2064, false⟩]
      (fun i => if i = 11 then [6320] else []) ∧
    LIST_ID heapW.mem 4288 = 11 ∧
    bucketSeq 3 (insert_to_list heapW 4288) 11 = some [4288, 6320] ∧
    LinkInv (insert_to_list heapW 4288) 11 [4288, 6320] :=
  have hX := C23_free_list_store_refines_bucket_sequences heapX _ _ heapX_rep
  have hW := C23_free_list_store_refines_bucket_sequences heapW _ _ heapW_rep
  have hid : LIST_ID heapW.mem 4288 = 11 :=
    (LIST_ID_eq heapW_rep.blocks (b := ⟨4288, 2032, false⟩) (by simp)).trans listIdOfSize_2032
  have d1 := (hX.2.2 4288 11 (by decide) (by simp)).2 11 (by decide) 3 (by simp)
  have d2 := (hX.2.2 6320 11 (by decide) (by simp)).2 11 (by decide) 3 (by simp)
  have i1 := hW.2.1 ⟨4288, 2032, false⟩ (by simp) rfl (by rw [hid]; simp) 11 (by decide) 3
    (by simp)
  ⟨heapX_rep, by simpa using hX.1 11 (by decide) 3 (by simp),
    by simpa [absRemove] using d1.1, by simpa [absRemove] using d1.2,
    by simpa [absRemove] using d2.1, by simpa [absRemove] using d2.2,
    heapW_rep, hid,
    by
      have := i1.1
      rw [hid] at this
      simpa [absPush] using this,
    by
      have := i1.2
      rw [hid] at this
      simpa [absPush] using this⟩

/-! ## C24 -/

/-- C24: for every integer `sz`, `find_id sz` is below 21; when `sz ≤ 2^20` it
is the least `i` with `sz ≤ 2^i`; when `sz > 2^20` it is 20; and `find_id` is
monotone. -/
theorem C24_find_id_least_power_of_two (sz sz' : Int) :
    find_id sz < 21 ∧
    (sz ≤ 2 ^ 20 → sz ≤ 2 ^ find_id sz ∧ ∀ j, j < find_id sz → ¬ sz ≤ 2 ^ j) ∧
    ((2 : Int) ^ 20 < sz → find_id sz = 20) ∧
    (sz ≤ sz' → find_id sz ≤ find_id sz') :=
  ⟨(find_id_spec sz).1, (find_id_spec sz).2.1, (find_id_spec sz).2.2, find_id_mono sz sz'⟩

/-- Witness of `C24_find_id_least_power_of_two` at the sizes 17 and
2000000. -/
theorem C24_find_id_least_power_of_two_witness :
    ((17 : Int) ≤ 2 ^ 20 ∧ (17 : Int) ≤ 2000000 ∧ (2 : Int) ^ 20 < 2000000) ∧
    find_id 17 = 5 ∧ find_id 2000000 = 20 ∧ find_id 17 ≤ find_id 2000000 :=
  ⟨by decide, by decide, (C24_find_id_least_power_of_two 2000000 0).2.2.1 (by decide),
    (C24_find_id_least_power_of_two 17 2000000).2.2.2 (by decide)⟩

/-! ## C25 -/

/-- C25 (failing input): the block size `s = 2^31 + 32 = 2147483680` is a
multiple of 16 with `s - 31 > 2^20`; converted to a 32-bit `int`, `s - 31` is
`-2147483647`, for which `find_id` returns 0, so `LIST_ID` gives bucket 0, not
20. Likewise the size `2^32 + 48` gives bucket 5. Sizes below `2^31 + 32`
(here `2^31 + 16`) give bucket 20. -/
theorem C25_large_block_filed_in_bucket_0 :
    2147483680 % 16 = 0 ∧ 2 ^ 20 < 2147483680 - 31 ∧
    toInt32 (sub64 2147483680 31) = -2147483647 ∧
    listIdOfSize 2147483680 = 0 ∧ listIdOfSize 4294967344 = 5 ∧
    listIdOfSize 2147483664 = 20 := by decide!

end MM
